import Mathlib

/-!
# dtp: the line-delimited JSON request loop of the datetime plugin

Shallow embedding of `main.go` (package `main` of alwindoss/dtp).

The program reads standard input line by line with a `bufio.Scanner`, trims
each line, decodes it with `json.Unmarshal` into a `Request`, dispatches on the
method name, builds a `Response`, encodes it with `json.Marshal` and prints it.

The file follows that pipeline:

* text helpers (`strings.TrimSpace`, `bufio.ScanLines`);
* the JSON reader used by `json.Unmarshal`: scanner, value tree, decoding
  into `Request` (numbers become `float64` when the target is `interface{}`);
* the `float64` conversions `strconv.ParseFloat` / `strconv.FormatFloat`,
  modelled exactly with natural-number arithmetic;
* the JSON writer used by `json.Marshal`;
* the handlers, the loop body `handleLine` and the loop `main`;
* the theorems.

Go strings are modelled as Lean strings, that is, as sequences of Unicode
scalar values: standard input is taken to be well-formed UTF-8. Standard
input is given as its lines, each paired with the reading of the wall clock
during the iteration that handles it. The diagnostic log is only written
to and has no effect on standard output; it is left out.
-/

namespace Dtp

/-! ## Text helpers -/

/-- Go `unicode.IsSpace`: the Unicode White_Space property. -/
def isSpace (c : Char) : Bool :=
  let n := c.toNat
  (0x09 ≤ n && n ≤ 0x0d) || n == 0x20 || n == 0x85 || n == 0xA0 || n == 0x1680 ||
    (0x2000 ≤ n && n ≤ 0x200a) || n == 0x2028 || n == 0x2029 || n == 0x202f ||
    n == 0x205f || n == 0x3000

/-- Go `strings.TrimSpace` on a list of characters: leading and trailing
white space removed. -/
def trimSpaceChars (cs : List Char) : List Char :=
  ((cs.dropWhile isSpace).reverse.dropWhile isSpace).reverse

/-- Go `strings.TrimSpace`. -/
def TrimSpace (s : String) : String :=
  String.mk (trimSpaceChars s.data)

/-- The `dropCR` step of `bufio.ScanLines`: one trailing carriage return is
removed from the line. -/
def dropCR (cs : List Char) : List Char :=
  match cs.reverse with
  | '\r' :: rest => rest.reverse
  | _ => cs

/-- Go `bufio.MaxScanTokenSize`: the scanner of `main` keeps its default
buffer, so a line of this many bytes or more makes `Scan` fail with
`ErrTooLong`. -/
def MaxScanTokenSize : Nat := 64 * 1024

/-! ## JSON values as written -/

/-- A JSON number as written: `-`? digits (`.` digits)? (`e` sign? digits)?.
`mant` is the integer and fraction digits read as one decimal number,
`scale` the number of fraction digits, `ex` the written exponent and `eneg`
its sign. The number denoted is `mant * 10 ^ (±ex - scale)`, negated when
`neg`. -/
structure NumLit where
  neg : Bool
  mant : Nat
  scale : Nat
  eneg : Bool
  ex : Nat
deriving DecidableEq

/-- A JSON text parsed into a tree. Strings are unquoted, numbers are kept
as written, object members are kept in order with their duplicates. -/
inductive Json where
  | null
  | bool (b : Bool)
  | num (n : NumLit)
  | str (s : String)
  | arr (elems : List Json)
  | obj (members : List (String × Json))

/-! ## The JSON scanner (tokens) -/

/-- A piece of a JSON string literal: a character, or a `\uXXXX` escape
with its 16-bit code (surrogate halves are paired afterwards). -/
inductive StrUnit where
  | chr (c : Char)
  | esc (code : Nat)
deriving DecidableEq

/-- The tokens of a JSON text. -/
inductive Token where
  | lbrace
  | rbrace
  | lbrack
  | rbrack
  | comma
  | colon
  | str (s : String)
  | num (n : NumLit)
  | tru
  | fls
  | nul
deriving DecidableEq

/-- Go `unicode.ReplacementChar`, U+FFFD. -/
def replacementChar : Char := Char.ofNat 0xFFFD

/-- Go `utf16.IsSurrogate`. -/
def isSurrogate (u : Nat) : Bool := 0xD800 ≤ u && u < 0xE000

/-- Go `utf16.DecodeRune`: the code point of a surrogate pair, when `hi` is
a high and `lo` a low surrogate. -/
def decodeSurrogates (hi lo : Nat) : Option Char :=
  if 0xD800 ≤ hi && hi < 0xDC00 && 0xDC00 ≤ lo && lo < 0xE000 then
    some (Char.ofNat ((hi - 0xD800) * 0x400 + (lo - 0xDC00) + 0x10000))
  else none

/-- The rune written for one `\uXXXX` escape that is not the first half of
a valid pair: an unpaired surrogate becomes U+FFFD. -/
def escRune (u : Nat) : Char :=
  if isSurrogate u then replacementChar else Char.ofNat u

/-- The text of a string literal from its pieces, as `unquote` of
`encoding/json` builds it. `pending` is a `\uXXXX` escape just read and not
yet written: it is combined with a directly following `\uXXXX` low
surrogate when it is a high surrogate, and written on its own otherwise
(as U+FFFD when it is a surrogate). -/
def decodeFrom : Option Nat → List StrUnit → List Char
  | none, [] => []
  | some u, [] => [escRune u]
  | none, .chr c :: rest => c :: decodeFrom none rest
  | none, .esc u :: rest => decodeFrom (some u) rest
  | some u, .chr c :: rest => escRune u :: c :: decodeFrom none rest
  | some u, .esc v :: rest =>
    match decodeSurrogates u v with
    | some c => c :: decodeFrom none rest
    | none => escRune u :: decodeFrom (some v) rest

/-- The text of a string literal from its pieces. -/
def decodeUnits (us : List StrUnit) : List Char := decodeFrom none us

/-- States of the scanner inside and between tokens. -/
inductive LexState where
  /-- Between tokens. -/
  | start
  /-- Inside a string literal; the pieces read so far, last first. -/
  | inString (acc : List StrUnit)
  /-- After a backslash in a string literal. -/
  | inStringEsc (acc : List StrUnit)
  /-- After `\u` and `k < 4` hexadecimal digits of value `code`. -/
  | inStringEscU (acc : List StrUnit) (k : Nat) (code : Nat)
  /-- After the minus sign of a number. -/
  | neg
  /-- After a leading zero. -/
  | zero (neg : Bool)
  /-- In the integer digits. -/
  | int (neg : Bool) (m : Nat)
  /-- After the decimal point, before the first fraction digit. -/
  | dot (neg : Bool) (m : Nat)
  /-- In the fraction digits. -/
  | frac (neg : Bool) (m : Nat) (scale : Nat)
  /-- After `e` or `E`. -/
  | e (neg : Bool) (m : Nat) (scale : Nat)
  /-- After the sign of the exponent. -/
  | eSign (neg : Bool) (m : Nat) (scale : Nat) (eneg : Bool)
  /-- In the exponent digits. -/
  | eDigits (neg : Bool) (m : Nat) (scale : Nat) (eneg : Bool) (ex : Nat)
  /-- Inside `true`, `false` or `null`: the characters still expected. -/
  | lit (rest : List Char) (tok : Token)

/-- White space between JSON tokens: space, tab, carriage return, line feed. -/
def isJsonSpace (c : Char) : Bool :=
  c == ' ' || c == '\t' || c == '\r' || c == '\n'

/-- Value of a decimal digit character. -/
def digitVal (c : Char) : Option Nat :=
  if '0' ≤ c ∧ c ≤ '9' then some (c.toNat - 48) else none

/-- Value of a hexadecimal digit character, either case. -/
def hexVal (c : Char) : Option Nat :=
  if '0' ≤ c ∧ c ≤ '9' then some (c.toNat - 48)
  else if 'a' ≤ c ∧ c ≤ 'f' then some (c.toNat - 87)
  else if 'A' ≤ c ∧ c ≤ 'F' then some (c.toNat - 55)
  else none

/-- One scanner step between tokens: the tokens completed by `c` and the
next state. -/
def stepStart (c : Char) : Option (List Token × LexState) :=
  if isJsonSpace c then some ([], .start)
  else if c = '\x7b' then some ([.lbrace], .start)
  else if c = '\x7d' then some ([.rbrace], .start)
  else if c = '[' then some ([.lbrack], .start)
  else if c = ']' then some ([.rbrack], .start)
  else if c = ',' then some ([.comma], .start)
  else if c = ':' then some ([.colon], .start)
  else if c = '"' then some ([], .inString [])
  else if c = '-' then some ([], .neg)
  else if c = '0' then some ([], .zero false)
  else if c = 't' then some ([], .lit ['r', 'u', 'e'] .tru)
  else if c = 'f' then some ([], .lit ['a', 'l', 's', 'e'] .fls)
  else if c = 'n' then some ([], .lit ['u', 'l', 'l'] .nul)
  else match digitVal c with
    | some d => some ([], .int false d)
    | none => none

/-- A number has ended before `c`: emit it and read `c` as the start of the
next token. -/
def endNumber (n : NumLit) (c : Char) : Option (List Token × LexState) :=
  match stepStart c with
  | some (toks, st) => some (.num n :: toks, st)
  | none => none

/-- One step of the scanner of `encoding/json` on character `c`. -/
def step : LexState → Char → Option (List Token × LexState)
  | .start, c => stepStart c
  | .inString acc, c =>
    if c = '"' then some ([.str (String.mk (decodeUnits acc.reverse))], .start)
    else if c = '\\' then some ([], .inStringEsc acc)
    else if c.toNat < 0x20 then none
    else some ([], .inString (.chr c :: acc))
  | .inStringEsc acc, c =>
    if c = 'b' then some ([], .inString (.chr (Char.ofNat 8) :: acc))
    else if c = 'f' then some ([], .inString (.chr (Char.ofNat 12) :: acc))
    else if c = 'n' then some ([], .inString (.chr '\n' :: acc))
    else if c = 'r' then some ([], .inString (.chr '\r' :: acc))
    else if c = 't' then some ([], .inString (.chr '\t' :: acc))
    else if c = '\\' ∨ c = '/' ∨ c = '"' then some ([], .inString (.chr c :: acc))
    else if c = 'u' then some ([], .inStringEscU acc 0 0)
    else none
  | .inStringEscU acc k code, c =>
    match hexVal c with
    | some h =>
      if k < 3 then some ([], .inStringEscU acc (k + 1) (code * 16 + h))
      else some ([], .inString (.esc (code * 16 + h) :: acc))
    | none => none
  | .neg, c =>
    if c = '0' then some ([], .zero true)
    else match digitVal c with
      | some d => some ([], .int true d)
      | none => none
  | .zero neg, c =>
    if c = '.' then some ([], .dot neg 0)
    else if c = 'e' ∨ c = 'E' then some ([], .e neg 0 0)
    else endNumber ⟨neg, 0, 0, false, 0⟩ c
  | .int neg m, c =>
    match digitVal c with
    | some d => some ([], .int neg (m * 10 + d))
    | none =>
      if c = '.' then some ([], .dot neg m)
      else if c = 'e' ∨ c = 'E' then some ([], .e neg m 0)
      else endNumber ⟨neg, m, 0, false, 0⟩ c
  | .dot neg m, c =>
    match digitVal c with
    | some d => some ([], .frac neg (m * 10 + d) 1)
    | none => none
  | .frac neg m scale, c =>
    match digitVal c with
    | some d => some ([], .frac neg (m * 10 + d) (scale + 1))
    | none =>
      if c = 'e' ∨ c = 'E' then some ([], .e neg m scale)
      else endNumber ⟨neg, m, scale, false, 0⟩ c
  | .e neg m scale, c =>
    if c = '+' then some ([], .eSign neg m scale false)
    else if c = '-' then some ([], .eSign neg m scale true)
    else match digitVal c with
      | some d => some ([], .eDigits neg m scale false d)
      | none => none
  | .eSign neg m scale eneg, c =>
    match digitVal c with
    | some d => some ([], .eDigits neg m scale eneg d)
    | none => none
  | .eDigits neg m scale eneg ex, c =>
    match digitVal c with
    | some d => some ([], .eDigits neg m scale eneg (ex * 10 + d))
    | none => endNumber ⟨neg, m, scale, eneg, ex⟩ c
  | .lit rest tok, c =>
    match rest with
    | [] => none
    | [x] => if c = x then some ([tok], .start) else none
    | x :: more => if c = x then some ([], .lit more tok) else none

/-- End of input: the token still open, if the text may end there. -/
def finish : LexState → Option (List Token)
  | .start => some []
  | .zero neg => some [.num ⟨neg, 0, 0, false, 0⟩]
  | .int neg m => some [.num ⟨neg, m, 0, false, 0⟩]
  | .frac neg m scale => some [.num ⟨neg, m, scale, false, 0⟩]
  | .eDigits neg m scale eneg ex => some [.num ⟨neg, m, scale, eneg, ex⟩]
  | _ => none

/-- The scanner run over a text from state `st`: its tokens, or `none` on a
character the scanner refuses. -/
def lexFrom : LexState → List Char → Option (List Token)
  | st, [] => finish st
  | st, c :: cs =>
    match step st c with
    | none => none
    | some (toks, st2) =>
      match lexFrom st2 cs with
      | none => none
      | some more => some (toks ++ more)

/-! ## The JSON grammar (value tree) -/

/-- Go `maxNestingDepth` of `encoding/json`: arrays and objects may be
nested this deep; one level more is refused ("exceeded max depth"). -/
def maxNestingDepth : Nat := 10000

/-- An array or object that is still open, with what was read of it so far
(last first). An object also holds the key whose value is being read. -/
inductive Frame where
  | arr (elems : List Json)
  | obj (members : List (String × Json)) (key : Option String)

/-- What the grammar expects next. -/
inductive Mode where
  /-- A value: at the top, after `,` in an array, after `:` in an object. -/
  | value
  /-- Just after `[`: a value or `]`. -/
  | valueOrEnd
  /-- Just after the opening brace: a key or the closing brace. -/
  | keyOrEnd
  /-- After `,` in an object: a key. -/
  | key
  /-- After a key: `:`. -/
  | colon
  /-- After a value inside an array or object: `,` or the closing bracket. -/
  | next
  /-- After the top-level value: nothing but white space. -/
  | done (v : Json)

/-- Parser state: what is expected next and the open arrays and objects,
innermost first. -/
structure PState where
  mode : Mode
  stack : List Frame

/-- A value `v` has been read completely: it is the top-level value, or it
joins the innermost open array or object. -/
def reduce (v : Json) : List Frame → Option PState
  | [] => some ⟨.done v, []⟩
  | .arr elems :: rest => some ⟨.next, .arr (v :: elems) :: rest⟩
  | .obj members (some k) :: rest => some ⟨.next, .obj ((k, v) :: members) none :: rest⟩
  | .obj _ none :: _ => none

/-- A value starts with token `t`. -/
def beginValue (t : Token) (stack : List Frame) : Option PState :=
  match t with
  | .lbrack =>
    if stack.length + 1 ≤ maxNestingDepth then some ⟨.valueOrEnd, .arr [] :: stack⟩ else none
  | .lbrace =>
    if stack.length + 1 ≤ maxNestingDepth then some ⟨.keyOrEnd, .obj [] none :: stack⟩ else none
  | .str s => reduce (.str s) stack
  | .num n => reduce (.num n) stack
  | .tru => reduce (.bool true) stack
  | .fls => reduce (.bool false) stack
  | .nul => reduce .null stack
  | _ => none

/-- The innermost open array or object is closed by token `t`. -/
def closeFrame (t : Token) : List Frame → Option PState
  | .arr elems :: rest =>
    if t = .rbrack then reduce (.arr elems.reverse) rest else none
  | .obj members none :: rest =>
    if t = .rbrace then reduce (.obj members.reverse) rest else none
  | _ => none

/-- A key of the innermost open object is read. -/
def beginKey (t : Token) : List Frame → Option PState
  | .obj members none :: rest =>
    match t with
    | .str k => some ⟨.colon, .obj members (some k) :: rest⟩
    | _ => none
  | _ => none

/-- One step of the grammar on token `t`. -/
def pstep (st : PState) (t : Token) : Option PState :=
  match st.mode with
  | .value => beginValue t st.stack
  | .valueOrEnd => if t = .rbrack then closeFrame t st.stack else beginValue t st.stack
  | .keyOrEnd => if t = .rbrace then closeFrame t st.stack else beginKey t st.stack
  | .key => beginKey t st.stack
  | .colon => if t = .colon then some ⟨.value, st.stack⟩ else none
  | .next =>
    if t = .comma then
      match st.stack with
      | .arr _ :: _ => some ⟨.value, st.stack⟩
      | .obj _ none :: _ => some ⟨.key, st.stack⟩
      | _ => none
    else closeFrame t st.stack
  | .done _ => none

/-- The grammar run over the tokens from state `st`. -/
def parseTokens : PState → List Token → Option Json
  | st, [] =>
    match st.mode with
    | .done v => some v
    | _ => none
  | st, t :: ts =>
    match pstep st t with
    | none => none
    | some st2 => parseTokens st2 ts

/-- The value tree of a JSON text, `none` when the text is not valid JSON
(the `checkValid` pass of `json.Unmarshal`). -/
def parseJson (cs : List Char) : Option Json :=
  match lexFrom .start cs with
  | none => none
  | some toks => parseTokens ⟨.value, []⟩ toks

/-! ## float64 and its decimal conversions

`json.Unmarshal` stores a JSON number into an `interface{}` as a `float64`
obtained with `strconv.ParseFloat`, and `json.Marshal` writes a `float64` with
`strconv.AppendFloat(b, f, fmt, -1, 64)`: the shortest decimal that reads
back as the same `float64`. Both are modelled exactly on natural numbers. -/

/-- The least positive binary64 is `2 ^ (-1074)`, and every finite binary64
is a multiple of it: exponents are counted from `-1074`. -/
def expBias : Nat := 1074

/-- A finite IEEE-754 binary64 value: `mant * 2 ^ exp / 2 ^ expBias` in
magnitude, negative when `neg`. Values produced here have `mant < 2 ^ 53`,
`exp ≤ 2045`, and `2 ^ 52 ≤ mant` unless `exp = 0` (the subnormal numbers
and the first binade share `exp = 0`). -/
structure Float64 where
  neg : Bool
  mant : Nat
  exp : Nat
deriving DecidableEq

/-- Number of binary digits of `n`, by repeated halving (at most `fuel`). -/
def bitLenAux : Nat → Nat → Nat
  | 0, _ => 0
  | fuel + 1, n => if n = 0 then 0 else bitLenAux fuel (n / 2) + 1

/-- Number of binary digits of `n` (`0` for `0`). -/
def bitLen (n : Nat) : Nat := bitLenAux n n

/-- The quotient `n / d` rounded to the nearest integer, ties to even. -/
def roundHalfEven (n d : Nat) : Nat :=
  let q := n / d
  let r := n % d
  if 2 * r < d then q
  else if d < 2 * r then q + 1
  else if q % 2 = 0 then q
  else q + 1

/-- The binary64 nearest to `num / den`, ties to even, as mantissa and
exponent in the sense of `Float64`. The exponent exceeds `2045` exactly
when the rounded value is too large for a finite binary64. -/
def roundBinary (num den : Nat) : Nat × Nat :=
  let n := num * 2 ^ expBias
  let a := bitLen n
  let b := bitLen den
  let f := if den * 2 ^ (a - b) ≤ n then a - b else a - b - 1
  let s := f - 52
  let m := roundHalfEven n (den * 2 ^ s)
  if m = 2 ^ 53 then (2 ^ 52, s + 1) else (m, s)

/-- The exponent of a number as `readFloat` of `strconv` reads it. Its
digits are accumulated one by one, and a digit is added only while the
value read so far is below 10000 (`if e < 10000 { e = e*10 + digit }`).
Leading zeros leave that value at 0, so the loop is run on the digits of
the written exponent `ex` without them. -/
def readExponent (ex : Nat) : Nat :=
  (Nat.toDigits 10 ex).foldl (fun e c => if e < 10000 then e * 10 + (c.toNat - 48) else e) 0

/-- The magnitude of a number literal as `strconv` reads it, as a fraction:
`mant * 10 ^ (±e - scale)` with `e` the exponent that `readExponent`
gives. -/
def NumLit.readFraction (n : NumLit) : Nat × Nat :=
  let e := readExponent n.ex
  if n.eneg then (n.mant, 10 ^ (n.scale + e))
  else if n.scale ≤ e then (n.mant * 10 ^ (e - n.scale), 1)
  else (n.mant, 10 ^ (n.scale - e))

/-- Go `strconv.ParseFloat(s, 64)` on a JSON number: the binary64 nearest to
the number read, or `none` when that is out of range (`ErrRange`). -/
def ParseFloat (n : NumLit) : Option Float64 :=
  let fr := n.readFraction
  let r := roundBinary fr.1 fr.2
  if 2045 < r.2 then none else some ⟨n.neg, r.1, r.2⟩

/-- Go `convertNumber` of `encoding/json`: a number literal as `float64`. -/
def convertNumber (n : NumLit) : Option Float64 := ParseFloat n

/-- Number of decimal digits of `n`, by repeated division (at most `fuel`). -/
def decLenAux : Nat → Nat → Nat
  | 0, _ => 0
  | fuel + 1, n => if n = 0 then 0 else decLenAux fuel (n / 10) + 1

/-- Number of decimal digits of `n` (`0` for `0`). -/
def decLen (n : Nat) : Nat := decLenAux n n

/-- The least `j` from `j0` on with `den ≤ num * 10 ^ (j - j0)`, searched
for at most `fuel` steps. -/
def leadingZerosAux : Nat → Nat → Nat → Nat → Nat
  | 0, _, _, j => j
  | fuel + 1, num, den, j =>
    if den ≤ num then j else leadingZerosAux fuel (num * 10) den (j + 1)

/-- Position of the decimal point of the positive number `num / den`: the
`dp` with `10 ^ (dp - 1) ≤ num / den < 10 ^ dp`. -/
def decimalPoint (num den : Nat) : Int :=
  if den ≤ num then (decLen (num / den) : Int)
  else 1 - (leadingZerosAux den num den 0 : Int)

/-- The fraction `num / den * 10 ^ k`. -/
def scaleDec (num den : Nat) (k : Int) : Nat × Nat :=
  if 0 ≤ k then (num * 10 ^ k.toNat, den) else (num, den * 10 ^ (-k).toNat)

/-- The decimal `c * 10 ^ k` reads back as the binary64 `(mant, exp)`. -/
def readsBack (mant exp : Nat) (c : Nat) (k : Int) : Bool :=
  let fr := scaleDec c 1 k
  roundBinary fr.1 fr.2 == (mant, exp)

/-- The `n`-digit decimal for the positive binary64 `(mant, exp)` with
decimal point at `dp`, if one reads back as that value: of the two
`n`-digit decimals around the value, the one that reads back, the nearer
one when both do. -/
def shortestAt (mant exp : Nat) (dp : Int) (n : Nat) : Option Nat :=
  let fr := scaleDec (mant * 2 ^ exp) (2 ^ expBias) (n - dp)
  let lo := fr.1 / fr.2
  let okLo := readsBack mant exp lo (dp - n)
  let okHi := readsBack mant exp (lo + 1) (dp - n)
  if okLo && okHi then some (roundHalfEven fr.1 fr.2)
  else if okLo then some lo
  else if okHi then some (lo + 1)
  else none

/-- The shortest decimal for `(mant, exp)`: `n`, `n + 1`, ... digits are
tried in turn, at most `fuel` lengths, and after them the nearest decimal
of the next length is taken. Returns the digits as a number and their
count. -/
def shortestFrom (mant exp : Nat) (dp : Int) : Nat → Nat → Nat × Nat
  | 0, n =>
    let fr := scaleDec (mant * 2 ^ exp) (2 ^ expBias) (n - dp)
    (roundHalfEven fr.1 fr.2, n)
  | fuel + 1, n =>
    (shortestAt mant exp dp n).elim (shortestFrom mant exp dp fuel (n + 1)) fun c => (c, n)

/-- Trailing zeros removed from a list of digits given last digit first. -/
def dropZeros : List Char → List Char
  | '0' :: rest => dropZeros rest
  | ds => ds

/-- The digits and decimal point of the shortest decimal that reads back as
the binary64 `(mant, exp)` (`%e` is `d.ddd × 10 ^ (dp - 1)`); no digits for
zero. This is the `decimalSlice` that `strconv` formats with precision
`-1`. At most 17 digits are needed. -/
def shortestDecimal (mant exp : Nat) : List Char × Int :=
  if mant = 0 then ([], 0)
  else
    let dp := decimalPoint (mant * 2 ^ exp) (2 ^ expBias)
    let r := shortestFrom mant exp dp 16 1
    let ds := Nat.toDigits 10 r.1
    ((dropZeros ds.reverse).reverse, dp + ((ds.length : Int) - (r.2 : Int)))

/-- Go `fmtF` of `strconv` with the shortest digits: `-ddddddd.ddddd`. -/
def fmtF (neg : Bool) (d : List Char) (dp : Int) : List Char :=
  let nd : Int := d.length
  let sign := if neg then ['-'] else []
  let intPart :=
    if 0 < dp then d.take dp.toNat ++ List.replicate (dp.toNat - d.length) '0' else ['0']
  let prec := (nd - dp).toNat
  let fracPart :=
    if 0 < prec then
      '.' :: (List.range prec).map fun (i : Nat) =>
        let j : Int := dp + (i : Int)
        if 0 ≤ j ∧ j < nd then d.getD j.toNat '0' else '0'
    else []
  sign ++ intPart ++ fracPart

/-- Go `fmtE` of `strconv` with the shortest digits: `-d.ddddde±dd`. -/
def fmtE (neg : Bool) (d : List Char) (dp : Int) : List Char :=
  let sign := if neg then ['-'] else []
  let first := d.headD '0'
  let more := if 0 < d.length - 1 then '.' :: d.drop 1 else []
  let ex : Int := if d.length = 0 then 0 else dp - 1
  let esign := if ex < 0 then '-' else '+'
  let a := ex.natAbs
  let edigits :=
    if a < 10 then ['0', Nat.digitChar a]
    else if a < 100 then [Nat.digitChar (a / 10), Nat.digitChar (a % 10)]
    else [Nat.digitChar (a / 100), Nat.digitChar (a / 10 % 10), Nat.digitChar (a % 10)]
  sign ++ (first :: (more ++ 'e' :: esign :: edigits))

/-- Go `strconv.FormatFloat(f, fmt, -1, 64)` for `fmt` one of `f`, `e`. -/
def FormatFloat (f : Float64) (fmt : Char) : List Char :=
  let sd := shortestDecimal f.mant f.exp
  if fmt = 'e' then fmtE f.neg sd.1 sd.2 else fmtF f.neg sd.1 sd.2

/-- Magnitude comparison of two binary64 values. -/
def Float64.absLt (a b : Float64) : Bool :=
  a.mant * 2 ^ a.exp < b.mant * 2 ^ b.exp

/-- The Go constant `1e-6` as a `float64`. -/
def float1em6 : Float64 :=
  let r := roundBinary 1 (10 ^ 6)
  ⟨false, r.1, r.2⟩

/-- The Go constant `1e21` as a `float64`. -/
def float1e21 : Float64 :=
  let r := roundBinary (10 ^ 21) 1
  ⟨false, r.1, r.2⟩

/-- The clean-up of `floatEncoder.encode`: `e-09` becomes `e-9`. -/
def cleanExponent (b : List Char) : List Char :=
  match b.reverse with
  | x :: '0' :: sgn :: 'e' :: rest =>
    if sgn = '-' ∨ sgn = '+' then (x :: sgn :: 'e' :: rest).reverse else b
  | _ => b

/-- Go `floatEncoder.encode` of `encoding/json` for a finite `float64`: as
by the ES6 number-to-string conversion, format `f` unless the magnitude is
below `1e-6` or at least `1e21`. -/
def encodeFloat (f : Float64) : List Char :=
  if f.mant ≠ 0 ∧ (f.absLt float1em6 ∨ ¬ f.absLt float1e21) then
    cleanExponent (FormatFloat f 'e')
  else FormatFloat f 'f'

/-! ## Go values and `json.Unmarshal` into `Request` -/

/-- A Go `interface{}` value as `encoding/json` produces it: `nil`, `bool`,
`float64`, `string`, `[]interface{}` or `map[string]interface{}`. A map is
held as its entries in increasing key order, one entry per key, which is
the order in which `json.Marshal` writes them. -/
inductive GoVal where
  | nil
  | bool (b : Bool)
  | float64 (f : Float64)
  | string (s : String)
  | slice (elems : List GoVal)
  | map (entries : List (String × GoVal))

/-- The map assignment `m[k] = v` on the sorted entries of a map. -/
def mapSet (k : String) (v : GoVal) : List (String × GoVal) → List (String × GoVal)
  | [] => [(k, v)]
  | (k2, v2) :: rest =>
    if k = k2 then (k, v) :: rest
    else if k < k2 then (k, v) :: (k2, v2) :: rest
    else (k2, v2) :: mapSet k v rest

mutual
/-- Go `valueInterface` of `encoding/json`: a JSON value decoded into an
empty interface. `none` when a number in it is out of the `float64` range
(Unmarshal then returns an `UnmarshalTypeError`). -/
def valueInterface : Json → Option GoVal
  | .null => some .nil
  | .bool b => some (.bool b)
  | .num n =>
    match convertNumber n with
    | some f => some (.float64 f)
    | none => none
  | .str s => some (.string s)
  | .arr elems =>
    match arrayInterface elems with
    | some vs => some (.slice vs)
    | none => none
  | .obj members =>
    match objectInterface [] members with
    | some m => some (.map m)
    | none => none
/-- Go `arrayInterface`: the elements in order. -/
def arrayInterface : List Json → Option (List GoVal)
  | [] => some []
  | j :: js =>
    match valueInterface j, arrayInterface js with
    | some v, some vs => some (v :: vs)
    | _, _ => none
/-- Go `objectInterface`: the members are assigned into the map in order,
so the last of several equal keys wins. -/
def objectInterface : List (String × GoVal) → List (String × Json) →
    Option (List (String × GoVal))
  | m, [] => some m
  | m, (k, j) :: rest =>
    match valueInterface j with
    | some v => objectInterface (mapSet k v m) rest
    | none => none
end

/-- The request envelope, `type Request struct` of `main.go`. `Params` is
`none` for a nil slice. -/
structure Request where
  Method : String
  Params : Option (List GoVal)
  ID : GoVal

/-- The response envelope, `type Response struct` of `main.go`. -/
structure Response where
  Result : GoVal
  Error : GoVal
  ID : GoVal

/-- The fields of `Request` with a JSON name. -/
inductive Field where
  | method
  | params
  | id
deriving DecidableEq

/-- Go `foldRune` on the runes that fold to an ASCII letter: lower case to
upper case, U+017F (long s) to `S`, U+212A (Kelvin sign) to `K`. Every
other rune folds to a rune that occurs in no field name and is left as it
is. -/
def foldRune (c : Char) : Char :=
  if 'a' ≤ c ∧ c ≤ 'z' then Char.ofNat (c.toNat - 32)
  else if c = Char.ofNat 0x17F then 'S'
  else if c = Char.ofNat 0x212A then 'K'
  else c

/-- Go `foldName` of `encoding/json`: the case-folded form of an object key. -/
def foldName (k : String) : String := String.mk (k.data.map foldRune)

/-- The field of `Request` an object key is stored to: the field whose JSON
name is the key, or else the field whose name equals it under case
folding; unknown keys have none. -/
def findField (k : String) : Option Field :=
  if k = "method" then some .method
  else if k = "params" then some .params
  else if k = "id" then some .id
  else if foldName k = "METHOD" then some .method
  else if foldName k = "PARAMS" then some .params
  else if foldName k = "ID" then some .id
  else none

/-- One member value decoded into its field. `Method` takes a string and
ignores `null`; `Params` takes an array, `null` sets it to nil; `ID` takes
any value. Anything else is an `UnmarshalTypeError`: `none`. -/
def storeField (req : Request) : Field → Json → Option Request
  | .method, .str s => some { req with Method := s }
  | .method, .null => some req
  | .method, _ => none
  | .params, .null => some { req with Params := none }
  | .params, .arr elems =>
    match arrayInterface elems with
    | some vs => some { req with Params := some vs }
    | none => none
  | .params, _ => none
  | .id, v =>
    match valueInterface v with
    | some g => some { req with ID := g }
    | none => none

/-- The members of the top-level object decoded in order into `req`; keys
that name no field are skipped. -/
def decodeMembers : Request → List (String × Json) → Option Request
  | req, [] => some req
  | req, (k, v) :: rest =>
    match findField k with
    | none => decodeMembers req rest
    | some f =>
      match storeField req f v with
      | none => none
      | some req2 => decodeMembers req2 rest

/-- The zero value of `Request` (`var req Request`). -/
def Request.zero : Request := ⟨"", none, .nil⟩

/-- A JSON value decoded into `var req Request`: an object fills the
fields, `null` leaves the zero value, any other value is an
`UnmarshalTypeError`. -/
def decodeRequest : Json → Option Request
  | .null => some Request.zero
  | .obj members => decodeMembers Request.zero members
  | _ => none

/-- Go `json.Unmarshal([]byte(line), &req)` with `var req Request`: `some`
request when the returned error is nil, `none` otherwise. -/
def Unmarshal (data : String) : Option Request :=
  match parseJson data.data with
  | none => none
  | some j => decodeRequest j

/-! ## `json.Marshal` of `Response` -/

/-- Go `hex` of `encoding/json`. -/
def hexDigit (n : Nat) : Char := "0123456789abcdef".data.getD n '0'

/-- One character of a string inside a JSON string literal as
`appendString` writes it with HTML escaping on (the default of
`json.Marshal`). -/
def quoteChar (c : Char) : List Char :=
  if c = '\\' ∨ c = '"' then ['\\', c]
  else if c = Char.ofNat 8 then ['\\', 'b']
  else if c = Char.ofNat 12 then ['\\', 'f']
  else if c = '\n' then ['\\', 'n']
  else if c = '\r' then ['\\', 'r']
  else if c = '\t' then ['\\', 't']
  else if c.toNat < 0x20 ∨ c = '<' ∨ c = '>' ∨ c = '&' then
    ['\\', 'u', '0', '0', hexDigit (c.toNat / 16), hexDigit (c.toNat % 16)]
  else if c = Char.ofNat 0x2028 ∨ c = Char.ofNat 0x2029 then
    ['\\', 'u', '2', '0', '2', hexDigit (c.toNat % 16)]
  else [c]

/-- The characters of a string escaped for a JSON string literal. -/
def escapeChars : List Char → List Char
  | [] => []
  | c :: cs => quoteChar c ++ escapeChars cs

/-- Go `appendString`: a string as a JSON string literal. -/
def quote (s : String) : List Char :=
  '"' :: (escapeChars s.data ++ ['"'])

mutual
/-- The JSON text `json.Marshal` writes for an `interface{}` value. -/
def encodeValue : GoVal → List Char
  | .nil => ['n', 'u', 'l', 'l']
  | .bool b => if b then ['t', 'r', 'u', 'e'] else ['f', 'a', 'l', 's', 'e']
  | .float64 f => encodeFloat f
  | .string s => quote s
  | .slice elems => '[' :: (encodeElems true elems ++ [']'])
  | .map entries => '\x7b' :: (encodeEntries true entries ++ ['\x7d'])
/-- The elements of a slice, a comma before each but the first. -/
def encodeElems : Bool → List GoVal → List Char
  | _, [] => []
  | first, v :: vs =>
    (if first then [] else [',']) ++ (encodeValue v ++ encodeElems false vs)
/-- The entries of a map, a comma before each but the first. -/
def encodeEntries : Bool → List (String × GoVal) → List Char
  | _, [] => []
  | first, (k, v) :: rest =>
    (if first then [] else [',']) ++
      (quote k ++ ':' :: (encodeValue v ++ encodeEntries false rest))
end

/-- A struct field tagged `omitempty` of type `interface{}`: written unless
the interface is nil. -/
def omitEmpty (name : String) : GoVal → List (String × List Char)
  | .nil => []
  | v => [(name, encodeValue v)]

/-- The fields `json.Marshal` writes for a `Response`, with their encoded
values: `result` and `error` are `omitempty`, `id` is always written. -/
def Response.fields (r : Response) : List (String × List Char) :=
  omitEmpty "result" r.Result ++ omitEmpty "error" r.Error ++ [("id", encodeValue r.ID)]

/-- The members of a struct, a comma before each but the first. -/
def renderFields : Bool → List (String × List Char) → List Char
  | _, [] => []
  | first, (k, v) :: rest =>
    (if first then [] else [',']) ++ (quote k ++ ':' :: (v ++ renderFields false rest))

/-- Go `json.Marshal(resp)` for a `Response`. For the values that reach it
in `main` (decoded from JSON, or strings) it returns no error. -/
def Marshal (r : Response) : String :=
  String.mk ('\x7b' :: (renderFields true r.fields ++ ['\x7d']))

/-! ## The handlers -/

/-- A reading of the wall clock, `time.Now()`, as its local calendar date
and time of day. -/
structure Clock where
  year : Int
  month : Nat
  day : Nat
  hour : Nat
  minute : Nat
  second : Nat
deriving DecidableEq

/-- Go `appendInt` of package `time`: `x` in decimal, a minus sign first
when negative, padded with zeros on the left to `width` digits. -/
def appendInt (x : Int) (width : Nat) : List Char :=
  let ds := Nat.toDigits 10 x.natAbs
  (if x < 0 then ['-'] else []) ++ (List.replicate (width - ds.length) '0' ++ ds)

/-- Go `t.Format("2006-01-02")`: year, month and day. -/
def formatDate (t : Clock) : List Char :=
  appendInt t.year 4 ++ '-' :: (appendInt t.month 2 ++ '-' :: appendInt t.day 2)

/-- Go `t.Format("2006-01-02 15:04:05")`. -/
def formatDateTime (t : Clock) : List Char :=
  formatDate t ++ ' ' :: (appendInt t.hour 2 ++ ':' :: (appendInt t.minute 2 ++
    ':' :: appendInt t.second 2))

/-- `Plugin.InsertDateTime` with the clock reading `now` for `time.Now()`. -/
def Plugin.InsertDateTime (now : Clock) : String := String.mk (formatDateTime now)

/-- `Plugin.InsertDate` with the clock reading `now` for `time.Now()`. -/
def Plugin.InsertDate (now : Clock) : String := String.mk (formatDate now)

/-- `Plugin.GetCurrentTime` with the clock reading `now` for `time.Now()`. -/
def Plugin.GetCurrentTime (now : Clock) : String := String.mk (formatDateTime now)

/-! ## The request loop -/

/-- The `switch req.Method` of `main` and the `Response` built after it. -/
def respond (now : Clock) (req : Request) : Response :=
  if req.Method = "InsertDateTime" then ⟨.string (Plugin.InsertDateTime now), .nil, req.ID⟩
  else if req.Method = "InsertDate" then ⟨.string (Plugin.InsertDate now), .nil, req.ID⟩
  else if req.Method = "GetCurrentTime" then ⟨.string (Plugin.GetCurrentTime now), .nil, req.ID⟩
  else ⟨.nil, .string ("Unknown method: " ++ req.Method), req.ID⟩

/-- The body of the loop of `main` for one token `text` of the scanner:
the line handed to `fmt.Println`, or `none` when the iteration ends with
`continue`. `now` is what `time.Now()` returns during the iteration. -/
def handleLine (now : Clock) (text : String) : Option String :=
  let line := TrimSpace text
  if line = "" then none
  else
    match Unmarshal line with
    | none => none
    | some req => some (Marshal (respond now req))

/-- Go `scanner.Text()` for an input line: the line without its trailing
carriage return. -/
def scanText (raw : String) : String := String.mk (dropCR raw.data)

/-- The scanner delivers a line when it fits the buffer with its newline. -/
def fitsBuffer (raw : String) : Bool := raw.utf8ByteSize < MaxScanTokenSize

/-- The loop of `main` over the lines of standard input, each paired with
the clock reading of its iteration: the lines printed to standard output.
`scanner.Scan()` returns false at the first line too long for the buffer,
which ends the loop. -/
def main (input : List (Clock × String)) : List String :=
  (input.takeWhile fun p => fitsBuffer p.2).filterMap fun p => handleLine p.1 (scanText p.2)

/-! ## Vocabulary of the specification -/

/-- The three method names of the `switch` in `main`. -/
def knownMethod (m : String) : Prop :=
  m = "InsertDateTime" ∨ m = "InsertDate" ∨ m = "GetCurrentTime"

instance (m : String) : Decidable (knownMethod m) := by
  unfold knownMethod; infer_instance

/-- The sample clock reading of the specification, 2024-01-15 14:30:00. -/
def sampleClock : Clock := ⟨2024, 1, 15, 14, 30, 0⟩

/-- The calendar components of a clock reading are in range, with a year of
four digits. -/
def Clock.ValidDate (t : Clock) : Prop :=
  0 ≤ t.year ∧ t.year ≤ 9999 ∧ 1 ≤ t.month ∧ t.month ≤ 12 ∧ 1 ≤ t.day ∧ t.day ≤ 31

instance (t : Clock) : Decidable t.ValidDate := by
  unfold Clock.ValidDate; infer_instance

/-- The time components of a clock reading are in range. -/
def Clock.ValidTime (t : Clock) : Prop :=
  t.hour ≤ 23 ∧ t.minute ≤ 59 ∧ t.second ≤ 59

instance (t : Clock) : Decidable t.ValidTime := by
  unfold Clock.ValidTime; infer_instance

/-- The number written by a list of decimal digits, `none` when a character
is not a digit. -/
def readDigits (cs : List Char) : Option Nat :=
  cs.foldl (fun acc c =>
    match acc, digitVal c with
    | some a, some d => some (a * 10 + d)
    | _, _ => none) (some 0)

/-- A text of the form `YYYY-MM-DD` read as year, month and day. -/
def readDate (s : String) : Option (Int × Nat × Nat) :=
  match s.data with
  | [y1, y2, y3, y4, a, m1, m2, b, d1, d2] =>
    if a = '-' ∧ b = '-' then
      match readDigits [y1, y2, y3, y4], readDigits [m1, m2], readDigits [d1, d2] with
      | some y, some m, some d => some ((y : Int), m, d)
      | _, _, _ => none
    else none
  | _ => none

/-- A text of the form `YYYY-MM-DD HH:MM:SS` read as a clock reading. -/
def readDateTime (s : String) : Option Clock :=
  match readDate (String.mk (s.data.take 10)), s.data.drop 10 with
  | some (y, m, d), [c, h1, h2, p, n1, n2, q, s1, s2] =>
    if c = ' ' ∧ p = ':' ∧ q = ':' then
      match readDigits [h1, h2], readDigits [n1, n2], readDigits [s1, s2] with
      | some h, some n, some sec => some ⟨y, m, d, h, n, sec⟩
      | _, _, _ => none
    else none
  | _, _ => none


/-- A character that is neither a line feed nor a carriage return. -/
def lineSafe (c : Char) : Prop := c ≠ '\n' ∧ c ≠ '\r'

instance (c : Char) : Decidable (lineSafe c) := by unfold lineSafe; infer_instance

/-- Every character of the text is neither a line feed nor a carriage return. -/
def oneLine (cs : List Char) : Prop := ∀ c ∈ cs, lineSafe c

instance (cs : List Char) : Decidable (oneLine cs) := by unfold oneLine; infer_instance

/-- The id of a request as it is written: the value of the member named
`id` (the last one when the name is repeated), and `null` when there is no
such member (an omitted id) or the request is `null`. -/
def requestIdJson : Json → Json
  | .obj members => members.foldl (fun acc p => if p.1 = "id" then p.2 else acc) .null
  | _ => .null

/-- The value as written that `json.Unmarshal` stores to the field `ID`: the
value of the last member whose name selects `ID`, which is any name equal
to `id` when case is ignored, and `null` when there is none. -/
def storedIdJson : Json → Json
  | .obj members =>
    members.foldl (fun acc p => if findField p.1 = some .id then p.2 else acc) .null
  | _ => .null

/-- The name of the last member that `json.Unmarshal` stores to the field
`ID`, if there is one. -/
def storedIdKey : Json → Option String
  | .obj members =>
    members.foldl (fun acc p => if findField p.1 = some .id then some p.1 else acc) none
  | _ => none

/-- The member that is stored to `ID`, if any, is named exactly `id`: no
member named `Id`, `iD` or `ID` comes after the last member named `id`. -/
def idKeyExact (j : Json) : Prop := storedIdKey j = none ∨ storedIdKey j = some "id"

instance (j : Json) : Decidable (idKeyExact j) := by unfold idKeyExact; infer_instance

/-- The magnitude of the number a literal denotes, as a fraction:
`mant * 10 ^ (±ex - scale)`. -/
def NumLit.fraction (n : NumLit) : Nat × Nat :=
  if n.eneg then (n.mant, 10 ^ (n.scale + n.ex))
  else if n.scale ≤ n.ex then (n.mant * 10 ^ (n.ex - n.scale), 1)
  else (n.mant, 10 ^ (n.scale - n.ex))

/-- A number literal that is an integer written with digits only (no
fraction, no exponent) and of magnitude below `2 ^ 53`. -/
def NumLit.isSafeInteger (n : NumLit) : Prop :=
  n.scale = 0 ∧ n.eneg = false ∧ n.ex = 0 ∧ n.mant < 2 ^ 53

instance (n : NumLit) : Decidable n.isSafeInteger := by
  unfold NumLit.isSafeInteger; infer_instance

/-- Two number literals denote the same number. -/
def NumLit.sameNumber (a b : NumLit) : Bool :=
  a.fraction.1 * b.fraction.2 == b.fraction.1 * a.fraction.2 &&
    (a.neg == b.neg || a.fraction.1 == 0)

/-- Two JSON values have the same type and the same value, for the kinds of
id a request may carry by the specification: `null`, numbers and
strings. -/
def sameScalar : Json → Json → Bool
  | .null, .null => true
  | .num a, .num b => a.sameNumber b
  | .str a, .str b => a == b
  | _, _ => false

/-- The member `id` of a response line, read back as a JSON value. -/
def responseIdJson (out : String) : Option Json :=
  match parseJson out.data with
  | some (.obj members) => (members.find? fun p => p.1 == "id").map fun p => p.2
  | _ => none

/-- The id of the response line `out`, read back as a JSON value, is the id
written in the request line `text`: same type, same value. -/
def idPreserved (text out : String) : Bool :=
  match parseJson (TrimSpace text).data, responseIdJson out with
  | some j, some i => sameScalar (requestIdJson j) i
  | _, _ => false

/-- The part of a string literal that the scanner reads from what
`quoteChar` writes for the character `c`. -/
def unitOf (c : Char) : StrUnit :=
  if c.toNat < 0x20 ∨ c = '<' ∨ c = '>' ∨ c = '&' ∨ c = Char.ofNat 0x2028 ∨ c = Char.ofNat 0x2029
  then
    if c = Char.ofNat 8 ∨ c = Char.ofNat 12 ∨ c = '\n' ∨ c = '\r' ∨ c = '\t' then .chr c
    else .esc c.toNat
  else .chr c

/-- The least magnitude that rounds to infinity: `2 ^ 1024 - 2 ^ 970`, half a
unit in the last place above the largest finite `float64`. -/
def float64Limit : Nat := 2 ^ 1024 - 2 ^ 970

/-- The number read from the literal is too large for a `float64`: its
magnitude is at least `float64Limit`. -/
def NumLit.tooLarge (n : NumLit) : Bool :=
  decide (float64Limit * n.readFraction.2 ≤ n.readFraction.1)

mutual
/-- No number in the value is too large for a `float64`. -/
def Json.inRange : Json → Bool
  | .num n => !n.tooLarge
  | .arr elems => Json.allInRange elems
  | .obj members => Json.membersInRange members
  | _ => true
/-- No number in the elements is too large. -/
def Json.allInRange : List Json → Bool
  | [] => true
  | j :: js => j.inRange && Json.allInRange js
/-- No number in the member values is too large. -/
def Json.membersInRange : List (String × Json) → Bool
  | [] => true
  | (_, j) :: rest => j.inRange && Json.membersInRange rest
end

/-- The object key `k` names the envelope field `name` when case is ignored. -/
def keyIs (name k : String) : Bool := foldName k == foldName name

/-- A member of the request object that cannot be stored in the envelope: a
method that is neither a string nor `null`, params that are neither an
array nor `null`, or a number out of range in the params or in the id. -/
def badMember (p : String × Json) : Bool :=
  if keyIs "method" p.1 then
    match p.2 with
    | .str _ => false
    | .null => false
    | _ => true
  else if keyIs "params" p.1 then
    match p.2 with
    | .null => false
    | .arr elems => !Json.allInRange elems
    | _ => true
  else if keyIs "id" p.1 then !p.2.inRange
  else false

/-- A JSON value that is not a request envelope: neither an object nor
`null`, or an object with a member that cannot be stored. -/
def refused : Json → Bool
  | .null => false
  | .obj members => members.any badMember
  | _ => true

/-- The value is a JSON string. -/
def Json.isString : Json → Bool
  | .str _ => true
  | _ => false

/-- The request has no usable method: it is `null`, or an object without a
member named `method` (case ignored) that holds a string. -/
def lacksMethod : Json → Bool
  | .obj members => members.all fun p => !(keyIs "method" p.1 && p.2.isString)
  | _ => true

/-- A request whose params hold one string, the letters `xs`. -/
def paramsLine (xs : List Char) : String :=
  String.mk ("\x7b\"method\":\"InsertDate\",\"id\":\"a\",\"params\":[\"".data ++
    (xs ++ "\"]\x7d".data))

/-- A request of 65586 bytes whose params hold one string of 65536 letters. -/
def longParamsLine : String := paramsLine (List.replicate 65536 'x')

/-! ## Vocabulary of the proofs -/

/-- The number written by a list of decimal digits, read after the number
`m`: `m` followed by the digits. -/
def digitsFrom (m : Nat) (ds : List Char) : Nat :=
  ds.foldl (fun a c => a * 10 + (c.toNat - 48)) m

/-- The number written by a list of decimal digits. -/
def digitsNat (ds : List Char) : Nat := digitsFrom 0 ds

/-- The decimal exponent of a number literal: the number denoted is
`mant * 10 ^ exponent`. -/
def NumLit.exponent (n : NumLit) : Int :=
  (if n.eneg then -(n.ex : Int) else (n.ex : Int)) - (n.scale : Int)

/-- The shortest decimal that reads back as the `float64` `f`, which is what
`json.Marshal` writes for `f`, as a number literal: the digits of
`shortestDecimal` with the exponent that puts the decimal point in its
place. -/
def Float64.shortest (f : Float64) : NumLit :=
  let sd := shortestDecimal f.mant f.exp
  let e : Int := sd.2 - (sd.1.length : Int)
  ⟨f.neg, digitsNat sd.1, (-e).toNat, false, e.toNat⟩

/-- A number literal with at most 15 significant digits (every digit after
the 15th, counted from the first digit that is not zero, is a zero), an
exponent below 100000 and a magnitude that is zero or at least `1e-307`. -/
def NumLit.fewDigits (n : NumLit) : Prop :=
  n.ex < 100000 ∧ (n.mant = 0 ∨
    (n.mant % 10 ^ (decLen n.mant - 15) = 0 ∧ n.fraction.2 ≤ n.fraction.1 * 10 ^ 307))

instance (n : NumLit) : Decidable n.fewDigits := by
  unfold NumLit.fewDigits; infer_instance

/-- The binary exponent `f` of the quotient `n / den`: `2 ^ f ≤ n / den <
2 ^ (f + 1)`, and `f = 0` for a quotient below 1. -/
def IsBinExp (f n den : Nat) : Prop := n < den * 2 ^ (f + 1) ∧ (f = 0 ∨ den * 2 ^ f ≤ n)


/-- The character is a decimal digit. -/
def IsDigit (c : Char) : Prop := ∃ d, d < 10 ∧ c = Nat.digitChar d

/-- The largest decimal of `n` digits, with decimal point at `dp`, that is
not above the value of the `float64` `(mant, exp)`. -/
def lowerDecimal (mant exp : Nat) (dp : Int) (n : Nat) : Nat :=
  (scaleDec (mant * 2 ^ exp) (2 ^ expBias) (n - dp)).1 /
    (scaleDec (mant * 2 ^ exp) (2 ^ expBias) (n - dp)).2

/-! ## Basic facts about the loop body -/

theorem expBias_eq : expBias = 1074 := rfl

theorem float64Limit_eq : float64Limit = 2 ^ 1024 - 2 ^ 970 := rfl

attribute [irreducible] expBias roundBinary float64Limit

theorem Unmarshal_empty : Unmarshal "" = none := rfl

/-- The loop body is the decoder followed by the dispatcher and the encoder:
the test for an empty line only saves a call that would fail. -/
theorem handleLine_eq (now : Clock) (text : String) :
    handleLine now text =
      (Unmarshal (TrimSpace text)).map fun req => Marshal (respond now req) := by
  unfold handleLine
  by_cases h : TrimSpace text = ""
  · simp [h, Unmarshal_empty]
  · simp only [h, if_false]
    cases Unmarshal (TrimSpace text) <;> rfl

theorem dropWhile_isSpace_snoc_cr (l : List Char) :
    ((l ++ ['\r']).dropWhile isSpace).reverse.dropWhile isSpace =
      (l.dropWhile isSpace).reverse.dropWhile isSpace := by
  have hcr : isSpace '\r' = true := by decide
  rw [List.dropWhile_append]
  by_cases h : (l.dropWhile isSpace).isEmpty = true
  · have h2 : l.dropWhile isSpace = [] := by simpa using h
    simp [h2, hcr]
  · simp only [h, if_false]
    simp [List.reverse_append, List.dropWhile, hcr]

theorem trimSpaceChars_dropCR (cs : List Char) :
    trimSpaceChars (dropCR cs) = trimSpaceChars cs := by
  unfold dropCR
  split
  · next rest h =>
    have h2 : cs = rest.reverse ++ ['\r'] := List.reverse_eq_cons_iff.mp h
    unfold trimSpaceChars
    rw [h2, dropWhile_isSpace_snoc_cr]
  · rfl

/-- Dropping the carriage return before trimming changes nothing: the
trimmed line is the same. -/
theorem TrimSpace_scanText (raw : String) : TrimSpace (scanText raw) = TrimSpace raw := by
  unfold TrimSpace scanText
  simp [trimSpaceChars_dropCR]

theorem handleLine_scanText (now : Clock) (raw : String) :
    handleLine now (scanText raw) = handleLine now raw := by
  simp [handleLine_eq, TrimSpace_scanText]

theorem respond_unknown (now : Clock) (req : Request) (h : ¬ knownMethod req.Method) :
    respond now req = ⟨.nil, .string ("Unknown method: " ++ req.Method), req.ID⟩ := by
  unfold knownMethod at h
  push_neg at h
  unfold respond
  simp [h.1, h.2.1, h.2.2]

theorem respond_known (now : Clock) (req : Request) (h : knownMethod req.Method) :
    ∃ r : String, respond now req = ⟨.string r, .nil, req.ID⟩ := by
  unfold respond
  by_cases h1 : req.Method = "InsertDateTime"
  · exact ⟨Plugin.InsertDateTime now, by simp [h1]⟩
  · by_cases h2 : req.Method = "InsertDate"
    · exact ⟨Plugin.InsertDate now, by simp [h1, h2]⟩
    · by_cases h3 : req.Method = "GetCurrentTime"
      · exact ⟨Plugin.GetCurrentTime now, by simp [h1, h2, h3]⟩
      · rcases h with h | h | h <;> contradiction

/-! ## Decimal digits -/

theorem digitVal_digitChar : ∀ d, d < 10 → digitVal (Nat.digitChar d) = some d := by decide

theorem toDigitsCore_append (b : Nat) : ∀ (fuel n : Nat) (ds : List Char),
    Nat.toDigitsCore b fuel n ds = Nat.toDigitsCore b fuel n [] ++ ds := by
  intro fuel
  induction fuel with
  | zero => intro n ds; simp [Nat.toDigitsCore]
  | succ f ih =>
    intro n ds
    simp only [Nat.toDigitsCore]
    split
    · simp
    · rw [ih (n / b) (Nat.digitChar (n % b) :: ds), ih (n / b) [Nat.digitChar (n % b)]]
      simp

theorem toDigitsCore_fuel (b : Nat) (hb : 2 ≤ b) : ∀ (f1 f2 n : Nat) (ds : List Char),
    n < f1 → n < f2 → Nat.toDigitsCore b f1 n ds = Nat.toDigitsCore b f2 n ds := by
  intro f1
  induction f1 with
  | zero => intro f2 n ds h; omega
  | succ f ih =>
    intro f2 n ds h1 h2
    cases f2 with
    | zero => omega
    | succ g =>
      simp only [Nat.toDigitsCore]
      split
      · rfl
      · next hne =>
        have hpos : 0 < n := by
          rcases Nat.eq_zero_or_pos n with h0 | h0
          · subst h0; simp at hne
          · exact h0
        have hlt : n / b < n := Nat.div_lt_self hpos hb
        exact ih g (n / b) _ (by omega) (by omega)

theorem toDigits_lt (n : Nat) (h : n < 10) : Nat.toDigits 10 n = [Nat.digitChar n] := by
  have h0 : n / 10 = 0 := by omega
  have h1 : n % 10 = n := by omega
  simp [Nat.toDigits, Nat.toDigitsCore, h0, h1]

theorem toDigits_step (n : Nat) (h : 10 ≤ n) :
    Nat.toDigits 10 n = Nat.toDigits 10 (n / 10) ++ [Nat.digitChar (n % 10)] := by
  have h0 : n / 10 ≠ 0 := by omega
  unfold Nat.toDigits
  rw [Nat.toDigitsCore]
  simp only [h0, if_false]
  rw [toDigitsCore_append]
  congr 1
  exact toDigitsCore_fuel 10 (by decide) _ _ _ _ (by omega) (by omega)

/-- One step of the zero-padded decimal of `appendInt`. -/
theorem pad_step (k n : Nat) (hk : 1 ≤ k) :
    List.replicate (k + 1 - (Nat.toDigits 10 n).length) '0' ++ Nat.toDigits 10 n =
      (List.replicate (k - (Nat.toDigits 10 (n / 10)).length) '0' ++ Nat.toDigits 10 (n / 10)) ++
        [Nat.digitChar (n % 10)] := by
  by_cases h : n < 10
  · have h0 : n / 10 = 0 := by omega
    have h1 : n % 10 = n := by omega
    rw [toDigits_lt n h, h0, h1, toDigits_lt 0 (by decide)]
    simp only [List.length_singleton, Nat.add_sub_cancel]
    have : List.replicate (k - 1) '0' ++ [Nat.digitChar 0] = List.replicate k '0' := by
      have hk2 : k = (k - 1) + 1 := by omega
      conv_rhs => rw [hk2, List.replicate_succ']
      rfl
    rw [this]
  · rw [toDigits_step n (by omega)]
    simp only [List.length_append, List.length_singleton, Nat.add_sub_add_right, List.append_assoc]

theorem appendInt_two (n : Nat) (h : n < 100) :
    appendInt (n : Int) 2 = [Nat.digitChar (n / 10), Nat.digitChar (n % 10)] := by
  have hneg : ¬ ((n : Int) < 0) := by omega
  simp only [appendInt, hneg, if_false, Int.natAbs_ofNat, List.nil_append]
  rw [pad_step 1 n (le_refl 1), toDigits_lt (n / 10) (by omega)]
  simp

theorem appendInt_four (n : Nat) (h : n < 10000) :
    appendInt (n : Int) 4 = [Nat.digitChar (n / 1000), Nat.digitChar (n / 100 % 10),
      Nat.digitChar (n / 10 % 10), Nat.digitChar (n % 10)] := by
  have hneg : ¬ ((n : Int) < 0) := by omega
  simp only [appendInt, hneg, if_false, Int.natAbs_ofNat, List.nil_append]
  rw [pad_step 3 n (by decide), pad_step 2 (n / 10) (by decide),
    pad_step 1 (n / 10 / 10) (by decide), toDigits_lt (n / 10 / 10 / 10) (by omega)]
  have e1 : n / 10 / 10 = n / 100 := by omega
  have e2 : n / 10 / 10 / 10 = n / 1000 := by omega
  have e3 : n / 100 / 10 = n / 1000 := by omega
  simp [e1, e2, e3]

/-! ## Reading a formatted time back -/

theorem readDigits_two (a b : Nat) (ha : a < 10) (hb : b < 10) :
    readDigits [Nat.digitChar a, Nat.digitChar b] = some (a * 10 + b) := by
  simp [readDigits, digitVal_digitChar a ha, digitVal_digitChar b hb]

theorem readDigits_four (a b c d : Nat) (ha : a < 10) (hb : b < 10) (hc : c < 10) (hd : d < 10) :
    readDigits [Nat.digitChar a, Nat.digitChar b, Nat.digitChar c, Nat.digitChar d] =
      some (((a * 10 + b) * 10 + c) * 10 + d) := by
  simp [readDigits, digitVal_digitChar a ha, digitVal_digitChar b hb, digitVal_digitChar c hc,
    digitVal_digitChar d hd]

theorem formatDate_eq (t : Clock) (h : t.ValidDate) :
    formatDate t = appendInt (t.year.toNat : Int) 4 ++ '-' :: (appendInt t.month 2 ++
      '-' :: appendInt t.day 2) := by
  obtain ⟨h0, _⟩ := h
  unfold formatDate
  rw [Int.toNat_of_nonneg h0]

theorem readDate_formatDate (t : Clock) (h : t.ValidDate) :
    (formatDate t).length = 10 ∧ readDate (String.mk (formatDate t)) = some (t.year, t.month, t.day) := by
  have hf := formatDate_eq t h
  obtain ⟨h0, h1, h2, h3, h4, h5⟩ := h
  have hy : t.year.toNat < 10000 := by omega
  rw [hf, appendInt_four _ hy, appendInt_two t.month (by omega), appendInt_two t.day (by omega)]
  refine ⟨by simp, ?_⟩
  simp only [readDate, List.cons_append, List.nil_append, and_self, if_true]
  rw [readDigits_four _ _ _ _ (by omega) (by omega) (by omega) (by omega),
    readDigits_two _ _ (by omega) (by omega), readDigits_two _ _ (by omega) (by omega)]
  simp only [Option.some.injEq, Prod.mk.injEq]
  refine ⟨?_, by omega, by omega⟩
  have : (t.year.toNat / 1000 * 10 + t.year.toNat / 100 % 10) * 10 + t.year.toNat / 10 % 10 =
      t.year.toNat / 10 := by omega
  have h2 : ((t.year.toNat / 1000 * 10 + t.year.toNat / 100 % 10) * 10 + t.year.toNat / 10 % 10) * 10
      + t.year.toNat % 10 = t.year.toNat := by omega
  rw [h2]
  exact Int.toNat_of_nonneg h0

theorem readDateTime_formatDateTime (t : Clock) (hd : t.ValidDate) (ht : t.ValidTime) :
    (formatDateTime t).length = 19 ∧ readDateTime (String.mk (formatDateTime t)) = some t := by
  obtain ⟨hlen, hread⟩ := readDate_formatDate t hd
  obtain ⟨h1, h2, h3⟩ := ht
  have htake : (formatDateTime t).take 10 = formatDate t := by
    unfold formatDateTime
    rw [List.take_append_of_le_length (by omega), List.take_of_length_le (by omega)]
  have hdrop : (formatDateTime t).drop 10 = ' ' :: (appendInt t.hour 2 ++ ':' :: (appendInt t.minute 2 ++
    ':' :: appendInt t.second 2)) := by
    unfold formatDateTime
    rw [List.drop_append_of_le_length (by omega), List.drop_of_length_le (by omega)]
    rfl
  constructor
  · unfold formatDateTime
    rw [List.length_append, hlen, appendInt_two t.hour (by omega), appendInt_two t.minute (by omega),
      appendInt_two t.second (by omega)]
    simp
  · unfold readDateTime
    simp only [htake, hdrop, hread]
    rw [appendInt_two t.hour (by omega), appendInt_two t.minute (by omega),
      appendInt_two t.second (by omega)]
    simp only [List.cons_append, List.nil_append, and_self, if_true]
    rw [readDigits_two _ _ (by omega) (by omega), readDigits_two _ _ (by omega) (by omega),
      readDigits_two _ _ (by omega) (by omega)]
    have e1 : t.hour / 10 * 10 + t.hour % 10 = t.hour := by omega
    have e2 : t.minute / 10 * 10 + t.minute % 10 = t.minute := by omega
    have e3 : t.second / 10 * 10 + t.second % 10 = t.second := by omega
    simp [e1, e2, e3]


/-! ## The loop -/

theorem main_eq (input : List (Clock × String)) :
    main input = (input.takeWhile fun p => fitsBuffer p.2).filterMap fun p => handleLine p.1 p.2 := by
  unfold main
  simp [handleLine_scanText]

theorem main_of_fits (input : List (Clock × String)) (h : ∀ p ∈ input, fitsBuffer p.2 = true) :
    main input = input.filterMap fun p => handleLine p.1 p.2 := by
  rw [main_eq]
  congr 1
  exact List.takeWhile_eq_self_iff.mpr h

theorem main_cons_fits (p : Clock × String) (rest : List (Clock × String))
    (h : fitsBuffer p.2 = true) :
    main (p :: rest) = (handleLine p.1 p.2).toList ++ main rest := by
  rw [main_eq, main_eq]
  simp only [List.takeWhile_cons, h, if_true, List.filterMap_cons]
  cases handleLine p.1 p.2 <;> simp

theorem main_cons_too_long (p : Clock × String) (rest : List (Clock × String))
    (h : fitsBuffer p.2 = false) : main (p :: rest) = [] := by
  rw [main_eq]
  simp [List.takeWhile_cons, h]

theorem main_append_fits (xs ys : List (Clock × String)) (h : ∀ p ∈ xs, fitsBuffer p.2 = true) :
    main (xs ++ ys) = main xs ++ main ys := by
  induction xs with
  | nil => simp [main]
  | cons p xs ih =>
    have hp : fitsBuffer p.2 = true := h p (List.mem_cons_self _ _)
    rw [List.cons_append, main_cons_fits _ _ hp, main_cons_fits _ _ hp,
      ih (fun q hq => h q (List.mem_cons_of_mem _ hq)), List.append_assoc]

theorem main_insert_silent (xs ys : List (Clock × String)) (p : Clock × String)
    (hfit : fitsBuffer p.2 = true) (hnone : handleLine p.1 p.2 = none) :
    main (xs ++ p :: ys) = main (xs ++ ys) := by
  induction xs with
  | nil => simp [main_cons_fits _ _ hfit, hnone]
  | cons q xs ih =>
    rw [List.cons_append, List.cons_append]
    by_cases hq : fitsBuffer q.2 = true
    · rw [main_cons_fits _ _ hq, main_cons_fits _ _ hq, ih]
    · have hq2 : fitsBuffer q.2 = false := by simpa using hq
      rw [main_cons_too_long _ _ hq2, main_cons_too_long _ _ hq2]

theorem utf8Len_replicate (c : Char) (n : Nat) :
    String.utf8Len (List.replicate n c) = n * c.utf8Size := by
  induction n with
  | zero => simp
  | succ k ih => rw [List.replicate_succ, String.utf8Len_cons, ih]; ring

theorem fitsBuffer_replicate (c : Char) (h : c.utf8Size = 1) :
    fitsBuffer (String.mk (List.replicate 65536 c)) = false := by
  unfold fitsBuffer
  rw [String.utf8ByteSize_mk, utf8Len_replicate, h]
  decide


/-- Every line `main` prints is printed by the loop body for one of the
input lines. -/
theorem main_mem (input : List (Clock × String)) (out : String) (h : out ∈ main input) :
    ∃ p ∈ input, handleLine p.1 p.2 = some out := by
  rw [main_eq] at h
  obtain ⟨p, hp, hout⟩ := List.mem_filterMap.mp h
  exact ⟨p, (List.takeWhile_sublist _).subset hp, hout⟩

/-! ## No line break in an encoded value -/

theorem oneLine_nil : oneLine [] := by intro c h; simp at h

theorem oneLine_cons {c : Char} {cs : List Char} (h1 : lineSafe c) (h2 : oneLine cs) :
    oneLine (c :: cs) := by
  intro x hx
  rcases List.mem_cons.mp hx with h | h
  · rw [h]; exact h1
  · exact h2 x h

theorem oneLine_append {as bs : List Char} (h1 : oneLine as) (h2 : oneLine bs) :
    oneLine (as ++ bs) := by
  intro x hx
  rcases List.mem_append.mp hx with h | h
  · exact h1 x h
  · exact h2 x h

theorem oneLine_of_subset {as bs : List Char} (h : ∀ c ∈ as, c ∈ bs) (hb : oneLine bs) :
    oneLine as := fun c hc => hb c (h c hc)

theorem lineSafe_digitChar (d : Nat) : lineSafe (Nat.digitChar d) := by
  by_cases h : d < 16
  · interval_cases d <;> decide
  · have hs : Nat.digitChar d = '*' := by
      unfold Nat.digitChar
      repeat rw [if_neg (by omega)]
    rw [hs]
    decide

theorem lineSafe_hexDigit (n : Nat) : lineSafe (hexDigit n) := by
  unfold hexDigit
  by_cases h : n < 16
  · interval_cases n <;> decide
  · rw [List.getD_eq_default _ _ (by simpa using h)]
    decide

theorem oneLine_quoteChar (c : Char) : oneLine (quoteChar c) := by
  unfold quoteChar
  split_ifs with h1 h2 h3 h4 h5 h6 h7 h8
  · rcases h1 with h | h <;> subst h <;> decide
  · decide
  · decide
  · decide
  · decide
  · decide
  · intro x hx
    simp only [List.mem_cons, List.mem_singleton, List.not_mem_nil, or_false] at hx
    rcases hx with h | h | h | h | h | h <;> subst h <;>
      first | decide | exact lineSafe_hexDigit _
  · intro x hx
    simp only [List.mem_cons, List.mem_singleton, List.not_mem_nil, or_false] at hx
    rcases hx with h | h | h | h | h | h <;> subst h <;>
      first | decide | exact lineSafe_hexDigit _
  · intro x hx
    simp only [List.mem_singleton] at hx
    subst hx
    exact ⟨h4, h5⟩

theorem oneLine_escapeChars (cs : List Char) : oneLine (escapeChars cs) := by
  induction cs with
  | nil => exact oneLine_nil
  | cons c cs ih => exact oneLine_append (oneLine_quoteChar c) ih

theorem oneLine_quote (s : String) : oneLine (quote s) :=
  oneLine_cons (by decide) (oneLine_append (oneLine_escapeChars _) (oneLine_cons (by decide) oneLine_nil))


theorem oneLine_toDigitsCore (fuel : Nat) : ∀ (n : Nat) (ds : List Char), oneLine ds →
    oneLine (Nat.toDigitsCore 10 fuel n ds) := by
  induction fuel with
  | zero => intro n ds h; exact h
  | succ f ih =>
    intro n ds h
    simp only [Nat.toDigitsCore]
    split
    · exact oneLine_cons (lineSafe_digitChar _) h
    · exact ih _ _ (oneLine_cons (lineSafe_digitChar _) h)

theorem oneLine_toDigits (n : Nat) : oneLine (Nat.toDigits 10 n) :=
  oneLine_toDigitsCore _ _ _ oneLine_nil

theorem dropZeros_subset : ∀ (l : List Char), ∀ c ∈ dropZeros l, c ∈ l := by
  intro l
  induction l with
  | nil => intro c h; simp [dropZeros] at h
  | cons a l ih =>
    intro c h
    unfold dropZeros at h
    split at h
    · next heq =>
      injection heq with h1 h2
      subst h2
      exact List.mem_cons_of_mem _ (ih c h)
    · exact h

theorem oneLine_shortestDecimal (mant exp : Nat) : oneLine (shortestDecimal mant exp).1 := by
  unfold shortestDecimal
  split
  · exact oneLine_nil
  · apply oneLine_of_subset _ (oneLine_toDigits (shortestFrom mant exp
      (decimalPoint (mant * 2 ^ exp) (2 ^ expBias)) 16 1).1)
    intro c hc
    exact List.mem_reverse.mp (dropZeros_subset _ c (List.mem_reverse.mp hc))

theorem oneLine_sign (neg : Bool) : oneLine (if neg then ['-'] else []) := by
  cases neg <;> decide

theorem oneLine_fmtF (neg : Bool) (d : List Char) (dp : Int) (hd : oneLine d) :
    oneLine (fmtF neg d dp) := by
  unfold fmtF
  simp only
  refine oneLine_append (oneLine_append (oneLine_sign neg) ?_) ?_
  · split
    · refine oneLine_append (oneLine_of_subset (fun c hc => List.mem_of_mem_take hc) hd) ?_
      intro c hc
      rw [List.eq_of_mem_replicate hc]
      decide
    · decide
  · split
    · refine oneLine_cons (by decide) ?_
      intro c hc
      simp only [List.mem_map, List.mem_range] at hc
      obtain ⟨i, _, hi⟩ := hc
      split at hi
      · rw [← hi, List.getD_eq_getElem?_getD]
        cases hg : d[(dp + (i : Int)).toNat]? with
        | none => simp; decide
        | some x =>
          simp only [Option.getD_some]
          exact hd x (List.getElem?_mem hg)
      · rw [← hi]; decide
    · exact oneLine_nil

theorem lineSafe_esign (ex : Int) : lineSafe (if ex < 0 then '-' else '+') := by
  split <;> decide

theorem oneLine_edigits (a : Nat) :
    oneLine (if a < 10 then ['0', Nat.digitChar a]
      else if a < 100 then [Nat.digitChar (a / 10), Nat.digitChar (a % 10)]
      else [Nat.digitChar (a / 100), Nat.digitChar (a / 10 % 10), Nat.digitChar (a % 10)]) := by
  split_ifs
  · exact oneLine_cons (by decide) (oneLine_cons (lineSafe_digitChar _) oneLine_nil)
  · exact oneLine_cons (lineSafe_digitChar _) (oneLine_cons (lineSafe_digitChar _) oneLine_nil)
  · exact oneLine_cons (lineSafe_digitChar _) (oneLine_cons (lineSafe_digitChar _)
      (oneLine_cons (lineSafe_digitChar _) oneLine_nil))

theorem oneLine_fmtE (neg : Bool) (d : List Char) (dp : Int) (hd : oneLine d) :
    oneLine (fmtE neg d dp) := by
  unfold fmtE
  simp only
  refine oneLine_append (oneLine_sign neg) (oneLine_cons ?_ (oneLine_append ?_
    (oneLine_cons (by decide) (oneLine_cons ?_ ?_))))
  · cases d with
    | nil => decide
    | cons a l => exact hd a (List.mem_cons_self _ _)
  · split
    · exact oneLine_cons (by decide) (oneLine_of_subset (fun c hc => List.mem_of_mem_drop hc) hd)
    · exact oneLine_nil
  · exact lineSafe_esign _
  · exact oneLine_edigits _

theorem oneLine_FormatFloat (f : Float64) (fmt : Char) : oneLine (FormatFloat f fmt) := by
  unfold FormatFloat
  simp only
  split
  · exact oneLine_fmtE _ _ _ (oneLine_shortestDecimal _ _)
  · exact oneLine_fmtF _ _ _ (oneLine_shortestDecimal _ _)

theorem oneLine_cleanExponent (b : List Char) (h : oneLine b) : oneLine (cleanExponent b) := by
  unfold cleanExponent
  split
  · next x sgn rest heq =>
    split
    · apply oneLine_of_subset _ h
      intro c hc
      have hc2 : c ∈ x :: sgn :: 'e' :: rest := List.mem_reverse.mp hc
      have hc3 : c ∈ b.reverse := by
        rw [heq]
        simp only [List.mem_cons] at hc2 ⊢
        tauto
      exact List.mem_reverse.mp hc3
    · exact h
  · exact h

theorem oneLine_encodeFloat (f : Float64) : oneLine (encodeFloat f) := by
  unfold encodeFloat
  split
  · exact oneLine_cleanExponent _ (oneLine_FormatFloat _ _)
  · exact oneLine_FormatFloat _ _

mutual
theorem oneLine_encodeValue : ∀ v : GoVal, oneLine (encodeValue v)
  | .nil => by unfold encodeValue; decide
  | .bool b => by unfold encodeValue; cases b <;> decide
  | .float64 f => by unfold encodeValue; exact oneLine_encodeFloat f
  | .string s => by unfold encodeValue; exact oneLine_quote s
  | .slice elems => by
    unfold encodeValue
    exact oneLine_cons (by decide) (oneLine_append (oneLine_encodeElems true elems)
      (oneLine_cons (by decide) oneLine_nil))
  | .map entries => by
    unfold encodeValue
    exact oneLine_cons (by decide) (oneLine_append (oneLine_encodeEntries true entries)
      (oneLine_cons (by decide) oneLine_nil))
theorem oneLine_encodeElems : ∀ (first : Bool) (vs : List GoVal), oneLine (encodeElems first vs)
  | _, [] => by unfold encodeElems; exact oneLine_nil
  | first, v :: vs => by
    unfold encodeElems
    refine oneLine_append ?_ (oneLine_append (oneLine_encodeValue v) (oneLine_encodeElems false vs))
    cases first <;> decide
theorem oneLine_encodeEntries : ∀ (first : Bool) (es : List (String × GoVal)),
    oneLine (encodeEntries first es)
  | _, [] => by unfold encodeEntries; exact oneLine_nil
  | first, (k, v) :: rest => by
    unfold encodeEntries
    refine oneLine_append ?_ (oneLine_append (oneLine_quote k) (oneLine_cons (by decide)
      (oneLine_append (oneLine_encodeValue v) (oneLine_encodeEntries false rest))))
    cases first <;> decide
end

theorem oneLine_renderFields : ∀ (first : Bool) (fs : List (String × List Char)),
    (∀ p ∈ fs, oneLine p.2) → oneLine (renderFields first fs)
  | _, [], _ => by unfold renderFields; exact oneLine_nil
  | first, (k, v) :: rest, h => by
    unfold renderFields
    refine oneLine_append ?_ (oneLine_append (oneLine_quote k) (oneLine_cons (by decide)
      (oneLine_append (h (k, v) (List.mem_cons_self _ _))
        (oneLine_renderFields false rest (fun p hp => h p (List.mem_cons_of_mem _ hp))))))
    cases first <;> decide

theorem oneLine_omitEmpty (name : String) (v : GoVal) : ∀ p ∈ omitEmpty name v, oneLine p.2 := by
  intro p hp
  unfold omitEmpty at hp
  split at hp
  · simp at hp
  · simp only [List.mem_singleton] at hp
    rw [hp]
    exact oneLine_encodeValue _

theorem oneLine_Marshal (r : Response) : oneLine (Marshal r).data := by
  unfold Marshal
  refine oneLine_cons (by decide) (oneLine_append (oneLine_renderFields _ _ ?_)
    (oneLine_cons (by decide) oneLine_nil))
  intro p hp
  unfold Response.fields at hp
  rcases List.mem_append.mp hp with h | h
  · rcases List.mem_append.mp h with h | h
    · exact oneLine_omitEmpty _ _ p h
    · exact oneLine_omitEmpty _ _ p h
  · simp only [List.mem_singleton] at h
    rw [h]
    exact oneLine_encodeValue _



/-! ## Reading back what the encoder writes -/

theorem lexFrom_cons (st : LexState) (c : Char) (cs : List Char) :
    lexFrom st (c :: cs) =
      match step st c with
      | none => none
      | some (toks, st2) =>
        match lexFrom st2 cs with
        | none => none
        | some more => some (toks ++ more) := rfl

theorem lexFrom_silent (st st2 : LexState) (c : Char) (cs : List Char)
    (h : step st c = some ([], st2)) : lexFrom st (c :: cs) = lexFrom st2 cs := by
  rw [lexFrom_cons, h]
  cases h2 : lexFrom st2 cs <;> simp [h2]

theorem hexVal_hexDigit : ∀ d, d < 16 → hexVal (hexDigit d) = some d := by decide

theorem step_escU (acc : List StrUnit) (k code : Nat) (d : Nat) (hd : d < 16) :
    step (.inStringEscU acc k code) (hexDigit d) =
      if k < 3 then some ([], .inStringEscU acc (k + 1) (code * 16 + d))
      else some ([], .inString (.esc (code * 16 + d) :: acc)) := by
  simp [step, hexVal_hexDigit d hd]

theorem lex_hex4 (acc : List StrUnit) (a b c d : Nat) (ha : a < 16) (hb : b < 16) (hc : c < 16)
    (hd : d < 16) (rest : List Char) :
    lexFrom (.inString acc) ('\\' :: 'u' :: hexDigit a :: hexDigit b :: hexDigit c ::
        hexDigit d :: rest) =
      lexFrom (.inString (.esc (((a * 16 + b) * 16 + c) * 16 + d) :: acc)) rest := by
  rw [lexFrom_silent _ (.inStringEsc acc) _ _ (by simp [step]),
    lexFrom_silent _ (.inStringEscU acc 0 0) _ _ (by simp [step]),
    lexFrom_silent _ (.inStringEscU acc 1 (0 * 16 + a)) _ _ (by rw [step_escU _ _ _ _ ha]; rfl),
    lexFrom_silent _ (.inStringEscU acc 2 ((0 * 16 + a) * 16 + b)) _ _
      (by rw [step_escU _ _ _ _ hb]; rfl),
    lexFrom_silent _ (.inStringEscU acc 3 (((0 * 16 + a) * 16 + b) * 16 + c)) _ _
      (by rw [step_escU _ _ _ _ hc]; rfl),
    lexFrom_silent _ (.inString (.esc ((((0 * 16 + a) * 16 + b) * 16 + c) * 16 + d) :: acc))
      _ _
      (by rw [step_escU _ _ _ _ hd]; rfl)]
  simp


theorem lex_quoteChar (acc : List StrUnit) (c : Char) (rest : List Char) :
    lexFrom (.inString acc) (quoteChar c ++ rest) = lexFrom (.inString (unitOf c :: acc)) rest := by
  unfold quoteChar
  split_ifs with h1 h2 h3 h4 h5 h6 h7 h8
  · have hu : unitOf c = .chr c := by
      rcases h1 with h | h <;> subst h <;> decide
    rw [hu]
    show lexFrom (.inString acc) ('\\' :: c :: rest) = _
    rw [lexFrom_silent _ (.inStringEsc acc) _ _ (by simp [step])]
    apply lexFrom_silent
    rcases h1 with h | h <;> subst h <;> simp [step]
  · subst h2
    exact (lexFrom_silent _ (.inStringEsc acc) _ _ (by simp [step])).trans
      (lexFrom_silent _ _ _ _ (by simp [step]; rfl))
  · subst h3
    exact (lexFrom_silent _ (.inStringEsc acc) _ _ (by simp [step])).trans
      (lexFrom_silent _ _ _ _ (by simp [step]; rfl))
  · subst h4
    exact (lexFrom_silent _ (.inStringEsc acc) _ _ (by simp [step])).trans
      (lexFrom_silent _ _ _ _ (by simp [step]; rfl))
  · subst h5
    exact (lexFrom_silent _ (.inStringEsc acc) _ _ (by simp [step])).trans
      (lexFrom_silent _ _ _ _ (by simp [step]; rfl))
  · subst h6
    exact (lexFrom_silent _ (.inStringEsc acc) _ _ (by simp [step])).trans
      (lexFrom_silent _ _ _ _ (by simp [step]; rfl))
  · have hlt : c.toNat < 128 := by
      rcases h7 with h | h | h | h
      · omega
      · subst h; decide
      · subst h; decide
      · subst h; decide
    have hu : unitOf c = .esc c.toNat := by
      unfold unitOf
      rw [if_pos (by tauto), if_neg (by tauto)]
    rw [hu]
    show lexFrom (.inString acc) ('\\' :: 'u' :: hexDigit 0 :: hexDigit 0 ::
      hexDigit (c.toNat / 16) :: hexDigit (c.toNat % 16) :: rest) = _
    rw [lex_hex4 acc 0 0 _ _ (by decide) (by decide) (by omega) (by omega)]
    have : ((0 * 16 + 0) * 16 + c.toNat / 16) * 16 + c.toNat % 16 = c.toNat := by omega
    rw [this]
  · have hu : unitOf c = .esc c.toNat := by
      rcases h8 with h | h <;> subst h <;> decide
    rw [hu]
    show lexFrom (.inString acc) ('\\' :: 'u' :: hexDigit 2 :: hexDigit 0 ::
      hexDigit 2 :: hexDigit (c.toNat % 16) :: rest) = _
    rw [lex_hex4 acc 2 0 2 _ (by decide) (by decide) (by decide) (by omega)]
    have : ((2 * 16 + 0) * 16 + 2) * 16 + c.toNat % 16 = c.toNat := by
      rcases h8 with h | h <;> subst h <;> decide
    rw [this]
  · have hu : unitOf c = .chr c := by
      unfold unitOf
      rw [if_neg (by tauto)]
    rw [hu]
    apply lexFrom_silent
    have hq : c ≠ '"' := fun h => h1 (Or.inr h)
    have hb : c ≠ '\\' := fun h => h1 (Or.inl h)
    have hc : ¬ c.toNat < 0x20 := fun h => h7 (Or.inl h)
    simp [step, hq, hb, hc]

theorem lex_escapeChars (cs : List Char) : ∀ (acc : List StrUnit) (rest : List Char),
    lexFrom (.inString acc) (escapeChars cs ++ rest) =
      lexFrom (.inString ((cs.map unitOf).reverse ++ acc)) rest := by
  induction cs with
  | nil => intro acc rest; rfl
  | cons c cs ih =>
    intro acc rest
    simp only [escapeChars, List.append_assoc, List.map_cons, List.reverse_cons]
    rw [lex_quoteChar, ih]
    simp

theorem decodeFrom_some (u : Nat) (hu : ¬ (0xD800 ≤ u ∧ u < 0xDC00)) (rest : List StrUnit) :
    decodeFrom (some u) rest = escRune u :: decodeFrom none rest := by
  cases rest with
  | nil => rfl
  | cons x r =>
    cases x with
    | chr c => rfl
    | esc v =>
      have : decodeSurrogates u v = none := by
        unfold decodeSurrogates
        rw [if_neg]
        intro h
        simp only [Bool.and_eq_true, decide_eq_true_eq] at h
        exact hu ⟨h.1.1.1, h.1.1.2⟩
      simp [decodeFrom, this]

theorem decodeFrom_unitOf (cs : List Char) : decodeFrom none (cs.map unitOf) = cs := by
  induction cs with
  | nil => rfl
  | cons c cs ih =>
    rw [List.map_cons]
    by_cases h : unitOf c = .chr c
    · rw [h]
      simp [decodeFrom, ih]
    · have hc : unitOf c = .esc c.toNat := by
        unfold unitOf at h ⊢
        split_ifs at h ⊢ <;> first | rfl | exact absurd rfl h
      have hsmall : c.toNat < 0xD800 := by
        unfold unitOf at h
        split_ifs at h with h1 h2
        · exact absurd rfl h
        · rcases h1 with h | h | h | h | h | h
          · omega
          all_goals subst h; decide
        · exact absurd rfl h
      rw [hc]
      show decodeFrom (some c.toNat) (cs.map unitOf) = c :: cs
      rw [decodeFrom_some _ (by omega), ih]
      have : escRune c.toNat = c := by
        unfold escRune isSurrogate
        rw [if_neg (by simp; omega)]
        exact Char.ofNat_toNat c
      rw [this]

theorem lex_quote (s : String) (rest : List Char) :
    lexFrom .start (quote s ++ rest) =
      match lexFrom .start rest with
      | none => none
      | some more => some (.str s :: more) := by
  unfold quote
  simp only [List.cons_append, List.append_assoc]
  rw [lexFrom_silent _ (.inString []) _ _ (by simp [step, stepStart, isJsonSpace]),
    lex_escapeChars, lexFrom_cons]
  have hstep : step (.inString ((s.data.map unitOf).reverse ++ [])) '"' =
      some ([.str s], .start) := by
    simp [step, decodeUnits, decodeFrom_unitOf]
  rw [hstep]
  cases lexFrom .start ([] ++ rest) <;> rfl



theorem storeField_ID (req req2 : Request) (f : Field) (v : Json)
    (h : storeField req f v = some req2) :
    if f = .id then valueInterface v = some req2.ID else req2.ID = req.ID := by
  cases f with
  | method =>
    cases v <;> simp [storeField] at h <;> (try subst h) <;> simp
  | params =>
    cases v with
    | arr elems =>
      simp only [storeField] at h
      cases ha : arrayInterface elems with
      | none => simp [ha] at h
      | some vs =>
        simp [ha] at h
        subst h
        simp
    | null => simp [storeField] at h; subst h; simp
    | bool b => simp [storeField] at h
    | num n => simp [storeField] at h
    | str s => simp [storeField] at h
    | obj m => simp [storeField] at h
  | id =>
    simp only [storeField] at h
    cases hv : valueInterface v with
    | none => simp [hv] at h
    | some g =>
      simp [hv] at h
      subst h
      simp

theorem decodeMembers_ID : ∀ (ms : List (String × Json)) (req req2 : Request) (acc : Json),
    valueInterface acc = some req.ID → decodeMembers req ms = some req2 →
    valueInterface
      (ms.foldl (fun acc p => if findField p.1 = some .id then p.2 else acc) acc) = some req2.ID := by
  intro ms
  induction ms with
  | nil =>
    intro req req2 acc hacc h
    simp only [decodeMembers, Option.some.injEq] at h
    subst h
    exact hacc
  | cons p rest ih =>
    intro req req2 acc hacc h
    obtain ⟨k, v⟩ := p
    simp only [decodeMembers] at h
    simp only [List.foldl_cons]
    cases hf : findField k with
    | none =>
      simp only [hf] at h
      simp only [reduceCtorEq, if_false]
      exact ih req req2 acc hacc h
    | some f =>
      simp only [hf] at h
      cases hs : storeField req f v with
      | none => simp [hs] at h
      | some req1 =>
        simp only [hs] at h
        have hst := storeField_ID req req1 f v hs
        by_cases hfid : f = .id
        · subst hfid
          simp only [if_true] at hst ⊢
          exact ih req1 req2 v hst h
        · simp only [hfid, if_false] at hst
          have : ¬ (some f = some Field.id) := by simpa using hfid
          simp only [this, if_false]
          exact ih req1 req2 acc (by rw [hst]; exact hacc) h

/-- The field `ID` of the decoded request is the decoding of the value of
the last member whose name selects `ID`. -/
theorem decodeRequest_ID (j : Json) (req : Request) (h : decodeRequest j = some req) :
    valueInterface (storedIdJson j) = some req.ID := by
  cases j with
  | null =>
    simp only [decodeRequest, Option.some.injEq] at h
    subst h
    rfl
  | obj ms =>
    simp only [decodeRequest] at h
    exact decodeMembers_ID ms Request.zero req .null rfl h
  | bool b => simp [decodeRequest] at h
  | num n => simp [decodeRequest] at h
  | str s => simp [decodeRequest] at h
  | arr l => simp [decodeRequest] at h

theorem foldl_append_singleton {α β : Type} (f : β → α → β) (b : β) (l : List α) (a : α) :
    (l ++ [a]).foldl f b = f (l.foldl f b) a := by
  simp

theorem findField_id : findField "id" = some .id := by decide

/-- When the member stored to `ID` is named exactly `id`, the value stored
is the id as the request writes it. -/
theorem storedIdJson_of_exact (j : Json) (h : idKeyExact j) : storedIdJson j = requestIdJson j := by
  cases j with
  | obj ms =>
    unfold idKeyExact storedIdKey at h
    unfold storedIdJson requestIdJson
    simp only at h ⊢
    induction ms using List.reverseRecOn with
    | nil => rfl
    | append_singleton init p ih =>
      rw [foldl_append_singleton] at h
      rw [foldl_append_singleton, foldl_append_singleton]
      by_cases hf : findField p.1 = some .id
      · simp only [hf, if_true] at h ⊢
        have hp : p.1 = "id" := by
          rcases h with h | h
          · simp at h
          · simpa using h
        simp [hp]
      · simp only [hf, if_false] at h ⊢
        have hp : ¬ p.1 = "id" := by
          intro hp
          rw [hp] at hf
          exact hf findField_id
        simp only [hp, if_false]
        exact ih h
  | null => rfl
  | bool b => rfl
  | num n => rfl
  | str s => rfl
  | arr l => rfl

theorem parseTokens_response (k r : String) (T : Token) (J : Json)
    (hT : (T = .nul ∧ J = .null) ∨ (∃ s, T = .str s ∧ J = .str s) ∨
      (∃ n, T = .num n ∧ J = .num n)) :
    parseTokens ⟨.value, []⟩
        [.lbrace, .str k, .colon, .str r, .comma, .str "id", .colon, T, .rbrace] =
      some (.obj [(k, .str r), ("id", J)]) := by
  rcases hT with ⟨h1, h2⟩ | ⟨s, h1, h2⟩ | ⟨n, h1, h2⟩ <;> subst h1 <;> subst h2 <;> rfl

theorem lexFrom_emit {st st2 : LexState} {c : Char} {toks : List Token} (cs : List Char)
    (h : step st c = some (toks, st2)) :
    lexFrom st (c :: cs) = (lexFrom st2 cs).map fun more => toks ++ more := by
  rw [lexFrom_cons, h]
  cases h2 : lexFrom st2 cs <;> simp [h2]

theorem lex_quote_map (s : String) (rest : List Char) :
    lexFrom .start (quote s ++ rest) = (lexFrom .start rest).map fun more => .str s :: more := by
  rw [lex_quote]
  cases lexFrom .start rest <;> rfl

/-- The text of a response with one string member `k` and the id text
`idt`, scanned: the tokens of the envelope around the tokens of the id. -/
theorem lex_response (k r : String) (idt : List Char) :
    lexFrom .start ('\x7b' :: (renderFields true [(k, quote r), ("id", idt)] ++ ['\x7d'])) =
      (lexFrom .start (idt ++ ['\x7d'])).map fun more =>
        [.lbrace, .str k, .colon, .str r, .comma, .str "id", .colon] ++ more := by
  simp only [renderFields, if_true, List.nil_append, List.append_assoc, List.cons_append,
    Bool.false_eq_true, if_false, List.append_nil]
  have h1 : step .start '\x7b' = some ([.lbrace], .start) := rfl
  have h2 : step .start ':' = some ([.colon], .start) := rfl
  have h3 : step .start ',' = some ([.comma], .start) := rfl
  rw [lexFrom_emit _ h1, lex_quote_map, lexFrom_emit _ h2, lex_quote_map, lexFrom_emit _ h3,
    lex_quote_map, lexFrom_emit _ h2]
  cases lexFrom .start (idt ++ ['\x7d']) <;> rfl



/-! ## Integers below `2 ^ 53` survive the conversion to `float64` -/

theorem bitLenAux_spec : ∀ (fuel n : Nat), n ≤ fuel → n ≠ 0 →
    2 ^ (bitLenAux fuel n - 1) ≤ n ∧ n < 2 ^ bitLenAux fuel n ∧ 1 ≤ bitLenAux fuel n := by
  intro fuel
  induction fuel with
  | zero => intro n h h0; omega
  | succ f ih =>
    intro n hle h0
    simp only [bitLenAux, h0, if_false]
    by_cases h2 : n / 2 = 0
    · have h1 : n = 1 := by omega
      subst h1
      simp [bitLenAux]
      cases f <;> simp [bitLenAux]
    · obtain ⟨ha, hb, hc⟩ := ih (n / 2) (by omega) h2
      refine ⟨?_, ?_, by omega⟩
      · simp only [Nat.add_sub_cancel]
        have : 2 ^ bitLenAux f (n / 2) = 2 * 2 ^ (bitLenAux f (n / 2) - 1) := by
          rw [← pow_succ']
          congr 1
          omega
        omega
      · rw [pow_succ]
        omega

theorem bitLen_spec (n : Nat) (h0 : n ≠ 0) :
    2 ^ (bitLen n - 1) ≤ n ∧ n < 2 ^ bitLen n ∧ 1 ≤ bitLen n :=
  bitLenAux_spec n n (le_refl n) h0

theorem bitLen_unique (n L : Nat) (hL : 1 ≤ L) (h1 : 2 ^ (L - 1) ≤ n) (h2 : n < 2 ^ L) :
    bitLen n = L := by
  have h0 : n ≠ 0 := by
    intro h
    subst h
    have : 0 < 2 ^ (L - 1) := Nat.pow_pos (by decide)
    omega
  obtain ⟨a, b, c⟩ := bitLen_spec n h0
  have hlt1 : 2 ^ (L - 1) < 2 ^ bitLen n := lt_of_le_of_lt h1 b
  have hlt2 : 2 ^ (bitLen n - 1) < 2 ^ L := lt_of_le_of_lt a h2
  have e1 := (Nat.pow_lt_pow_iff_right (show 1 < 2 by decide)).mp hlt1
  have e2 := (Nat.pow_lt_pow_iff_right (show 1 < 2 by decide)).mp hlt2
  omega

theorem bitLen_mul_pow (n k : Nat) (h0 : n ≠ 0) : bitLen (n * 2 ^ k) = bitLen n + k := by
  obtain ⟨a, b, c⟩ := bitLen_spec n h0
  apply bitLen_unique _ _ (by omega)
  · have : bitLen n + k - 1 = (bitLen n - 1) + k := by omega
    rw [this, pow_add]
    exact Nat.mul_le_mul_right _ a
  · rw [pow_add]
    exact Nat.mul_lt_mul_of_pos_right b (Nat.pow_pos (by decide))

theorem bitLen_one : bitLen 1 = 1 := rfl


theorem roundHalfEven_exact (q d : Nat) (hd : 0 < d) : roundHalfEven (q * d) d = q := by
  unfold roundHalfEven
  simp only [Nat.mul_div_cancel _ hd, Nat.mul_mod_left, Nat.mul_zero]
  rw [if_pos hd]

theorem bitLen_le_53 (C : Nat) (h0 : C ≠ 0) (h53 : C < 2 ^ 53) : bitLen C ≤ 53 := by
  obtain ⟨a, _, c⟩ := bitLen_spec C h0
  have hlt : 2 ^ (bitLen C - 1) < 2 ^ 53 := lt_of_le_of_lt a h53
  have := (Nat.pow_lt_pow_iff_right (show 1 < 2 by decide)).mp hlt
  omega

/-- The exponent chosen by `roundBinary` for an integer. -/
theorem roundBinary_int_shift (C : Nat) (h0 : C ≠ 0) :
    (if 1 * 2 ^ (bitLen (C * 2 ^ expBias) - bitLen 1) ≤ C * 2 ^ expBias
      then bitLen (C * 2 ^ expBias) - bitLen 1
      else bitLen (C * 2 ^ expBias) - bitLen 1 - 1) - 52 = bitLen C + 1021 := by
  obtain ⟨a, _, c⟩ := bitLen_spec C h0
  rw [bitLen_mul_pow C expBias h0, bitLen_one]
  have hb : expBias = 1074 := expBias_eq
  have e : bitLen C + expBias - 1 = (bitLen C - 1) + expBias := by omega
  rw [e, if_pos]
  · omega
  · rw [pow_add, Nat.one_mul]
    exact Nat.mul_le_mul_right _ a

/-- An integer below `2 ^ 53` is a `float64`: `roundBinary` returns it
unchanged, with the mantissa shifted to 53 bits. -/
theorem roundBinary_int (C : Nat) (h0 : C ≠ 0) (h53 : C < 2 ^ 53) :
    roundBinary C 1 = (C * 2 ^ (53 - bitLen C), bitLen C + 1021) := by
  have hL := bitLen_le_53 C h0 h53
  obtain ⟨a, b, c⟩ := bitLen_spec C h0
  unfold roundBinary
  simp only
  rw [roundBinary_int_shift C h0]
  have hsplit : C * 2 ^ expBias = (C * 2 ^ (53 - bitLen C)) * (1 * 2 ^ (bitLen C + 1021)) := by
    have hb : expBias = 1074 := expBias_eq
    have he : expBias = 53 - bitLen C + (bitLen C + 1021) := by omega
    rw [Nat.one_mul, Nat.mul_assoc, ← pow_add, ← he]
  have hq : roundHalfEven (C * 2 ^ expBias) (1 * 2 ^ (bitLen C + 1021)) = C * 2 ^ (53 - bitLen C) := by
    rw [hsplit]
    exact roundHalfEven_exact _ _ (by rw [Nat.one_mul]; exact Nat.pow_pos (by decide))
  rw [hq]
  have hlt : C * 2 ^ (53 - bitLen C) < 2 ^ 53 := by
    have e : (2 : Nat) ^ 53 = 2 ^ bitLen C * 2 ^ (53 - bitLen C) := by
      have he : bitLen C + (53 - bitLen C) = 53 := by omega
      rw [← pow_add, he]
    rw [e]
    exact Nat.mul_lt_mul_of_pos_right b (Nat.pow_pos (by decide))
  rw [if_neg (by omega)]

/-- An integer from `2 ^ 53` on gets a larger exponent than any integer
below `2 ^ 53`. -/
theorem roundBinary_big (C : Nat) (h53 : 2 ^ 53 ≤ C) : 1075 ≤ (roundBinary C 1).2 := by
  have h0 : C ≠ 0 := by
    intro h
    subst h
    simp at h53
  obtain ⟨a, b, c⟩ := bitLen_spec C h0
  have hL : 54 ≤ bitLen C := by
    have hlt : 2 ^ 53 < 2 ^ bitLen C := lt_of_le_of_lt h53 b
    have := (Nat.pow_lt_pow_iff_right (show 1 < 2 by decide)).mp hlt
    omega
  unfold roundBinary
  simp only
  rw [roundBinary_int_shift C h0]
  split
  · show 1075 ≤ bitLen C + 1021 + 1
    omega
  · show 1075 ≤ bitLen C + 1021
    omega

theorem roundBinary_zero : roundBinary 0 1 = (0, 0) := by
  unfold roundBinary
  rw [Nat.zero_mul]
  rfl

/-- Only the integer itself reads back as the `float64` of an integer below
`2 ^ 53`. -/
theorem roundBinary_int_inj (n C : Nat) (h0 : n ≠ 0) (h53 : n < 2 ^ 53)
    (h : roundBinary C 1 = roundBinary n 1) : C = n := by
  have hn := roundBinary_int n h0 h53
  have hLn := bitLen_le_53 n h0 h53
  obtain ⟨_, _, c⟩ := bitLen_spec n h0
  rw [hn] at h
  by_cases hC0 : C = 0
  · subst hC0
    rw [roundBinary_zero] at h
    have := congrArg Prod.snd h
    simp at this
  · by_cases hC : C < 2 ^ 53
    · rw [roundBinary_int C hC0 hC] at h
      have h2 := congrArg Prod.snd h
      have h1 := congrArg Prod.fst h
      simp only at h1 h2
      have hL : bitLen C = bitLen n := by omega
      rw [hL] at h1
      exact Nat.eq_of_mul_eq_mul_right (Nat.pow_pos (by decide)) h1
    · have hb := roundBinary_big C (by omega)
      rw [h] at hb
      simp only at hb
      omega



theorem decLenAux_spec : ∀ (fuel n : Nat), n ≤ fuel → n ≠ 0 →
    10 ^ (decLenAux fuel n - 1) ≤ n ∧ n < 10 ^ decLenAux fuel n ∧ 1 ≤ decLenAux fuel n := by
  intro fuel
  induction fuel with
  | zero => intro n h h0; omega
  | succ f ih =>
    intro n hle h0
    simp only [decLenAux, h0, if_false]
    by_cases h2 : n / 10 = 0
    · have h1 : n < 10 := by omega
      have hz : decLenAux f (n / 10) = 0 := by
        rw [h2]
        cases f <;> simp [decLenAux]
      rw [hz]
      simp
      omega
    · obtain ⟨ha, hb, hc⟩ := ih (n / 10) (by omega) h2
      refine ⟨?_, ?_, by omega⟩
      · simp only [Nat.add_sub_cancel]
        have : 10 ^ decLenAux f (n / 10) = 10 * 10 ^ (decLenAux f (n / 10) - 1) := by
          rw [← pow_succ']
          have he : decLenAux f (n / 10) - 1 + 1 = decLenAux f (n / 10) := by omega
          rw [he]
        omega
      · rw [pow_succ]
        omega

theorem decLen_spec (n : Nat) (h0 : n ≠ 0) :
    10 ^ (decLen n - 1) ≤ n ∧ n < 10 ^ decLen n ∧ 1 ≤ decLen n :=
  decLenAux_spec n n (le_refl n) h0

theorem decLen_unique (n L : Nat) (hL : 1 ≤ L) (h1 : 10 ^ (L - 1) ≤ n) (h2 : n < 10 ^ L) :
    decLen n = L := by
  have h0 : n ≠ 0 := by
    intro h
    subst h
    have : 0 < 10 ^ (L - 1) := Nat.pow_pos (by decide)
    omega
  obtain ⟨a, b, c⟩ := decLen_spec n h0
  have hlt1 : 10 ^ (L - 1) < 10 ^ decLen n := lt_of_le_of_lt h1 b
  have hlt2 : 10 ^ (decLen n - 1) < 10 ^ L := lt_of_le_of_lt a h2
  have e1 := (Nat.pow_lt_pow_iff_right (show 1 < 10 by decide)).mp hlt1
  have e2 := (Nat.pow_lt_pow_iff_right (show 1 < 10 by decide)).mp hlt2
  omega

theorem toDigits_length_spec (n : Nat) : n ≠ 0 →
    10 ^ ((Nat.toDigits 10 n).length - 1) ≤ n ∧ n < 10 ^ (Nat.toDigits 10 n).length ∧
      1 ≤ (Nat.toDigits 10 n).length := by
  induction n using Nat.strong_induction_on with
  | _ n ih =>
    intro h0
    by_cases h : n < 10
    · rw [toDigits_lt n h]
      simp
      omega
    · rw [toDigits_step n (by omega)]
      obtain ⟨a, b, c⟩ := ih (n / 10) (by omega) (by omega)
      simp only [List.length_append, List.length_singleton, Nat.add_sub_cancel]
      refine ⟨?_, ?_, by omega⟩
      · have : 10 ^ (Nat.toDigits 10 (n / 10)).length =
            10 * 10 ^ ((Nat.toDigits 10 (n / 10)).length - 1) := by
          rw [← pow_succ']
          have he : (Nat.toDigits 10 (n / 10)).length - 1 + 1 =
              (Nat.toDigits 10 (n / 10)).length := by omega
          rw [he]
        omega
      · rw [pow_succ]
        omega

theorem toDigits_length (n : Nat) (h0 : n ≠ 0) : (Nat.toDigits 10 n).length = decLen n := by
  obtain ⟨a, b, c⟩ := toDigits_length_spec n h0
  exact (decLen_unique n _ c a b).symm

theorem toDigits_mul_pow (q : Nat) (h0 : q ≠ 0) (z : Nat) :
    Nat.toDigits 10 (q * 10 ^ z) = Nat.toDigits 10 q ++ List.replicate z '0' := by
  induction z with
  | zero => simp
  | succ z ih =>
    have hpos : 0 < q * 10 ^ z := Nat.mul_pos (Nat.pos_of_ne_zero h0) (Nat.pow_pos (by decide))
    have e : q * 10 ^ (z + 1) = q * 10 ^ z * 10 := by rw [pow_succ, Nat.mul_assoc]
    rw [e, toDigits_step _ (by omega), Nat.mul_div_cancel _ (by decide), Nat.mul_mod_left, ih,
      List.replicate_succ', List.append_assoc]
    rfl

theorem toDigits_last (q : Nat) :
    ∃ r, (Nat.toDigits 10 q).reverse = Nat.digitChar (q % 10) :: r := by
  by_cases h : q < 10
  · have h1 : q % 10 = q := by omega
    rw [toDigits_lt q h, h1]
    exact ⟨[], rfl⟩
  · rw [toDigits_step q (by omega)]
    exact ⟨(Nat.toDigits 10 (q / 10)).reverse, by simp⟩

theorem digitChar_ne_zero (d : Nat) (h0 : 0 < d) (h : d < 10) : Nat.digitChar d ≠ '0' := by
  interval_cases d <;> decide

theorem dropZeros_of_ne (c : Char) (l : List Char) (h : c ≠ '0') : dropZeros (c :: l) = c :: l := by
  unfold dropZeros
  split
  · next heq =>
    injection heq with h1 h2
    exact absurd h1 h
  · rfl



/-- The `float64` of a positive integer below `2 ^ 53` has the value of the
integer. -/
theorem int_value (n : Nat) (h0 : n ≠ 0) (h53 : n < 2 ^ 53) :
    n * 2 ^ (53 - bitLen n) * 2 ^ (bitLen n + 1021) = n * 2 ^ expBias := by
  have hL := bitLen_le_53 n h0 h53
  have hb : expBias = 1074 := expBias_eq
  have he : expBias = 53 - bitLen n + (bitLen n + 1021) := by omega
  rw [Nat.mul_assoc, ← pow_add, ← he]

theorem decimalPoint_int (n : Nat) (h0 : n ≠ 0) :
    decimalPoint (n * 2 ^ expBias) (2 ^ expBias) = (decLen n : Int) := by
  have hp : 0 < 2 ^ expBias := Nat.pow_pos (by decide)
  unfold decimalPoint
  rw [if_pos (Nat.le_mul_of_pos_left _ (Nat.pos_of_ne_zero h0)), Nat.mul_div_cancel _ hp]

theorem readsBack_int (n : Nat) (h0 : n ≠ 0) (h53 : n < 2 ^ 53) (c j : Nat) :
    readsBack (n * 2 ^ (53 - bitLen n)) (bitLen n + 1021) c (j : Int) =
      decide (c * 10 ^ j = n) := by
  unfold readsBack scaleDec
  simp only [Int.natCast_nonneg, if_true, Int.toNat_ofNat]
  rw [← roundBinary_int n h0 h53]
  by_cases h : c * 10 ^ j = n
  · simp [h]
  · have : roundBinary (c * 10 ^ j) 1 ≠ roundBinary n 1 :=
      fun hh => h (roundBinary_int_inj n _ h0 h53 hh)
    simp [h, this]

theorem scaled_floor (n k D : Nat) (hk : k ≤ D) :
    (scaleDec (n * 2 ^ expBias) (2 ^ expBias) ((k : Int) - (D : Int))).1 /
      (scaleDec (n * 2 ^ expBias) (2 ^ expBias) ((k : Int) - (D : Int))).2 = n / 10 ^ (D - k) := by
  have hp : 0 < 2 ^ expBias := Nat.pow_pos (by decide)
  unfold scaleDec
  by_cases h : (0 : Int) ≤ (k : Int) - (D : Int)
  · have hkD : k = D := by omega
    subst hkD
    simp only [h, if_true, sub_self, Int.toNat_zero, pow_zero, Nat.mul_one, Nat.sub_self,
      Nat.div_one]
    exact Nat.mul_div_cancel _ hp
  · have he : (-((k : Int) - (D : Int))).toNat = D - k := by omega
    simp only [h, if_false, he]
    rw [Nat.mul_comm n, Nat.mul_div_mul_left _ _ hp]

theorem lt_succ_floor_mul (n d : Nat) (hd : 0 < d) : n < (n / d + 1) * d := by
  have h1 := Nat.div_add_mod n d
  have h2 := Nat.mod_lt n hd
  have h3 : (n / d + 1) * d = d * (n / d) + d := by ring
  omega

/-- For an integer below `2 ^ 53`, a decimal of `k` digits reads back as it
exactly when it is the integer itself, without its last `D - k` zeros. -/
theorem shortestAt_int (n : Nat) (h0 : n ≠ 0) (h53 : n < 2 ^ 53) (D k : Nat) (hk : k ≤ D) :
    shortestAt (n * 2 ^ (53 - bitLen n)) (bitLen n + 1021) (D : Int) k =
      if n / 10 ^ (D - k) * 10 ^ (D - k) = n then some (n / 10 ^ (D - k)) else none := by
  unfold shortestAt
  simp only
  rw [int_value n h0 h53, scaled_floor n k D hk]
  have hsub : (D : Int) - (k : Int) = ((D - k : Nat) : Int) := by omega
  rw [hsub, readsBack_int n h0 h53, readsBack_int n h0 h53]
  have hhi : ¬ ((n / 10 ^ (D - k) + 1) * 10 ^ (D - k) = n) := by
    have := lt_succ_floor_mul n (10 ^ (D - k)) (Nat.pow_pos (by decide))
    omega
  by_cases hlo : n / 10 ^ (D - k) * 10 ^ (D - k) = n
  · simp [hlo, hhi]
  · simp [hlo, hhi]

theorem shortestFrom_int (n : Nat) (h0 : n ≠ 0) (h53 : n < 2 ^ 53) (D : Nat) :
    ∀ (fuel k : Nat), 1 ≤ k → k ≤ D → D < k + fuel →
      (∀ k2, 1 ≤ k2 → k2 < k → ¬ (n / 10 ^ (D - k2) * 10 ^ (D - k2) = n)) →
      ∃ k0, 1 ≤ k0 ∧ k0 ≤ D ∧
        shortestFrom (n * 2 ^ (53 - bitLen n)) (bitLen n + 1021) (D : Int) fuel k =
          (n / 10 ^ (D - k0), k0) ∧
        n / 10 ^ (D - k0) * 10 ^ (D - k0) = n ∧
        ∀ k2, 1 ≤ k2 → k2 < k0 → ¬ (n / 10 ^ (D - k2) * 10 ^ (D - k2) = n) := by
  intro fuel
  induction fuel with
  | zero => intro k h1 h2 h3; omega
  | succ f ih =>
    intro k h1 h2 h3 hmin
    rw [shortestFrom, shortestAt_int n h0 h53 D k h2]
    by_cases hP : n / 10 ^ (D - k) * 10 ^ (D - k) = n
    · rw [if_pos hP]
      exact ⟨k, h1, h2, rfl, hP, hmin⟩
    · rw [if_neg hP]
      show ∃ k0, 1 ≤ k0 ∧ k0 ≤ D ∧
        shortestFrom (n * 2 ^ (53 - bitLen n)) (bitLen n + 1021) (D : Int) f (k + 1) =
          (n / 10 ^ (D - k0), k0) ∧ _
      have hlt : k < D := by
        rcases Nat.lt_or_ge k D with h | h
        · exact h
        · have hk : k = D := by omega
          subst hk
          simp at hP
      apply ih (k + 1) (by omega) (by omega) (by omega)
      intro k2 hk1 hk2
      rcases Nat.lt_or_ge k2 k with h | h
      · exact hmin k2 hk1 h
      · have : k2 = k := by omega
        subst this
        exact hP



theorem decLen_le_16 (n : Nat) (h0 : n ≠ 0) (h53 : n < 2 ^ 53) : decLen n ≤ 16 := by
  obtain ⟨a, _, c⟩ := decLen_spec n h0
  have hlt : 10 ^ (decLen n - 1) < 10 ^ 16 := by
    have : (2 : Nat) ^ 53 < 10 ^ 16 := by norm_num
    omega
  have := (Nat.pow_lt_pow_iff_right (show 1 < 10 by decide)).mp hlt
  omega

/-- The shortest decimal of the `float64` of a positive integer below
`2 ^ 53`: the digits of the integer without its trailing zeros, and the
decimal point after all the digits of the integer. -/
theorem shortestDecimal_int (n : Nat) (h0 : n ≠ 0) (h53 : n < 2 ^ 53) :
    ∃ q z, q ≠ 0 ∧ q * 10 ^ z = n ∧ (Nat.toDigits 10 q).length + z = decLen n ∧
      shortestDecimal (n * 2 ^ (53 - bitLen n)) (bitLen n + 1021) =
        (Nat.toDigits 10 q, (decLen n : Int)) := by
  obtain ⟨hD1, hD2, hD3⟩ := decLen_spec n h0
  have hD16 := decLen_le_16 n h0 h53
  obtain ⟨k0, hk1, hkD, hloop, hP, hmin⟩ :=
    shortestFrom_int n h0 h53 (decLen n) 16 1 (le_refl 1) hD3 (by omega)
      (fun k2 h1 h2 => by omega)
  have hz : decLen n = k0 + (decLen n - k0) := by omega
  have hq0 : n / 10 ^ (decLen n - k0) ≠ 0 := by
    intro h
    rw [h] at hP
    simp at hP
    exact h0 hP.symm
  have hpz : 0 < 10 ^ (decLen n - k0) := Nat.pow_pos (by decide)
  -- the quotient has exactly `k0` digits
  have hqlen : decLen (n / 10 ^ (decLen n - k0)) = k0 := by
    apply decLen_unique _ _ hk1
    · apply Nat.le_of_mul_le_mul_right _ hpz
      rw [hP, ← pow_add]
      have : k0 - 1 + (decLen n - k0) = decLen n - 1 := by omega
      rw [this]
      exact hD1
    · refine Nat.lt_of_mul_lt_mul_right
        (?_ : _ * 10 ^ (decLen n - k0) < 10 ^ k0 * 10 ^ (decLen n - k0))
      rw [hP, ← pow_add]
      have : k0 + (decLen n - k0) = decLen n := by omega
      rw [this]
      exact hD2
  -- its last digit is not zero
  have key : ∀ z q : Nat, q * 10 ^ z = n → q % 10 = 0 →
      n / 10 ^ (z + 1) * 10 ^ (z + 1) = n := by
    intro z q hqz hmod
    apply Nat.div_mul_cancel
    refine ⟨q / 10, ?_⟩
    have hq : q = q / 10 * 10 := by omega
    rw [← hqz, pow_succ]
    conv_lhs => rw [hq]
    ring
  have hlast : n / 10 ^ (decLen n - k0) % 10 ≠ 0 := by
    intro hmod
    by_cases hk : k0 = 1
    · have hlt : n / 10 ^ (decLen n - k0) < 10 ^ k0 := by
        have := (decLen_spec _ hq0).2.1
        rw [hqlen] at this
        exact this
      have h10 : 10 ^ k0 = 10 := by rw [hk]; rfl
      rw [h10] at hlt
      rw [Nat.mod_eq_of_lt hlt] at hmod
      exact hq0 hmod
    · apply hmin (k0 - 1) (by omega) (by omega)
      have e : decLen n - (k0 - 1) = (decLen n - k0) + 1 := by omega
      rw [e]
      exact key _ _ hP hmod
  refine ⟨n / 10 ^ (decLen n - k0), decLen n - k0, hq0, hP, ?_, ?_⟩
  · rw [toDigits_length _ hq0, hqlen]
    omega
  · have hm0 : n * 2 ^ (53 - bitLen n) ≠ 0 :=
      Nat.mul_ne_zero h0 (Nat.pos_iff_ne_zero.mp (Nat.pow_pos (by decide)))
    unfold shortestDecimal
    rw [if_neg hm0]
    simp only
    rw [int_value n h0 h53, decimalPoint_int n h0, hloop]
    simp only
    obtain ⟨r, hr⟩ := toDigits_last (n / 10 ^ (decLen n - k0))
    have hdz : dropZeros (Nat.toDigits 10 (n / 10 ^ (decLen n - k0))).reverse =
        (Nat.toDigits 10 (n / 10 ^ (decLen n - k0))).reverse := by
      rw [hr]
      exact dropZeros_of_ne _ _ (digitChar_ne_zero _ (by omega) (Nat.mod_lt _ (by decide)))
    rw [hdz, List.reverse_reverse, toDigits_length _ hq0, hqlen]
    simp

theorem fmtF_int (neg : Bool) (q z D : Nat) (hq : q ≠ 0)
    (hlen : (Nat.toDigits 10 q).length + z = D) :
    fmtF neg (Nat.toDigits 10 q) (D : Int) =
      (if neg then ['-'] else []) ++ Nat.toDigits 10 (q * 10 ^ z) := by
  have hpos : 1 ≤ (Nat.toDigits 10 q).length := (toDigits_length_spec q hq).2.2
  unfold fmtF
  simp only
  have h1 : (0 : Int) < (D : Int) := by omega
  have h2 : (((Nat.toDigits 10 q).length : Int) - (D : Int)).toNat = 0 := by omega
  rw [if_pos h1, h2]
  simp only [Int.toNat_ofNat, Nat.lt_irrefl, if_false, List.append_nil]
  rw [List.take_of_length_le (by omega), toDigits_mul_pow q hq z]
  have h3 : D - (Nat.toDigits 10 q).length = z := by omega
  rw [h3]

unseal expBias roundBinary in
set_option maxRecDepth 100000 in
set_option exponentiation.threshold 3000 in
theorem float1em6_val : float1em6.mant = 4722366482869645 ∧ float1em6.exp + 72 = expBias := by
  decide

unseal expBias roundBinary in
set_option maxRecDepth 100000 in
set_option exponentiation.threshold 3000 in
theorem float1e21_val : float1e21.mant = 7629394531250000 ∧ float1e21.exp = expBias + 17 := by
  decide

theorem absLt_iff (a b : Float64) :
    a.absLt b = true ↔ a.mant * 2 ^ a.exp < b.mant * 2 ^ b.exp := by
  unfold Float64.absLt
  exact decide_eq_true_iff

/-- A `float64` with the value of a positive integer below `2 ^ 53` is
written in format `f`. -/
theorem int_in_f_range (f : Float64) (n : Nat) (h0 : n ≠ 0) (h53 : n < 2 ^ 53)
    (hv : f.mant * 2 ^ f.exp = n * 2 ^ expBias) :
    ¬ (f.mant ≠ 0 ∧ (f.absLt float1em6 = true ∨ ¬ f.absLt float1e21 = true)) := by
  obtain ⟨hm6, he6⟩ := float1em6_val
  obtain ⟨hm21, he21⟩ := float1e21_val
  have hpb : 0 < 2 ^ expBias := Nat.pow_pos (by decide)
  rw [absLt_iff, absLt_iff, hv, hm6, hm21, he21, ← he6]
  have hlo : ¬ (n * 2 ^ (float1em6.exp + 72) < 4722366482869645 * 2 ^ float1em6.exp) := by
    rw [Nat.add_comm, pow_add, ← Nat.mul_assoc]
    intro h
    have h2 := Nat.lt_of_mul_lt_mul_right h
    have h72 : (4722366482869645 : Nat) < 2 ^ 72 := by norm_num
    have : n * 2 ^ 72 ≥ 2 ^ 72 := Nat.le_mul_of_pos_left _ (Nat.pos_of_ne_zero h0)
    omega
  have hhi : ∀ B : Nat, n * 2 ^ B < 7629394531250000 * 2 ^ (B + 17) := by
    intro B
    have e : 7629394531250000 * 2 ^ (B + 17) = 7629394531250000 * 2 ^ 17 * 2 ^ B := by
      rw [pow_add]
      ring
    rw [e]
    apply Nat.mul_lt_mul_of_pos_right _ (Nat.pow_pos (by decide))
    have : (2 : Nat) ^ 53 ≤ 7629394531250000 * 2 ^ 17 := by norm_num
    omega
  rintro ⟨_, h | h⟩
  · exact hlo h
  · exact h (hhi _)

theorem readExponent_zero : readExponent 0 = 0 := by decide

/-- An integer literal below `2 ^ 53` converts to a `float64`. -/
theorem ParseFloat_int (neg : Bool) (n : Nat) (h53 : n < 2 ^ 53) :
    ∃ f, ParseFloat ⟨neg, n, 0, false, 0⟩ = some f ∧
      encodeFloat f = (if neg then ['-'] else []) ++ Nat.toDigits 10 n := by
  by_cases h0 : n = 0
  · subst h0
    refine ⟨⟨neg, 0, 0⟩, ?_, ?_⟩
    · simp only [ParseFloat, NumLit.readFraction, readExponent_zero, Bool.false_eq_true,
        if_false, le_refl, if_true, Nat.sub_self, pow_zero, Nat.mul_one]
      rw [roundBinary_zero]
      rfl
    · have hsd : shortestDecimal 0 0 = ([], 0) := by
        unfold shortestDecimal
        rw [if_pos rfl]
      have hne : ¬ ((⟨neg, 0, 0⟩ : Float64).mant ≠ 0 ∧
          ((⟨neg, 0, 0⟩ : Float64).absLt float1em6 = true ∨
            ¬ (⟨neg, 0, 0⟩ : Float64).absLt float1e21 = true)) := fun h => h.1 rfl
      unfold encodeFloat
      rw [if_neg hne]
      unfold FormatFloat
      simp only
      rw [if_neg (by decide), hsd]
      cases neg <;> rfl
  · refine ⟨⟨neg, n * 2 ^ (53 - bitLen n), bitLen n + 1021⟩, ?_, ?_⟩
    · have hL := bitLen_le_53 n h0 h53
      simp only [ParseFloat, NumLit.readFraction, readExponent_zero, Bool.false_eq_true,
        if_false, le_refl, if_true, Nat.sub_self, pow_zero, Nat.mul_one]
      rw [roundBinary_int n h0 h53]
      simp only
      rw [if_neg (by omega)]
    · obtain ⟨q, z, hq, hqz, hlen, hsd⟩ := shortestDecimal_int n h0 h53
      unfold encodeFloat
      rw [if_neg (int_in_f_range ⟨neg, n * 2 ^ (53 - bitLen n), bitLen n + 1021⟩ n h0 h53
        (int_value n h0 h53))]
      unfold FormatFloat
      simp only
      rw [if_neg (by decide), hsd]
      simp only
      rw [fmtF_int neg q z (decLen n) hq hlen, hqz]



theorem step_start_digit (d : Nat) (h0 : 0 < d) (h : d < 10) :
    step .start (Nat.digitChar d) = some ([], .int false d) := by
  interval_cases d <;> rfl

theorem step_neg_digit (d : Nat) (h0 : 0 < d) (h : d < 10) :
    step .neg (Nat.digitChar d) = some ([], .int true d) := by
  interval_cases d <;> rfl

theorem step_int_digit (neg : Bool) (m d : Nat) (h : d < 10) :
    step (.int neg m) (Nat.digitChar d) = some ([], .int neg (m * 10 + d)) := by
  interval_cases d <;> rfl

/-- The scanner reads the decimal digits of a positive integer as that
integer. -/
theorem lex_digits (neg : Bool) (n : Nat) : n ≠ 0 → ∀ rest : List Char,
    lexFrom (if neg then .neg else .start) (Nat.toDigits 10 n ++ rest) =
      lexFrom (.int neg n) rest := by
  induction n using Nat.strong_induction_on with
  | _ n ih =>
    intro h0 rest
    by_cases h : n < 10
    · rw [toDigits_lt n h]
      apply lexFrom_silent
      cases neg
      · exact step_start_digit n (by omega) h
      · exact step_neg_digit n (by omega) h
    · rw [toDigits_step n (by omega), List.append_assoc, ih (n / 10) (by omega) (by omega)]
      have e : n / 10 * 10 + n % 10 = n := by omega
      have hs := step_int_digit neg (n / 10) (n % 10) (by omega)
      rw [e] at hs
      exact lexFrom_silent _ _ _ _ hs

/-- The scanner reads an integer written by the encoder, followed by the
closing brace, as a number token with that integer as its value and
neither fraction nor exponent. -/
theorem lex_int (neg : Bool) (n : Nat) :
    lexFrom .start (((if neg then ['-'] else []) ++ Nat.toDigits 10 n) ++ ['\x7d']) =
      some [.num ⟨neg, n, 0, false, 0⟩, .rbrace] := by
  by_cases h0 : n = 0
  · subst h0
    cases neg <;> rfl
  · have hend : lexFrom (.int neg n) ['\x7d'] = some [.num ⟨neg, n, 0, false, 0⟩, .rbrace] := rfl
    cases neg
    · simp only [Bool.false_eq_true, if_false, List.nil_append]
      have := lex_digits false n h0 ['\x7d']
      simp only [Bool.false_eq_true, if_false] at this
      rw [this, hend]
    · simp only [if_true, List.cons_append, List.nil_append]
      have hminus : step .start '-' = some ([], .neg) := rfl
      rw [lexFrom_silent _ _ _ _ hminus]
      have := lex_digits true n h0 ['\x7d']
      simp only [if_true] at this
      rw [this, hend]



theorem sameNumber_refl (n : NumLit) : n.sameNumber n = true := by
  simp [NumLit.sameNumber]

/-- The id of a response with one string member, read back. -/
theorem responseIdJson_Marshal (k r : String) (hk : (k == "id") = false) (ID : GoVal) (T : Token)
    (J : Json) (hlex : lexFrom .start (encodeValue ID ++ ['\x7d']) = some [T, .rbrace])
    (hT : (T = .nul ∧ J = .null) ∨ (∃ s, T = .str s ∧ J = .str s) ∨
      (∃ n, T = .num n ∧ J = .num n)) :
    responseIdJson (String.mk ('\x7b' ::
      (renderFields true [(k, quote r), ("id", encodeValue ID)] ++ ['\x7d']))) = some J := by
  unfold responseIdJson parseJson
  simp only
  rw [lex_response, hlex]
  simp only [Option.map_some', List.cons_append, List.nil_append]
  rw [parseTokens_response k r T J hT]
  simp [List.find?, hk]

theorem respond_fields (now : Clock) (req : Request) :
    ∃ k r : String, (k == "id") = false ∧
      (respond now req).fields = [(k, quote r), ("id", encodeValue req.ID)] := by
  by_cases hk : knownMethod req.Method
  · obtain ⟨r, hr⟩ := respond_known now req hk
    exact ⟨"result", r, by decide, by simp [hr, Response.fields, omitEmpty, encodeValue]⟩
  · exact ⟨"error", "Unknown method: " ++ req.Method, by decide,
      by simp [respond_unknown now req hk, Response.fields, omitEmpty, encodeValue]⟩



theorem trimSpaceChars_replicate_space (n : Nat) : trimSpaceChars (List.replicate n ' ') = [] := by
  have h : (List.replicate n ' ').dropWhile isSpace = [] := by
    rw [List.dropWhile_eq_nil_iff]
    intro x hx
    rw [List.eq_of_mem_replicate hx]
    decide
  simp [trimSpaceChars, h]

theorem respond_ID (now : Clock) (req : Request) : (respond now req).ID = req.ID := by
  unfold respond
  split_ifs <;> rfl

/-! ## Rounding to the nearest `float64` -/

theorem roundHalfEven_cases (n d : Nat) :
    roundHalfEven n d = n / d ∨ roundHalfEven n d = n / d + 1 := by
  unfold roundHalfEven
  simp only
  split_ifs <;> simp

/-- The rounded quotient is within half a unit of the quotient. -/
theorem roundHalfEven_near (n d : Nat) (hd : 0 < d) :
    2 * n ≤ 2 * (roundHalfEven n d * d) + d ∧ 2 * (roundHalfEven n d * d) ≤ 2 * n + d := by
  have h1 := Nat.div_add_mod n d
  have h2 := Nat.mod_lt n hd
  have e : (n / d + 1) * d = d * (n / d) + d := by ring
  have e2 : n / d * d = d * (n / d) := by ring
  unfold roundHalfEven
  simp only
  split_ifs with a b c
  · rw [e2]; omega
  · rw [e]; omega
  · rw [e2]; omega
  · rw [e]; omega

theorem roundHalfEven_le (n d K : Nat) (hd : 0 < d) (h : n ≤ K * d) : roundHalfEven n d ≤ K := by
  by_contra hc
  have hq : K + 1 ≤ roundHalfEven n d := by omega
  have h2 := (roundHalfEven_near n d hd).2
  have h3 : (K + 1) * d ≤ roundHalfEven n d * d := Nat.mul_le_mul_right d hq
  have e : (K + 1) * d = K * d + d := by ring
  omega

theorem roundHalfEven_ge (n d K : Nat) (hd : 0 < d) (h : K * d ≤ n) : K ≤ roundHalfEven n d := by
  rcases roundHalfEven_cases n d with hq | hq
  · rw [hq]; exact (Nat.le_div_iff_mul_le hd).mpr h
  · rw [hq]; exact Nat.le_succ_of_le ((Nat.le_div_iff_mul_le hd).mpr h)

theorem roundHalfEven_scale (n d c : Nat) (hc : 0 < c) :
    roundHalfEven (n * c) (d * c) = roundHalfEven n d := by
  unfold roundHalfEven
  simp only
  rw [Nat.mul_div_mul_right _ _ hc, Nat.mul_mod_mul_right]
  have e1 : (2 * (n % d * c) < d * c) ↔ (2 * (n % d) < d) := by
    rw [← Nat.mul_assoc]
    exact Nat.mul_lt_mul_right hc
  have e2 : (d * c < 2 * (n % d * c)) ↔ (d < 2 * (n % d)) := by
    rw [← Nat.mul_assoc]
    exact Nat.mul_lt_mul_right hc
  simp only [e1, e2]

theorem isBinExp_unique (f g n den : Nat) (hf : IsBinExp f n den)
    (hg : IsBinExp g n den) : f = g := by
  obtain ⟨hf1, hf2⟩ := hf
  obtain ⟨hg1, hg2⟩ := hg
  have key : ∀ a b : Nat, n < den * 2 ^ (a + 1) → (b = 0 ∨ den * 2 ^ b ≤ n) → b ≤ a := by
    intro a b h1 h2
    rcases h2 with h | h
    · omega
    · have hlt : den * 2 ^ b < den * 2 ^ (a + 1) := lt_of_le_of_lt h h1
      have h3 : 2 ^ b < 2 ^ (a + 1) := Nat.lt_of_mul_lt_mul_left hlt
      have := (Nat.pow_lt_pow_iff_right (show 1 < 2 by decide)).mp h3
      omega
  exact le_antisymm (key g f hg1 hf2) (key f g hf1 hg2)

theorem isBinExp_choice (n den : Nat) (hden : 0 < den) :
    IsBinExp (if den * 2 ^ (bitLen n - bitLen den) ≤ n then bitLen n - bitLen den
      else bitLen n - bitLen den - 1) n den := by
  have hd0 : den ≠ 0 := by omega
  obtain ⟨d1, d2, d3⟩ := bitLen_spec den hd0
  by_cases hn : n = 0
  · subst hn
    have hb : bitLen 0 = 0 := rfl
    rw [hb]
    simp only [Nat.zero_sub, pow_zero, Nat.mul_one]
    rw [if_neg (by omega)]
    exact ⟨by positivity, Or.inl rfl⟩
  · obtain ⟨n1, n2, n3⟩ := bitLen_spec n hn
    have hp : ∀ a b : Nat, a ≤ b → 2 ^ a ≤ 2 ^ b := fun a b h => Nat.pow_le_pow_right (by decide) h
    by_cases hab : bitLen den ≤ bitLen n
    · -- den * 2 ^ (a - b) < 2 ^ a
      by_cases hc : den * 2 ^ (bitLen n - bitLen den) ≤ n
      · rw [if_pos hc]
        refine ⟨?_, Or.inr hc⟩
        have h1 : 2 ^ bitLen n = 2 ^ (bitLen den - 1) * 2 ^ (bitLen n - bitLen den + 1) := by
          rw [← pow_add]
          congr 1
          omega
        calc n < 2 ^ bitLen n := n2
          _ = 2 ^ (bitLen den - 1) * 2 ^ (bitLen n - bitLen den + 1) := h1
          _ ≤ den * 2 ^ (bitLen n - bitLen den + 1) := Nat.mul_le_mul_right _ d1
      · rw [if_neg hc]
        by_cases heq : bitLen n = bitLen den
        · rw [heq] at hc ⊢
          simp only [Nat.sub_self, pow_zero, Nat.mul_one, not_le] at hc
          simp only [Nat.sub_self, Nat.zero_sub, zero_add, pow_one]
          exact ⟨by omega, Or.inl rfl⟩
        · have hlt : bitLen den < bitLen n := by omega
          have e : bitLen n - bitLen den - 1 + 1 = bitLen n - bitLen den := by omega
          refine ⟨by rw [e]; omega, Or.inr ?_⟩
          have h1 : 2 ^ (bitLen n - 1) = 2 ^ bitLen den * 2 ^ (bitLen n - bitLen den - 1) := by
            rw [← pow_add]
            congr 1
            omega
          calc den * 2 ^ (bitLen n - bitLen den - 1)
              ≤ 2 ^ bitLen den * 2 ^ (bitLen n - bitLen den - 1) :=
                Nat.mul_le_mul_right _ (le_of_lt d2)
            _ = 2 ^ (bitLen n - 1) := h1.symm
            _ ≤ n := n1
    · have hlt : bitLen n < bitLen den := by omega
      have e : bitLen n - bitLen den = 0 := by omega
      rw [e]
      simp only [pow_zero, Nat.mul_one, Nat.zero_sub, ite_self, zero_add, pow_one]
      have h1 : 2 ^ bitLen n ≤ 2 ^ (bitLen den - 1) := hp _ _ (by omega)
      exact ⟨by omega, Or.inl rfl⟩

/-- The result of `roundBinary` from the binary exponent of the quotient. -/
theorem roundBinary_eq (num den f : Nat) (hden : 0 < den)
    (hf : IsBinExp f (num * 2 ^ expBias) den) :
    roundBinary num den =
      if roundHalfEven (num * 2 ^ expBias) (den * 2 ^ (f - 52)) = 2 ^ 53 then (2 ^ 52, f - 52 + 1)
      else (roundHalfEven (num * 2 ^ expBias) (den * 2 ^ (f - 52)), f - 52) := by
  have h := isBinExp_unique _ _ _ _ (isBinExp_choice (num * 2 ^ expBias) den hden) hf
  unfold roundBinary
  simp only
  rw [h]

theorem isBinExp_scale (f n1 den1 n2 den2 : Nat) (h1 : 0 < den1) (h2 : 0 < den2)
    (h : n1 * den2 = n2 * den1) (hf : IsBinExp f n1 den1) : IsBinExp f n2 den2 := by
  obtain ⟨a, b⟩ := hf
  constructor
  · have : n1 * den2 < den1 * 2 ^ (f + 1) * den2 := Nat.mul_lt_mul_of_pos_right a h2
    rw [h] at this
    have e : den1 * 2 ^ (f + 1) * den2 = den2 * 2 ^ (f + 1) * den1 := by ring
    rw [e] at this
    exact Nat.lt_of_mul_lt_mul_right this
  · rcases b with b | b
    · exact Or.inl b
    · right
      have : den1 * 2 ^ f * den2 ≤ n1 * den2 := Nat.mul_le_mul_right _ b
      rw [h] at this
      have e : den1 * 2 ^ f * den2 = den2 * 2 ^ f * den1 := by ring
      rw [e] at this
      exact Nat.le_of_mul_le_mul_right this h1

/-- `roundBinary` depends on the quotient only. -/
theorem roundBinary_congr (num1 den1 num2 den2 : Nat) (h1 : 0 < den1) (h2 : 0 < den2)
    (h : num1 * den2 = num2 * den1) : roundBinary num1 den1 = roundBinary num2 den2 := by
  have hf := isBinExp_choice (num1 * 2 ^ expBias) den1 h1
  generalize (if den1 * 2 ^ (bitLen (num1 * 2 ^ expBias) - bitLen den1) ≤ num1 * 2 ^ expBias
    then bitLen (num1 * 2 ^ expBias) - bitLen den1
    else bitLen (num1 * 2 ^ expBias) - bitLen den1 - 1) = f at hf
  have hn : num1 * 2 ^ expBias * den2 = num2 * 2 ^ expBias * den1 := by
    calc num1 * 2 ^ expBias * den2 = num1 * den2 * 2 ^ expBias := by ring
      _ = num2 * den1 * 2 ^ expBias := by rw [h]
      _ = num2 * 2 ^ expBias * den1 := by ring
  have hf2 := isBinExp_scale f _ _ _ _ h1 h2 hn hf
  rw [roundBinary_eq num1 den1 f h1 hf, roundBinary_eq num2 den2 f h2 hf2]
  have hr : roundHalfEven (num1 * 2 ^ expBias) (den1 * 2 ^ (f - 52)) =
      roundHalfEven (num2 * 2 ^ expBias) (den2 * 2 ^ (f - 52)) := by
    rw [← roundHalfEven_scale (num1 * 2 ^ expBias) _ den2 h2,
      ← roundHalfEven_scale (num2 * 2 ^ expBias) _ den1 h1, hn]
    congr 1
    ring
  rw [hr]

/-- What `roundBinary` returns: the mantissa is below `2 ^ 53`, is at least
`2 ^ 52` when the exponent is positive, and the value is within half a unit
in the last place of the quotient. -/
theorem roundBinary_spec (num den : Nat) (hden : 0 < den) :
    (roundBinary num den).1 < 2 ^ 53 ∧
      (0 < (roundBinary num den).2 → 2 ^ 52 ≤ (roundBinary num den).1) ∧
      2 * (num * 2 ^ expBias) ≤
        2 * ((roundBinary num den).1 * 2 ^ (roundBinary num den).2 * den) +
          2 ^ (roundBinary num den).2 * den ∧
      2 * ((roundBinary num den).1 * 2 ^ (roundBinary num den).2 * den) ≤
        2 * (num * 2 ^ expBias) + 2 ^ (roundBinary num den).2 * den := by
  have hf := isBinExp_choice (num * 2 ^ expBias) den hden
  generalize (if den * 2 ^ (bitLen (num * 2 ^ expBias) - bitLen den) ≤ num * 2 ^ expBias
    then bitLen (num * 2 ^ expBias) - bitLen den
    else bitLen (num * 2 ^ expBias) - bitLen den - 1) = f at hf
  rw [roundBinary_eq num den f hden hf]
  obtain ⟨hf1, hf2⟩ := hf
  generalize hn : num * 2 ^ expBias = n at hf1 hf2 ⊢
  have hD : 0 < den * 2 ^ (f - 52) := Nat.mul_pos hden (Nat.pow_pos (by decide))
  obtain ⟨r1, r2⟩ := roundHalfEven_near n (den * 2 ^ (f - 52)) hD
  have hle : roundHalfEven n (den * 2 ^ (f - 52)) ≤ 2 ^ 53 := by
    apply roundHalfEven_le _ _ _ hD
    have : den * 2 ^ (f + 1) ≤ 2 ^ 53 * (den * 2 ^ (f - 52)) := by
      have e : 2 ^ 53 * (den * 2 ^ (f - 52)) = den * 2 ^ (53 + (f - 52)) := by
        rw [pow_add]; ring
      rw [e]
      exact Nat.mul_le_mul_left _ (Nat.pow_le_pow_right (by decide) (by omega))
    omega
  generalize hm : roundHalfEven n (den * 2 ^ (f - 52)) = m at r1 r2 hle ⊢
  by_cases h53 : m = 2 ^ 53
  · rw [if_pos h53]
    simp only
    refine ⟨by norm_num, fun _ => le_refl _, ?_, ?_⟩
    · subst h53
      have e : 2 ^ 52 * 2 ^ (f - 52 + 1) * den = 2 ^ 53 * (den * 2 ^ (f - 52)) := by
        rw [pow_succ]; ring
      rw [e]
      have e2 : 2 ^ (f - 52 + 1) * den = 2 * (den * 2 ^ (f - 52)) := by
        rw [pow_succ]; ring
      rw [e2]
      omega
    · subst h53
      have e : 2 ^ 52 * 2 ^ (f - 52 + 1) * den = 2 ^ 53 * (den * 2 ^ (f - 52)) := by
        rw [pow_succ]; ring
      rw [e]
      have e2 : 2 ^ (f - 52 + 1) * den = 2 * (den * 2 ^ (f - 52)) := by
        rw [pow_succ]; ring
      rw [e2]
      omega
  · rw [if_neg h53]
    simp only
    have e : m * 2 ^ (f - 52) * den = m * (den * 2 ^ (f - 52)) := by ring
    have e2 : 2 ^ (f - 52) * den = den * 2 ^ (f - 52) := by ring
    rw [e, e2]
    refine ⟨by omega, ?_, r1, r2⟩
    intro hpos
    rw [← hm]
    apply roundHalfEven_ge _ _ _ hD
    rcases hf2 with h | h
    · omega
    · have e3 : 2 ^ 52 * (den * 2 ^ (f - 52)) = den * 2 ^ f := by
        have : f = 52 + (f - 52) := by omega
        conv_rhs => rw [this, pow_add]
        ring
      rw [e3]
      exact h

/-! ## Numbers out of the range of `float64` -/

/-- At or above the midpoint below an even `K`, the quotient rounds to at
least `K`. -/
theorem roundHalfEven_ge_half (n d K : Nat) (hd : 0 < d) (hK : K % 2 = 0) (hK1 : 1 ≤ K)
    (h : (2 * K - 1) * d ≤ 2 * n) : K ≤ roundHalfEven n d := by
  have h1 := Nat.div_add_mod n d
  have h2 := Nat.mod_lt n hd
  by_cases hq : K ≤ n / d
  · rcases roundHalfEven_cases n d with e | e <;> omega
  · have hq' : n / d + 1 ≤ K := by omega
    have hmul : (n / d + 1) * d ≤ K * d := Nat.mul_le_mul_right d hq'
    have e1 : (2 * K - 1) * d = 2 * (K * d) - d := by
      rw [Nat.sub_mul, Nat.one_mul, Nat.mul_assoc]
    have e2 : (n / d + 1) * d = d * (n / d) + d := by ring
    have hKd : d ≤ 2 * (K * d) := by
      have : 1 * d ≤ K * d := Nat.mul_le_mul_right d hK1
      omega
    -- the quotient is `K - 1` and the remainder at least half
    have hqK : n / d + 1 = K := by
      by_contra hne
      have hq2 : n / d + 2 ≤ K := by omega
      have hmul2 : (n / d + 2) * d ≤ K * d := Nat.mul_le_mul_right d hq2
      have e3 : (n / d + 2) * d = d * (n / d) + 2 * d := by ring
      omega
    have hr : d ≤ 2 * (n % d) := by
      rw [← hqK] at e1 h
      have e4 : 2 * ((n / d + 1) * d) = 2 * (d * (n / d)) + 2 * d := by ring
      omega
    unfold roundHalfEven
    simp only
    rw [if_neg (by omega)]
    split_ifs with h3 h4
    · omega
    · omega
    · omega

theorem pow_split_1024 : (2 : Nat) ^ 1024 - 2 ^ 970 = (2 ^ 54 - 1) * 2 ^ 970 := by
  rw [Nat.sub_mul, ← pow_add, Nat.one_mul]

set_option exponentiation.threshold 3000 in
theorem exp_of_overflow (num den f : Nat)
    (hf : IsBinExp f (num * 2 ^ expBias) den) (hlarge : (2 ^ 1024 - 2 ^ 970) * den ≤ num) :
    2097 ≤ f := by
  by_contra hc
  obtain ⟨hf1, _⟩ := hf
  have hlt : f + 1 ≤ 2097 := Nat.succ_le_of_lt (Nat.lt_of_not_le hc)
  have h1 : den * 2 ^ (f + 1) ≤ den * 2 ^ 2097 :=
    Nat.mul_le_mul_left _ (Nat.pow_le_pow_right Nat.two_pos hlt)
  have hB : expBias = 1074 := expBias_eq
  rw [hB] at hf1
  have h2 : num * 2 ^ 1074 < den * 2 ^ 2097 := lt_of_lt_of_le hf1 h1
  have h3 : (2 ^ 1024 - 2 ^ 970) * den * 2 ^ 1074 ≤ num * 2 ^ 1074 :=
    Nat.mul_le_mul_right _ hlarge
  have h4 : den * 2 ^ 2097 ≤ (2 ^ 1024 - 2 ^ 970) * den * 2 ^ 1074 := by
    rw [pow_split_1024]
    have e : (2 ^ 54 - 1) * 2 ^ 970 * den * 2 ^ 1074 = den * ((2 ^ 54 - 1) * 2 ^ 2044) := by
      have : (2 : Nat) ^ 2044 = 2 ^ 970 * 2 ^ 1074 := by rw [← pow_add]
      rw [this]
      ring
    rw [e]
    apply Nat.mul_le_mul_left
    have : (2 : Nat) ^ 2097 = 2 ^ 53 * 2 ^ 2044 := by rw [← pow_add]
    rw [this]
    exact Nat.mul_le_mul_right _ (by norm_num)
  omega

set_option exponentiation.threshold 3000 in
/-- `roundBinary` reports a value too large for a finite `float64` exactly
when the quotient is at least `2 ^ 1024 - 2 ^ 970`. -/
theorem roundBinary_overflow_iff (num den : Nat) (hden : 0 < den) :
    2045 < (roundBinary num den).2 ↔ (2 ^ 1024 - 2 ^ 970) * den ≤ num := by
  have hf := isBinExp_choice (num * 2 ^ expBias) den hden
  generalize (if den * 2 ^ (bitLen (num * 2 ^ expBias) - bitLen den) ≤ num * 2 ^ expBias
    then bitLen (num * 2 ^ expBias) - bitLen den
    else bitLen (num * 2 ^ expBias) - bitLen den - 1) = f at hf
  have hB : expBias = 1074 := expBias_eq
  have hD : 0 < den * 2 ^ (f - 52) := Nat.mul_pos hden (Nat.pow_pos (by decide))
  have hspec := roundBinary_spec num den hden
  rw [roundBinary_eq num den f hden hf] at hspec ⊢
  constructor
  · intro h
    by_cases h53 : roundHalfEven (num * 2 ^ expBias) (den * 2 ^ (f - 52)) = 2 ^ 53
    · rw [if_pos h53] at h
      simp only at h
      -- the quotient rounds up to `2 ^ 53` at the exponent 2045 or above
      obtain ⟨_, r1⟩ := roundHalfEven_near (num * 2 ^ expBias) (den * 2 ^ (f - 52)) hD
      rw [h53, hB] at r1
      have hs : 2045 ≤ f - 52 := Nat.le_of_lt_succ h
      rw [pow_split_1024]
      -- 2 ^ 54 * D ≤ 2 * num * 2 ^ 1074 + D, with D ≥ den * 2 ^ 2045
      have h1 : (2 ^ 54 - 1) * (den * 2 ^ (f - 52)) ≤ 2 * (num * 2 ^ 1074) := by
        have e : 2 * (2 ^ 53 * (den * 2 ^ (f - 52))) = 2 ^ 54 * (den * 2 ^ (f - 52)) := by
          rw [← Nat.mul_assoc]
          rfl
        rw [e] at r1
        have e2 : (2 ^ 54 - 1) * (den * 2 ^ (f - 52)) =
            2 ^ 54 * (den * 2 ^ (f - 52)) - den * 2 ^ (f - 52) := by
          rw [Nat.sub_mul, Nat.one_mul]
        rw [e2]
        clear hspec hf hD h53 h e e2 hs hB
        generalize den * 2 ^ (f - 52) = X at r1 ⊢
        generalize num * 2 ^ 1074 = Y at r1 ⊢
        omega
      have hp : den * 2 ^ 2045 ≤ den * 2 ^ (f - 52) :=
        Nat.mul_le_mul_left _ (Nat.pow_le_pow_right Nat.two_pos hs)
      have h2 : (2 ^ 54 - 1) * (den * 2 ^ 2045) ≤ 2 * (num * 2 ^ 1074) :=
        le_trans (Nat.mul_le_mul_left _ hp) h1
      have e3 : (2 ^ 54 - 1) * (den * 2 ^ 2045) = (2 ^ 54 - 1) * 2 ^ 970 * den * 2 ^ 1075 := by
        have : (2 : Nat) ^ 2045 = 2 ^ 970 * 2 ^ 1075 := by rw [← pow_add]
        rw [this]
        ring
      have e4 : 2 * (num * 2 ^ 1074) = num * 2 ^ 1075 := by
        rw [pow_succ]
        ring
      rw [e3, e4] at h2
      exact Nat.le_of_mul_le_mul_right h2 (Nat.pow_pos (by decide))
    · rw [if_neg h53] at h
      simp only at h
      obtain ⟨_, hf2⟩ := hf
      have hf0 : f ≠ 0 := by omega
      rcases hf2 with hf2 | hf2
      · exact absurd hf2 hf0
      · rw [hB] at hf2
        have hp : den * 2 ^ 2098 ≤ den * 2 ^ f :=
          Nat.mul_le_mul_left _ (Nat.pow_le_pow_right (by decide) (by omega))
        have h1 : den * 2 ^ 2098 ≤ num * 2 ^ 1074 := le_trans hp hf2
        have e : den * 2 ^ 2098 = 2 ^ 1024 * den * 2 ^ 1074 := by
          have : (2 : Nat) ^ 2098 = 2 ^ 1024 * 2 ^ 1074 := by rw [← pow_add]
          rw [this]
          ring
        rw [e] at h1
        have h2 := Nat.le_of_mul_le_mul_right h1 (Nat.pow_pos (by decide))
        exact le_trans (Nat.mul_le_mul_right _ (Nat.sub_le _ _)) h2
  · intro hlarge
    have hf97 := exp_of_overflow num den f hf hlarge
    by_cases h53 : roundHalfEven (num * 2 ^ expBias) (den * 2 ^ (f - 52)) = 2 ^ 53
    · rw [if_pos h53]
      show 2045 < f - 52 + 1
      omega
    · rw [if_neg h53]
      show 2045 < f - 52
      by_contra hc
      have hfe : f = 2097 := by omega
      subst hfe
      apply h53
      rw [if_neg h53] at hspec
      simp only at hspec
      have hlt := hspec.1
      have hge : 2 ^ 53 ≤ roundHalfEven (num * 2 ^ expBias) (den * 2 ^ (2097 - 52)) := by
        apply roundHalfEven_ge_half _ _ _ hD (by norm_num) (by norm_num)
        rw [hB]
        have h3 : (2 ^ 1024 - 2 ^ 970) * den * 2 ^ 1075 ≤ num * 2 ^ 1075 :=
          Nat.mul_le_mul_right _ hlarge
        rw [pow_split_1024] at h3
        have e3 : (2 * 2 ^ 53 - 1) * (den * 2 ^ (2097 - 52)) =
            (2 ^ 54 - 1) * 2 ^ 970 * den * 2 ^ 1075 := by
          have h1 : (2097 : Nat) - 52 = 2045 := rfl
          have h2 : (2 : Nat) ^ 2045 = 2 ^ 970 * 2 ^ 1075 := by rw [← pow_add]
          have h4 : (2 : Nat) * 2 ^ 53 = 2 ^ 54 := rfl
          rw [h1, h2, h4]
          ring
        have e4 : 2 * (num * 2 ^ 1074) = num * 2 ^ 1075 := by
          rw [pow_succ]
          ring
        rw [e3, e4]
        exact h3
      omega

/-- `strconv.ParseFloat` reports a range error exactly for the numbers that
are too large. -/
theorem ParseFloat_none_iff (n : NumLit) : ParseFloat n = none ↔ n.tooLarge = true := by
  have hpos : 0 < n.readFraction.2 := by
    unfold NumLit.readFraction
    simp only
    split_ifs <;> simp
  unfold NumLit.tooLarge ParseFloat
  simp only [decide_eq_true_eq]
  rw [float64Limit_eq, ← roundBinary_overflow_iff _ _ hpos]
  split_ifs with h
  · simp [h]
  · simp [h]

/-! ## The shape of a request envelope -/

theorem findField_eq (k : String) :
    findField k =
      if keyIs "method" k then some .method
      else if keyIs "params" k then some .params
      else if keyIs "id" k then some .id
      else none := by
  have hm : foldName "method" = "METHOD" := by decide
  have hp : foldName "params" = "PARAMS" := by decide
  have hi : foldName "id" = "ID" := by decide
  unfold findField keyIs
  rw [hm, hp, hi]
  by_cases h1 : k = "method"
  · subst h1; rfl
  · by_cases h2 : k = "params"
    · subst h2; rfl
    · by_cases h3 : k = "id"
      · subst h3; rfl
      · simp only [h1, h2, h3, if_false, beq_iff_eq]

mutual
theorem valueInterface_isSome : ∀ j : Json, (valueInterface j).isSome = j.inRange
  | .null => rfl
  | .bool _ => rfl
  | .num n => by
    unfold valueInterface Json.inRange convertNumber
    cases h : ParseFloat n with
    | none => simp [(ParseFloat_none_iff n).mp h]
    | some f =>
      have : n.tooLarge = false := by
        cases ht : n.tooLarge with
        | false => rfl
        | true =>
          rw [(ParseFloat_none_iff n).mpr ht] at h
          exact Option.noConfusion h
      simp [this]
  | .str _ => rfl
  | .arr elems => by
    unfold valueInterface Json.inRange
    rw [← arrayInterface_isSome elems]
    cases arrayInterface elems <;> rfl
  | .obj members => by
    unfold valueInterface Json.inRange
    rw [← objectInterface_isSome [] members]
    cases objectInterface [] members <;> rfl
theorem arrayInterface_isSome : ∀ js : List Json, (arrayInterface js).isSome = Json.allInRange js
  | [] => rfl
  | j :: js => by
    unfold arrayInterface Json.allInRange
    rw [← valueInterface_isSome j, ← arrayInterface_isSome js]
    cases valueInterface j <;> cases arrayInterface js <;> rfl
theorem objectInterface_isSome : ∀ (m : List (String × GoVal)) (ms : List (String × Json)),
    (objectInterface m ms).isSome = Json.membersInRange ms
  | _, [] => rfl
  | m, (k, j) :: rest => by
    unfold objectInterface Json.membersInRange
    rw [← valueInterface_isSome j]
    cases h : valueInterface j with
    | none => rfl
    | some v =>
      simp only [Option.isSome_some, Bool.true_and]
      exact objectInterface_isSome (mapSet k v m) rest
end

theorem storeField_none_iff (req : Request) (k : String) (v : Json) (f : Field)
    (hf : findField k = some f) : storeField req f v = none ↔ badMember (k, v) = true := by
  rw [findField_eq] at hf
  unfold badMember
  simp only
  cases h1 : keyIs "method" k with
  | true =>
    simp only [h1, if_true, Option.some.injEq] at hf ⊢
    subst hf
    cases v <;> simp [storeField]
  | false =>
    cases h2 : keyIs "params" k with
    | true =>
      simp only [h1, h2, if_true, Bool.false_eq_true, if_false, Option.some.injEq] at hf ⊢
      subst hf
      cases v with
      | arr elems =>
        simp only [storeField]
        rw [← arrayInterface_isSome]
        cases arrayInterface elems <;> simp
      | null => simp [storeField]
      | bool b => simp [storeField]
      | num n => simp [storeField]
      | str s => simp [storeField]
      | obj m => simp [storeField]
    | false =>
      cases h3 : keyIs "id" k with
      | true =>
        simp only [h1, h2, h3, if_true, Bool.false_eq_true, if_false, Option.some.injEq] at hf ⊢
        subst hf
        simp only [storeField]
        rw [← valueInterface_isSome]
        cases valueInterface v <;> simp
      | false => simp [h1, h2, h3] at hf

theorem findField_none_not_bad (k : String) (v : Json) (hf : findField k = none) :
    badMember (k, v) = false := by
  rw [findField_eq] at hf
  unfold badMember
  simp only
  cases h1 : keyIs "method" k with
  | true => simp [h1] at hf
  | false =>
    cases h2 : keyIs "params" k with
    | true => simp [h1, h2] at hf
    | false =>
      cases h3 : keyIs "id" k with
      | true => simp [h1, h2, h3] at hf
      | false => simp

theorem decodeMembers_none_iff : ∀ (ms : List (String × Json)) (req : Request),
    decodeMembers req ms = none ↔ ms.any badMember = true := by
  intro ms
  induction ms with
  | nil => intro req; simp [decodeMembers]
  | cons p rest ih =>
    intro req
    obtain ⟨k, v⟩ := p
    simp only [decodeMembers, List.any_cons, Bool.or_eq_true]
    cases hf : findField k with
    | none =>
      simp only
      rw [ih, findField_none_not_bad k v hf]
      simp
    | some f =>
      simp only
      have hs := storeField_none_iff req k v f hf
      cases hst : storeField req f v with
      | none =>
        simp only [true_iff]
        exact Or.inl (hs.mp hst)
      | some req2 =>
        simp only
        rw [ih]
        have : ¬ badMember (k, v) = true := fun hb => by
          rw [hs.mpr hb] at hst
          exact Option.noConfusion hst
        simp [this]

/-- What `json.Unmarshal` refuses to store in a `Request` is what the
envelope shape excludes. -/
theorem decodeRequest_none_iff (j : Json) : decodeRequest j = none ↔ refused j = true := by
  cases j with
  | null => simp [decodeRequest, refused]
  | obj ms => simp only [decodeRequest, refused]; exact decodeMembers_none_iff ms _
  | bool b => simp [decodeRequest, refused]
  | num n => simp [decodeRequest, refused]
  | str s => simp [decodeRequest, refused]
  | arr l => simp [decodeRequest, refused]

theorem storeField_Method (req req2 : Request) (k : String) (v : Json) (f : Field)
    (hf : findField k = some f) (h : storeField req f v = some req2)
    (hl : (!(keyIs "method" k && v.isString)) = true) : req2.Method = req.Method := by
  rw [findField_eq] at hf
  cases h1 : keyIs "method" k with
  | true =>
    simp only [h1, if_true, Option.some.injEq] at hf
    subst hf
    cases v <;> simp [storeField, h1, Json.isString] at h hl ⊢
    subst h
    rfl
  | false =>
    cases h2 : keyIs "params" k with
    | true =>
      simp only [h1, h2, if_true, Bool.false_eq_true, if_false, Option.some.injEq] at hf
      subst hf
      cases v with
      | arr elems =>
        simp only [storeField] at h
        cases ha : arrayInterface elems with
        | none => simp [ha] at h
        | some vs =>
          simp [ha] at h
          subst h
          rfl
      | null => simp [storeField] at h; subst h; rfl
      | bool b => simp [storeField] at h
      | num n => simp [storeField] at h
      | str s => simp [storeField] at h
      | obj m => simp [storeField] at h
    | false =>
      cases h3 : keyIs "id" k with
      | true =>
        simp only [h1, h2, h3, if_true, Bool.false_eq_true, if_false, Option.some.injEq] at hf
        subst hf
        simp only [storeField] at h
        cases hv : valueInterface v with
        | none => simp [hv] at h
        | some g =>
          simp [hv] at h
          subst h
          rfl
      | false => simp [h1, h2, h3] at hf

theorem decodeMembers_Method : ∀ (ms : List (String × Json)) (req req2 : Request),
    decodeMembers req ms = some req2 → lacksMethod (.obj ms) = true → req2.Method = req.Method := by
  intro ms
  induction ms with
  | nil =>
    intro req req2 h _
    simp only [decodeMembers, Option.some.injEq] at h
    subst h
    rfl
  | cons p rest ih =>
    intro req req2 h hl
    obtain ⟨k, v⟩ := p
    simp only [lacksMethod, List.all_cons, Bool.and_eq_true] at hl
    simp only [decodeMembers] at h
    cases hf : findField k with
    | none =>
      simp only [hf] at h
      exact ih req req2 h hl.2
    | some f =>
      simp only [hf] at h
      cases hs : storeField req f v with
      | none => simp [hs] at h
      | some req1 =>
        simp only [hs] at h
        rw [ih req1 req2 h hl.2]
        exact storeField_Method req req1 k v f hf hs hl.1

/-- A request without a usable method decodes with the empty method. -/
theorem decodeRequest_Method (j : Json) (req : Request) (h : decodeRequest j = some req)
    (hl : lacksMethod j = true) : req.Method = "" := by
  cases j with
  | null =>
    simp only [decodeRequest, Option.some.injEq] at h
    subst h
    rfl
  | obj ms => exact decodeMembers_Method ms Request.zero req h hl
  | bool b => simp [decodeRequest] at h
  | num n => simp [decodeRequest] at h
  | str s => simp [decodeRequest] at h
  | arr l => simp [decodeRequest] at h

/-! ## A request too long for the scanner -/

theorem escapeChars_replicate (n : Nat) :
    escapeChars (List.replicate n 'x') = List.replicate n 'x' := by
  induction n with
  | zero => rfl
  | succ k ih =>
    rw [List.replicate_succ, escapeChars, ih]
    rfl

theorem trimSpaceChars_of_ends (c d : Char) (mid : List Char) (hc : isSpace c = false)
    (hd : isSpace d = false) : trimSpaceChars (c :: (mid ++ [d])) = c :: (mid ++ [d]) := by
  unfold trimSpaceChars
  rw [List.dropWhile_cons_of_neg (by simp [hc])]
  have : (c :: (mid ++ [d])).reverse = d :: (c :: mid).reverse := by simp
  rw [this, List.dropWhile_cons_of_neg (by simp [hd])]
  simp

theorem lex_paramsLine (s : String) :
    lexFrom .start ('\x7b' :: (quote "method" ++ ':' :: (quote "InsertDate" ++ ',' ::
      (quote "id" ++ ':' :: (quote "a" ++ ',' :: (quote "params" ++ ':' :: '[' ::
        (quote s ++ [']', '\x7d']))))))) =
      some [.lbrace, .str "method", .colon, .str "InsertDate", .comma, .str "id", .colon,
        .str "a", .comma, .str "params", .colon, .lbrack, .str s, .rbrack, .rbrace] := by
  have h1 : step .start '\x7b' = some ([.lbrace], .start) := rfl
  have h2 : step .start ':' = some ([.colon], .start) := rfl
  have h3 : step .start ',' = some ([.comma], .start) := rfl
  have h4 : step .start '[' = some ([.lbrack], .start) := rfl
  rw [lexFrom_emit _ h1, lex_quote_map, lexFrom_emit _ h2, lex_quote_map, lexFrom_emit _ h3,
    lex_quote_map, lexFrom_emit _ h2, lex_quote_map, lexFrom_emit _ h3, lex_quote_map,
    lexFrom_emit _ h2, lexFrom_emit _ h4, lex_quote_map]
  rfl

theorem paramsLine_data (xs : List Char) (h : escapeChars xs = xs) :
    (paramsLine xs).data = '\x7b' :: (quote "method" ++ ':' :: (quote "InsertDate" ++ ',' ::
      (quote "id" ++ ':' :: (quote "a" ++ ',' :: (quote "params" ++ ':' :: '[' ::
        (quote (String.mk xs) ++ [']', '\x7d'])))))) := by
  have e1 : escapeChars "method".data = "method".data := by decide
  have e2 : escapeChars "InsertDate".data = "InsertDate".data := by decide
  have e3 : escapeChars "id".data = "id".data := by decide
  have e4 : escapeChars "a".data = "a".data := by decide
  have e5 : escapeChars "params".data = "params".data := by decide
  unfold paramsLine quote
  simp only [h, e1, e2, e3, e4, e5]
  simp

theorem TrimSpace_paramsLine (xs : List Char) : TrimSpace (paramsLine xs) = paramsLine xs := by
  unfold TrimSpace
  have h : (paramsLine xs).data = '\x7b' ::
      (("\"method\":\"InsertDate\",\"id\":\"a\",\"params\":[\"".data ++ (xs ++ "\"]".data)) ++
        ['\x7d']) := by
    unfold paramsLine
    simp
  rw [h, trimSpaceChars_of_ends _ _ _ (by decide) (by decide), ← h]

theorem decode_paramsLine (s : String) :
    (match parseTokens ⟨.value, []⟩
        [.lbrace, .str "method", .colon, .str "InsertDate", .comma, .str "id", .colon,
          .str "a", .comma, .str "params", .colon, .lbrack, .str s, .rbrack, .rbrace] with
      | none => none
      | some j => decodeRequest j) =
      some ⟨"InsertDate", some [.string s], .string "a"⟩ := rfl

theorem Unmarshal_paramsLine (xs : List Char) (h : escapeChars xs = xs) :
    Unmarshal (TrimSpace (paramsLine xs)) =
      some ⟨"InsertDate", some [.string (String.mk xs)], .string "a"⟩ := by
  rw [TrimSpace_paramsLine]
  unfold Unmarshal parseJson
  rw [paramsLine_data xs h, lex_paramsLine]
  exact decode_paramsLine _

theorem fitsBuffer_paramsLine (n : Nat) (h : 65536 ≤ n) :
    fitsBuffer (paramsLine (List.replicate n 'x')) = false := by
  unfold fitsBuffer paramsLine
  rw [String.utf8ByteSize_mk, String.utf8Len_append, String.utf8Len_append, utf8Len_replicate]
  have : MaxScanTokenSize = 65536 := rfl
  have hx : Char.utf8Size 'x' = 1 := by decide
  rw [this, hx]
  simp only [decide_eq_false_iff_not, not_lt]
  omega

/-! ## Values as rational numbers -/

theorem scaleDec_pos (a b : Nat) (k : Int) (hb : 0 < b) : 0 < (scaleDec a b k).2 := by
  unfold scaleDec
  split
  · exact hb
  · exact Nat.mul_pos hb (Nat.pow_pos (by decide))

theorem scaleDec_val (a b : Nat) (k : Int) (hb : 0 < b) :
    ((scaleDec a b k).1 : ℚ) / (scaleDec a b k).2 = (a : ℚ) / b * 10 ^ k := by
  have hb' : (b : ℚ) ≠ 0 := by exact_mod_cast hb.ne'
  unfold scaleDec
  split
  · next h =>
    obtain ⟨t, rfl⟩ := Int.eq_ofNat_of_zero_le h
    simp only [Int.toNat_ofNat, Nat.cast_mul, Nat.cast_pow, Nat.cast_ofNat, zpow_natCast]
    field_simp
  · next h =>
    have hk : k = -((-k).toNat : Int) := by omega
    generalize (-k).toNat = t at hk
    subst hk
    simp only [Nat.cast_mul, Nat.cast_pow, Nat.cast_ofNat, zpow_neg, zpow_natCast]
    field_simp

/-- The value returned by `roundBinary` is within half a unit in the last
place of the quotient. -/
theorem roundBinary_near (num den : Nat) (hden : 0 < den) :
    |(num : ℚ) / den * 2 ^ expBias - (roundBinary num den).1 * 2 ^ (roundBinary num den).2| ≤
      2 ^ (roundBinary num den).2 / 2 := by
  obtain ⟨_, _, h1, h2⟩ := roundBinary_spec num den hden
  generalize (roundBinary num den).1 = m at h1 h2 ⊢
  generalize (roundBinary num den).2 = s at h1 h2 ⊢
  have hd : (0 : ℚ) < den := by exact_mod_cast hden
  have q1 : 2 * ((num : ℚ) * 2 ^ expBias) ≤ 2 * (m * 2 ^ s * den) + 2 ^ s * den := by
    exact_mod_cast h1
  have q2 : 2 * ((m : ℚ) * 2 ^ s * den) ≤ 2 * (num * 2 ^ expBias) + 2 ^ s * den := by
    exact_mod_cast h2
  have hX : (num : ℚ) / den * 2 ^ expBias * den = num * 2 ^ expBias := by
    field_simp
  rw [abs_le]
  constructor
  · have : (-(2 ^ s / 2) : ℚ) * den ≤ ((num : ℚ) / den * 2 ^ expBias - m * 2 ^ s) * den := by
      rw [sub_mul, hX]
      linarith
    exact le_of_mul_le_mul_right this hd
  · have : ((num : ℚ) / den * 2 ^ expBias - m * 2 ^ s) * den ≤ (2 ^ s / 2 : ℚ) * den := by
      rw [sub_mul, hX]
      linarith
    exact le_of_mul_le_mul_right this hd

theorem leadingZerosAux_spec (den : Nat) : ∀ (fuel num j0 t : Nat), t ≤ fuel →
    den ≤ num * 10 ^ t →
    j0 ≤ leadingZerosAux fuel num den j0 ∧
      den ≤ num * 10 ^ (leadingZerosAux fuel num den j0 - j0) ∧
      ∀ u, u < leadingZerosAux fuel num den j0 - j0 → num * 10 ^ u < den := by
  intro fuel
  induction fuel with
  | zero =>
    intro num j0 t ht h
    have : t = 0 := by omega
    subst this
    simp only [leadingZerosAux, le_refl, Nat.sub_self, true_and]
    exact ⟨h, fun u hu => absurd hu (Nat.not_lt_zero u)⟩
  | succ fuel ih =>
    intro num j0 t ht h
    unfold leadingZerosAux
    by_cases hc : den ≤ num
    · rw [if_pos hc]
      simp only [le_refl, Nat.sub_self, pow_zero, Nat.mul_one, true_and]
      exact ⟨hc, fun u hu => absurd hu (Nat.not_lt_zero u)⟩
    · rw [if_neg hc]
      have ht0 : t ≠ 0 := by
        intro h0
        subst h0
        simp at h
        exact hc h
      obtain ⟨a, b, c⟩ := ih (num * 10) (j0 + 1) (t - 1) (by omega) (by
        have e : num * 10 * 10 ^ (t - 1) = num * 10 ^ t := by
          have : t = (t - 1) + 1 := by omega
          conv_rhs => rw [this, pow_succ]
          ring
        rw [e]
        exact h)
      generalize leadingZerosAux fuel (num * 10) den (j0 + 1) = j at a b c ⊢
      refine ⟨by omega, ?_, ?_⟩
      · have e : j - j0 = (j - (j0 + 1)) + 1 := by omega
        rw [e, pow_succ]
        have e2 : num * (10 ^ (j - (j0 + 1)) * 10) = num * 10 * 10 ^ (j - (j0 + 1)) := by ring
        rw [e2]
        exact b
      · intro u hu
        by_cases hu0 : u = 0
        · subst hu0
          simp only [pow_zero, Nat.mul_one]
          omega
        · have := c (u - 1) (by omega)
          have e : num * 10 * 10 ^ (u - 1) = num * 10 ^ u := by
            have : u = (u - 1) + 1 := by omega
            conv_rhs => rw [this, pow_succ]
            ring
          rw [e] at this
          exact this

theorem lt_ten_pow (n : Nat) : n < 10 ^ n := by
  induction n with
  | zero => simp
  | succ k ih =>
    rw [pow_succ]
    omega

/-- The decimal point of a positive quotient: `10 ^ (dp - 1) ≤ num / den <
10 ^ dp`. -/
theorem decimalPoint_spec (num den : Nat) (hnum : 0 < num) (hden : 0 < den) :
    (10 : ℚ) ^ (decimalPoint num den - 1) ≤ (num : ℚ) / den ∧
      (num : ℚ) / den < 10 ^ decimalPoint num den := by
  have hd : (0 : ℚ) < den := by exact_mod_cast hden
  unfold decimalPoint
  by_cases hc : den ≤ num
  · rw [if_pos hc]
    have hq : num / den ≠ 0 := by
      have := (Nat.le_div_iff_mul_le hden).mpr (by simpa using hc : 1 * den ≤ num)
      omega
    obtain ⟨a, b, c⟩ := decLen_spec (num / den) hq
    have h1 : num / den * den ≤ num := Nat.div_mul_le_self num den
    have h2 : num < (num / den + 1) * den := lt_succ_floor_mul num den hden
    generalize num / den = q at a b c h1 h2
    generalize decLen q = L at a b c
    have e : ((L : Int) - 1) = ((L - 1 : Nat) : Int) := by omega
    rw [e, zpow_natCast, zpow_natCast]
    constructor
    · rw [le_div_iff₀ hd]
      have : (10 ^ (L - 1) * den : Nat) ≤ num := le_trans (Nat.mul_le_mul_right _ a) h1
      exact_mod_cast this
    · rw [div_lt_iff₀ hd]
      have : num < 10 ^ L * den := lt_of_lt_of_le h2 (Nat.mul_le_mul_right _ (by omega))
      exact_mod_cast this
  · rw [if_neg hc]
    have hdt : den ≤ num * 10 ^ den := by
      have := lt_ten_pow den
      calc den ≤ 10 ^ den := le_of_lt this
        _ ≤ num * 10 ^ den := Nat.le_mul_of_pos_left _ hnum
    obtain ⟨_, b, c⟩ := leadingZerosAux_spec den den num 0 den (le_refl _) hdt
    generalize leadingZerosAux den num den 0 = j at b c ⊢
    simp only [Nat.sub_zero] at b c
    have hj : j ≠ 0 := by
      intro h0
      subst h0
      simp at b
      exact hc b
    have hc2 := c (j - 1) (by omega)
    have e1 : (1 - (j : Int) - 1) = -((j : Nat) : Int) := by omega
    have e2 : (1 - (j : Int)) = -((j - 1 : Nat) : Int) := by omega
    rw [e1, e2, zpow_neg, zpow_neg, zpow_natCast, zpow_natCast]
    have hp1 : (0 : ℚ) < 10 ^ j := by positivity
    have hp2 : (0 : ℚ) < 10 ^ (j - 1) := by positivity
    constructor
    · rw [le_div_iff₀ hd, inv_mul_le_iff₀ hp1]
      have : (den : ℚ) ≤ num * 10 ^ j := by exact_mod_cast b
      linarith
    · rw [div_lt_iff₀ hd, lt_inv_mul_iff₀ hp2]
      have : (num : ℚ) * 10 ^ (j - 1) < den := by exact_mod_cast hc2
      linarith

/-! ## The shortest decimal of a `float64` -/

theorem floor_le_rat (a b : Nat) : ((a / b : Nat) : ℚ) ≤ (a : ℚ) / b := Nat.cast_div_le

theorem lt_floor_add_one (a b : Nat) (hb : 0 < b) : (a : ℚ) / b < ((a / b : Nat) : ℚ) + 1 := by
  have hb' : (0 : ℚ) < b := by exact_mod_cast hb
  rw [div_lt_iff₀ hb']
  have := lt_succ_floor_mul a b hb
  exact_mod_cast this

theorem shortestAt_some (mant exp : Nat) (dp : Int) (n c : Nat)
    (h : shortestAt mant exp dp n = some c) :
    (c = lowerDecimal mant exp dp n ∨ c = lowerDecimal mant exp dp n + 1) ∧
      readsBack mant exp c (dp - n) = true := by
  unfold shortestAt at h
  unfold lowerDecimal
  simp only at h
  split_ifs at h with h1 h2 h3
  · simp only [Bool.and_eq_true] at h1
    simp only [Option.some.injEq] at h
    rcases roundHalfEven_cases (scaleDec (mant * 2 ^ exp) (2 ^ expBias) (n - dp)).1
      (scaleDec (mant * 2 ^ exp) (2 ^ expBias) (n - dp)).2 with hq | hq
    · rw [hq] at h; subst h; exact ⟨Or.inl rfl, h1.1⟩
    · rw [hq] at h; subst h; exact ⟨Or.inr rfl, h1.2⟩
  · simp only [Option.some.injEq] at h
    subst h
    exact ⟨Or.inl rfl, h2⟩
  · simp only [Option.some.injEq] at h
    subst h
    exact ⟨Or.inr rfl, h3⟩

theorem shortestAt_isSome (mant exp : Nat) (dp : Int) (n c : Nat)
    (hc : c = lowerDecimal mant exp dp n ∨ c = lowerDecimal mant exp dp n + 1)
    (h : readsBack mant exp c (dp - n) = true) : (shortestAt mant exp dp n).isSome = true := by
  unfold lowerDecimal at hc
  unfold shortestAt
  simp only
  generalize (scaleDec (mant * 2 ^ exp) (2 ^ expBias) (n - dp)).1 /
    (scaleDec (mant * 2 ^ exp) (2 ^ expBias) (n - dp)).2 = lo at hc ⊢
  rcases hc with hc | hc
  · subst hc
    rw [h]
    split_ifs <;> first | rfl | (exfalso; simp_all)
  · subst hc
    rw [h]
    split_ifs <;> first | rfl | (exfalso; simp_all)

/-- The result of the search for the shortest decimal: digits `c` and their
count `k`, with `c` one of the two decimals of `k` digits around the value;
when some length below the last one tried has a decimal that reads back,
the search stops at the first such length. -/
theorem shortestFrom_spec (mant exp : Nat) (dp : Int) : ∀ (fuel n : Nat),
    n ≤ (shortestFrom mant exp dp fuel n).2 ∧ (shortestFrom mant exp dp fuel n).2 ≤ n + fuel ∧
      ((shortestFrom mant exp dp fuel n).1 =
          lowerDecimal mant exp dp (shortestFrom mant exp dp fuel n).2 ∨
        (shortestFrom mant exp dp fuel n).1 =
          lowerDecimal mant exp dp (shortestFrom mant exp dp fuel n).2 + 1) ∧
      ∀ n1, n ≤ n1 → n1 < n + fuel → (shortestAt mant exp dp n1).isSome = true →
        (shortestFrom mant exp dp fuel n).2 ≤ n1 ∧
          readsBack mant exp (shortestFrom mant exp dp fuel n).1
            (dp - (shortestFrom mant exp dp fuel n).2) = true := by
  intro fuel
  induction fuel with
  | zero =>
    intro n
    simp only [shortestFrom, le_refl, Nat.add_zero, true_and]
    refine ⟨roundHalfEven_cases _ _, ?_⟩
    intro n1 h1 h2
    omega
  | succ fuel ih =>
    intro n
    rw [shortestFrom]
    cases hs : shortestAt mant exp dp n with
    | none =>
      simp only [Option.elim]
      obtain ⟨a, b, c, d⟩ := ih (n + 1)
      refine ⟨by omega, by omega, c, ?_⟩
      intro n1 h1 h2 h3
      have hne : n1 ≠ n := by
        intro he
        subst he
        rw [hs] at h3
        exact Bool.noConfusion h3
      exact d n1 (by omega) (by omega) h3
    | some c =>
      simp only [Option.elim]
      obtain ⟨hc, hr⟩ := shortestAt_some mant exp dp n c hs
      refine ⟨le_refl _, by omega, hc, ?_⟩
      intro n1 h1 _ _
      exact ⟨h1, hr⟩

/-- The decimals of `n` digits around a positive value have `n` digits. -/
theorem lowerDecimal_bounds (mant exp n : Nat) (hm : mant ≠ 0) (hn : 1 ≤ n) :
    10 ^ (n - 1) ≤ lowerDecimal mant exp (decimalPoint (mant * 2 ^ exp) (2 ^ expBias)) n ∧
      lowerDecimal mant exp (decimalPoint (mant * 2 ^ exp) (2 ^ expBias)) n < 10 ^ n := by
  have hN : 0 < mant * 2 ^ exp := Nat.mul_pos (Nat.pos_of_ne_zero hm) (Nat.pow_pos (by decide))
  have hD : 0 < 2 ^ expBias := Nat.pow_pos (by decide)
  obtain ⟨d1, d2⟩ := decimalPoint_spec _ _ hN hD
  unfold lowerDecimal
  generalize decimalPoint (mant * 2 ^ exp) (2 ^ expBias) = dp at d1 d2 ⊢
  have hv := scaleDec_val (mant * 2 ^ exp) (2 ^ expBias) (n - dp) hD
  have hp := scaleDec_pos (mant * 2 ^ exp) (2 ^ expBias) (n - dp) hD
  generalize (scaleDec (mant * 2 ^ exp) (2 ^ expBias) (n - dp)).1 = a at hv ⊢
  generalize (scaleDec (mant * 2 ^ exp) (2 ^ expBias) (n - dp)).2 = b at hv hp ⊢
  have hb : (0 : ℚ) < b := by exact_mod_cast hp
  have h10 : (0 : ℚ) < 10 ^ ((n : Int) - dp) := by positivity
  have e1 : (10 : ℚ) ^ (dp - 1) * 10 ^ ((n : Int) - dp) = 10 ^ (n - 1) := by
    rw [← zpow_add₀ (by norm_num)]
    have : dp - 1 + ((n : Int) - dp) = ((n - 1 : Nat) : Int) := by omega
    rw [this, zpow_natCast]
  have e2 : (10 : ℚ) ^ dp * 10 ^ ((n : Int) - dp) = 10 ^ n := by
    rw [← zpow_add₀ (by norm_num)]
    have : dp + ((n : Int) - dp) = (n : Int) := by omega
    rw [this, zpow_natCast]
  have lo : (10 : ℚ) ^ (n - 1) ≤ a / b := by
    rw [hv, ← e1]
    exact mul_le_mul_of_nonneg_right d1 (le_of_lt h10)
  have hi : (a : ℚ) / b < 10 ^ n := by
    rw [hv, ← e2]
    exact mul_lt_mul_of_pos_right d2 h10
  constructor
  · rw [Nat.le_div_iff_mul_le hp]
    rw [le_div_iff₀ hb] at lo
    exact_mod_cast lo
  · have := lt_of_le_of_lt (floor_le_rat a b) hi
    exact_mod_cast this

theorem digitsFrom_append (m : Nat) (as bs : List Char) :
    digitsFrom m (as ++ bs) = digitsFrom (digitsFrom m as) bs := by
  unfold digitsFrom
  rw [List.foldl_append]

theorem digitChar_toNat (d : Nat) (h : d < 10) : (Nat.digitChar d).toNat - 48 = d := by
  interval_cases d <;> rfl

theorem digitsNat_toDigits (n : Nat) : digitsNat (Nat.toDigits 10 n) = n := by
  induction n using Nat.strong_induction_on with
  | _ n ih =>
    by_cases h : n < 10
    · rw [toDigits_lt n h]
      simp [digitsNat, digitsFrom, digitChar_toNat n h]
    · rw [toDigits_step n (by omega)]
      unfold digitsNat at ih ⊢
      rw [digitsFrom_append, ih (n / 10) (by omega)]
      simp only [digitsFrom, List.foldl_cons, List.foldl_nil]
      rw [digitChar_toNat _ (Nat.mod_lt _ (by decide))]
      omega

/-- The digits of a positive number without its trailing zeros. -/
theorem dropZeros_toDigits (c : Nat) : c ≠ 0 →
    ∃ q z, q ≠ 0 ∧ c = q * 10 ^ z ∧
      (dropZeros (Nat.toDigits 10 c).reverse).reverse = Nat.toDigits 10 q ∧
      (Nat.toDigits 10 c).length = (Nat.toDigits 10 q).length + z := by
  induction c using Nat.strong_induction_on with
  | _ c ih =>
    intro h0
    by_cases hmod : c % 10 = 0
    · have h10 : 10 ≤ c := by omega
      obtain ⟨q, z, hq, hc, hd, hl⟩ := ih (c / 10) (by omega) (by omega)
      refine ⟨q, z + 1, hq, ?_, ?_, ?_⟩
      · rw [pow_succ, ← Nat.mul_assoc, ← hc]
        omega
      · rw [toDigits_step c h10, hmod]
        simp only [List.reverse_append, List.reverse_cons, List.reverse_nil, List.nil_append,
          List.singleton_append]
        have : Nat.digitChar 0 = '0' := rfl
        rw [this, dropZeros]
        exact hd
      · rw [toDigits_step c h10, List.length_append, hl]
        simp
        omega
    · refine ⟨c, 0, h0, by simp, ?_, by simp⟩
      obtain ⟨r, hr⟩ := toDigits_last c
      rw [hr, dropZeros_of_ne _ _ (digitChar_ne_zero _ (by omega) (Nat.mod_lt _ (by decide))),
        ← hr, List.reverse_reverse]

/-- The digits that `shortestDecimal` returns for a value that is not zero:
the digits `q` of the decimal `c` found by the search, without the `z`
trailing zeros of `c`. -/
theorem shortestDecimal_form (mant exp : Nat) (hm : mant ≠ 0) :
    ∃ c n q z : Nat, 1 ≤ n ∧ n ≤ 17 ∧
      shortestFrom mant exp (decimalPoint (mant * 2 ^ exp) (2 ^ expBias)) 16 1 = (c, n) ∧
      10 ^ (n - 1) ≤ c ∧ c ≤ 10 ^ n ∧ q ≠ 0 ∧ c = q * 10 ^ z ∧
      shortestDecimal mant exp = (Nat.toDigits 10 q,
        decimalPoint (mant * 2 ^ exp) (2 ^ expBias) + (z : Int) +
          ((Nat.toDigits 10 q).length : Int) - (n : Int)) ∧
      (Nat.toDigits 10 c).length = (Nat.toDigits 10 q).length + z := by
  obtain ⟨a, b, c, _⟩ :=
    shortestFrom_spec mant exp (decimalPoint (mant * 2 ^ exp) (2 ^ expBias)) 16 1
  have hb := lowerDecimal_bounds mant exp
    (shortestFrom mant exp (decimalPoint (mant * 2 ^ exp) (2 ^ expBias)) 16 1).2 hm a
  unfold shortestDecimal
  rw [if_neg hm]
  simp only
  generalize shortestFrom mant exp (decimalPoint (mant * 2 ^ exp) (2 ^ expBias)) 16 1 = r
    at a b c hb ⊢
  obtain ⟨cc, n⟩ := r
  simp only at a b c hb ⊢
  have hc1 : 10 ^ (n - 1) ≤ cc := by omega
  have hc2 : cc ≤ 10 ^ n := by omega
  have hc0 : cc ≠ 0 := by
    have : 0 < 10 ^ (n - 1) := Nat.pow_pos (by decide)
    omega
  obtain ⟨q, z, hq, hcq, hd, hl⟩ := dropZeros_toDigits cc hc0
  refine ⟨cc, n, q, z, a, by omega, rfl, hc1, hc2, hq, hcq, ?_, hl⟩
  rw [hd, hl]
  congr 1
  push_cast
  ring

theorem two_pow_1024_lt : (2 : ℚ) ^ 1024 < 10 ^ 309 := by norm_num

theorem ten_pow_neg_324_lt : (10 : ℚ) ^ (-324 : Int) < 1 / 2 ^ 1074 := by
  rw [zpow_neg, show (324 : Int) = ((324 : Nat) : Int) from rfl, zpow_natCast, inv_eq_one_div]
  apply one_div_lt_one_div_of_lt (by positivity)
  norm_num

theorem ten_zpow_309 : (10 : ℚ) ^ (309 : Int) = 10 ^ 309 := by
  rw [show (309 : Int) = ((309 : Nat) : Int) from rfl, zpow_natCast]

/-- The decimal point of a `float64` that is not zero lies between -323 and
309. -/
theorem decimalPoint_bounds (mant exp : Nat) (hm : mant ≠ 0) (h53 : mant < 2 ^ 53)
    (he : exp ≤ 2045) :
    -323 ≤ decimalPoint (mant * 2 ^ exp) (2 ^ expBias) ∧
      decimalPoint (mant * 2 ^ exp) (2 ^ expBias) ≤ 309 := by
  have hN : 0 < mant * 2 ^ exp := Nat.mul_pos (Nat.pos_of_ne_zero hm) (Nat.pow_pos (by decide))
  have hD : 0 < 2 ^ expBias := Nat.pow_pos (by decide)
  obtain ⟨d1, d2⟩ := decimalPoint_spec _ _ hN hD
  generalize decimalPoint (mant * 2 ^ exp) (2 ^ expBias) = dp at d1 d2 ⊢
  have hB : expBias = 1074 := expBias_eq
  have hcast : ((mant * 2 ^ exp : Nat) : ℚ) / ((2 ^ expBias : Nat) : ℚ) =
      (mant : ℚ) * 2 ^ exp / 2 ^ expBias := by push_cast; rfl
  rw [hcast] at d1 d2
  have hm1 : (1 : ℚ) ≤ mant := by exact_mod_cast Nat.pos_of_ne_zero hm
  have hm2 : (mant : ℚ) < 2 ^ 53 := by exact_mod_cast h53
  have hp : (0 : ℚ) < 2 ^ expBias := by positivity
  have hv1 : (mant : ℚ) * 2 ^ exp / 2 ^ expBias < 2 ^ 1024 := by
    rw [div_lt_iff₀ hp]
    have h1 : (2 : ℚ) ^ exp ≤ 2 ^ 2045 := pow_le_pow_right₀ (by norm_num) he
    have h2 : (2 : ℚ) ^ 1024 * 2 ^ expBias = 2 ^ 53 * 2 ^ 2045 := by
      rw [hB, ← pow_add, ← pow_add]
    rw [h2]
    calc (mant : ℚ) * 2 ^ exp < 2 ^ 53 * 2 ^ exp := mul_lt_mul_of_pos_right hm2 (by positivity)
      _ ≤ 2 ^ 53 * 2 ^ 2045 := mul_le_mul_of_nonneg_left h1 (by positivity)
  have hv2 : (1 : ℚ) / 2 ^ 1074 ≤ (mant : ℚ) * 2 ^ exp / 2 ^ expBias := by
    rw [hB]
    apply div_le_div_of_nonneg_right _ (by positivity)
    have : (1 : ℚ) ≤ 2 ^ exp := one_le_pow₀ (by norm_num)
    calc (1 : ℚ) = 1 * 1 := by ring
      _ ≤ mant * 2 ^ exp := mul_le_mul hm1 this (by norm_num) (by positivity)
  constructor
  · by_contra hc
    have hlt : dp ≤ -324 := by omega
    have h1 : (10 : ℚ) ^ dp ≤ 10 ^ (-324 : Int) := zpow_le_zpow_right₀ (by norm_num) hlt
    have h2 := ten_pow_neg_324_lt
    exact absurd (lt_of_lt_of_le (lt_of_lt_of_le d2 h1) (le_trans (le_of_lt h2) hv2))
      (lt_irrefl _)
  · by_contra hc
    have hlt : (309 : Int) ≤ dp - 1 := by omega
    have h1 : (10 : ℚ) ^ (309 : Int) ≤ 10 ^ (dp - 1) := zpow_le_zpow_right₀ (by norm_num) hlt
    have h2 := ten_zpow_309
    rw [h2] at h1
    exact absurd (lt_of_le_of_lt (le_trans h1 d1) (lt_trans hv1 two_pow_1024_lt)) (lt_irrefl _)

theorem exponent_shortest (f : Float64) :
    f.shortest.exponent =
      (shortestDecimal f.mant f.exp).2 - ((shortestDecimal f.mant f.exp).1.length : Int) := by
  unfold Float64.shortest NumLit.exponent
  simp only [Bool.false_eq_true, if_false]
  omega

/-- The value of the literal `f.shortest` is the value of the decimal found
by the search. -/
theorem shortest_value (f : Float64) (hm : f.mant ≠ 0) :
    ∃ c n, 1 ≤ n ∧ n ≤ 17 ∧
      shortestFrom f.mant f.exp (decimalPoint (f.mant * 2 ^ f.exp) (2 ^ expBias)) 16 1 = (c, n) ∧
      10 ^ (n - 1) ≤ c ∧ c ≤ 10 ^ n ∧
      (f.shortest.mant : ℚ) * 10 ^ f.shortest.exponent =
        (c : ℚ) * 10 ^ (decimalPoint (f.mant * 2 ^ f.exp) (2 ^ expBias) - (n : Int)) := by
  obtain ⟨c, n, q, z, h1, h2, h3, h4, h5, h6, h7, h8, _⟩ := shortestDecimal_form f.mant f.exp hm
  refine ⟨c, n, h1, h2, h3, h4, h5, ?_⟩
  rw [exponent_shortest]
  have hmant : f.shortest.mant = q := by
    unfold Float64.shortest
    simp only
    rw [h8]
    exact digitsNat_toDigits q
  rw [hmant, h8, h7]
  simp only
  generalize decimalPoint (f.mant * 2 ^ f.exp) (2 ^ expBias) = dp
  have e : dp + (z : Int) + ((Nat.toDigits 10 q).length : Int) - (n : Int) -
      ((Nat.toDigits 10 q).length : Int) = (z : Int) + (dp - (n : Int)) := by ring
  rw [e, zpow_add₀ (by norm_num), zpow_natCast]
  push_cast
  ring

/-! ## Reading back a number that the encoder writes -/

theorem toDigits_isDigit (n : Nat) : ∀ c ∈ Nat.toDigits 10 n, IsDigit c := by
  induction n using Nat.strong_induction_on with
  | _ n ih =>
    intro c hc
    by_cases h : n < 10
    · rw [toDigits_lt n h] at hc
      simp only [List.mem_singleton] at hc
      exact ⟨n, h, hc⟩
    · rw [toDigits_step n (by omega)] at hc
      rcases List.mem_append.mp hc with h1 | h1
      · exact ih (n / 10) (by omega) c h1
      · simp only [List.mem_singleton] at h1
        exact ⟨n % 10, Nat.mod_lt _ (by decide), h1⟩

theorem toDigits_head (q : Nat) : q ≠ 0 →
    ∃ d tail, 0 < d ∧ d < 10 ∧ Nat.toDigits 10 q = Nat.digitChar d :: tail := by
  induction q using Nat.strong_induction_on with
  | _ q ih =>
    intro h0
    by_cases h : q < 10
    · exact ⟨q, [], by omega, h, toDigits_lt q h⟩
    · obtain ⟨d, tail, h1, h2, h3⟩ := ih (q / 10) (by omega) (by omega)
      refine ⟨d, tail ++ [Nat.digitChar (q % 10)], h1, h2, ?_⟩
      rw [toDigits_step q (by omega), h3]
      rfl

theorem digitsFrom_cons (m : Nat) (c : Char) (cs : List Char) :
    digitsFrom m (c :: cs) = digitsFrom (m * 10 + (c.toNat - 48)) cs := rfl

theorem digitsFrom_replicate_zero (m z : Nat) :
    digitsFrom m (List.replicate z '0') = m * 10 ^ z := by
  induction z generalizing m with
  | zero => simp [digitsFrom]
  | succ k ih =>
    rw [List.replicate_succ, digitsFrom_cons, ih, pow_succ]
    have : ('0' : Char).toNat - 48 = 0 := rfl
    rw [this]
    ring

theorem replicate_zero_isDigit (z : Nat) : ∀ c ∈ List.replicate z '0', IsDigit c := by
  intro c hc
  rw [List.eq_of_mem_replicate hc]
  exact ⟨0, by decide, rfl⟩

theorem step_int_isDigit (neg : Bool) (m : Nat) (c : Char) (h : IsDigit c) :
    step (.int neg m) c = some ([], .int neg (m * 10 + (c.toNat - 48))) := by
  obtain ⟨d, hd, rfl⟩ := h
  rw [digitChar_toNat d hd]
  exact step_int_digit neg m d hd

theorem step_dot_digit (neg : Bool) (m d : Nat) (h : d < 10) :
    step (.dot neg m) (Nat.digitChar d) = some ([], .frac neg (m * 10 + d) 1) := by
  interval_cases d <;> rfl

theorem step_frac_digit (neg : Bool) (m sc d : Nat) (h : d < 10) :
    step (.frac neg m sc) (Nat.digitChar d) = some ([], .frac neg (m * 10 + d) (sc + 1)) := by
  interval_cases d <;> rfl

theorem step_e_digit (neg : Bool) (m sc d : Nat) (h : d < 10) :
    step (.e neg m sc) (Nat.digitChar d) = some ([], .eDigits neg m sc false d) := by
  interval_cases d <;> rfl

theorem step_eSign_digit (neg : Bool) (m sc : Nat) (eneg : Bool) (d : Nat) (h : d < 10) :
    step (.eSign neg m sc eneg) (Nat.digitChar d) = some ([], .eDigits neg m sc eneg d) := by
  interval_cases d <;> rfl

theorem step_eDigits_digit (neg : Bool) (m sc : Nat) (eneg : Bool) (ex d : Nat) (h : d < 10) :
    step (.eDigits neg m sc eneg ex) (Nat.digitChar d) =
      some ([], .eDigits neg m sc eneg (ex * 10 + d)) := by
  interval_cases d <;> rfl

theorem lex_int_run (neg : Bool) : ∀ (ds : List Char) (m : Nat) (rest : List Char),
    (∀ c ∈ ds, IsDigit c) →
    lexFrom (.int neg m) (ds ++ rest) = lexFrom (.int neg (digitsFrom m ds)) rest := by
  intro ds
  induction ds with
  | nil => intro m rest _; rfl
  | cons c cs ih =>
    intro m rest h
    rw [List.cons_append, lexFrom_silent _ _ _ _
      (step_int_isDigit neg m c (h c (List.mem_cons_self _ _))),
      ih _ _ (fun x hx => h x (List.mem_cons_of_mem _ hx)), digitsFrom_cons]

theorem lex_frac_run (neg : Bool) : ∀ (ds : List Char) (m sc : Nat) (rest : List Char),
    (∀ c ∈ ds, IsDigit c) →
    lexFrom (.frac neg m sc) (ds ++ rest) =
      lexFrom (.frac neg (digitsFrom m ds) (sc + ds.length)) rest := by
  intro ds
  induction ds with
  | nil => intro m sc rest _; rfl
  | cons c cs ih =>
    intro m sc rest h
    obtain ⟨d, hd, hc⟩ := h c (List.mem_cons_self _ _)
    subst hc
    rw [List.cons_append, lexFrom_silent _ _ _ _ (step_frac_digit neg m sc d hd),
      ih _ _ _ (fun x hx => h x (List.mem_cons_of_mem _ hx)), digitsFrom_cons,
      digitChar_toNat d hd, List.length_cons]
    congr 2
    omega

theorem lex_dot_run (neg : Bool) (m : Nat) (c : Char) (cs rest : List Char)
    (h : ∀ x ∈ c :: cs, IsDigit x) :
    lexFrom (.dot neg m) ((c :: cs) ++ rest) =
      lexFrom (.frac neg (digitsFrom m (c :: cs)) (c :: cs).length) rest := by
  obtain ⟨d, hd, hc⟩ := h c (List.mem_cons_self _ _)
  subst hc
  rw [List.cons_append, lexFrom_silent _ _ _ _ (step_dot_digit neg m d hd),
    lex_frac_run neg cs _ _ _ (fun x hx => h x (List.mem_cons_of_mem _ hx)), digitsFrom_cons,
    digitChar_toNat d hd, List.length_cons]
  congr 2
  omega

theorem lex_exp_run (neg : Bool) (m sc : Nat) (eneg : Bool) :
    ∀ (ds : List Char) (ex : Nat) (rest : List Char), (∀ c ∈ ds, IsDigit c) →
    lexFrom (.eDigits neg m sc eneg ex) (ds ++ rest) =
      lexFrom (.eDigits neg m sc eneg (digitsFrom ex ds)) rest := by
  intro ds
  induction ds with
  | nil => intro ex rest _; rfl
  | cons c cs ih =>
    intro ex rest h
    obtain ⟨d, hd, hc⟩ := h c (List.mem_cons_self _ _)
    subst hc
    rw [List.cons_append, lexFrom_silent _ _ _ _ (step_eDigits_digit neg m sc eneg ex d hd),
      ih _ _ (fun x hx => h x (List.mem_cons_of_mem _ hx)), digitsFrom_cons,
      digitChar_toNat d hd]

/-- The sign and the first digit of a number that does not start with a
zero. -/
theorem lex_sign_digit (neg : Bool) (d : Nat) (h0 : 0 < d) (hd : d < 10) (rest : List Char) :
    lexFrom .start ((if neg then ['-'] else []) ++ Nat.digitChar d :: rest) =
      lexFrom (.int neg d) rest := by
  cases neg
  · simp only [Bool.false_eq_true, if_false, List.nil_append]
    exact lexFrom_silent _ _ _ _ (step_start_digit d h0 hd)
  · simp only [if_true, List.cons_append, List.nil_append]
    have hminus : step .start '-' = some ([], .neg) := rfl
    rw [lexFrom_silent _ _ _ _ hminus]
    exact lexFrom_silent _ _ _ _ (step_neg_digit d h0 hd)

/-- The sign and a leading zero. -/
theorem lex_sign_zero (neg : Bool) (rest : List Char) :
    lexFrom .start ((if neg then ['-'] else []) ++ '0' :: rest) = lexFrom (.zero neg) rest := by
  cases neg
  · simp only [Bool.false_eq_true, if_false, List.nil_append]
    exact lexFrom_silent _ _ _ _ rfl
  · simp only [if_true, List.cons_append, List.nil_append]
    have hminus : step .start '-' = some ([], .neg) := rfl
    rw [lexFrom_silent _ _ _ _ hminus]
    exact lexFrom_silent _ _ _ _ rfl

theorem lex_end_int (neg : Bool) (m : Nat) :
    lexFrom (.int neg m) ['\x7d'] = some [.num ⟨neg, m, 0, false, 0⟩, .rbrace] := rfl

theorem lex_end_zero (neg : Bool) :
    lexFrom (.zero neg) ['\x7d'] = some [.num ⟨neg, 0, 0, false, 0⟩, .rbrace] := rfl

theorem lex_end_frac (neg : Bool) (m sc : Nat) :
    lexFrom (.frac neg m sc) ['\x7d'] = some [.num ⟨neg, m, sc, false, 0⟩, .rbrace] := rfl

theorem lex_end_exp (neg : Bool) (m sc : Nat) (eneg : Bool) (ex : Nat) :
    lexFrom (.eDigits neg m sc eneg ex) ['\x7d'] =
      some [.num ⟨neg, m, sc, eneg, ex⟩, .rbrace] := rfl

theorem fracPart_eq (d : List Char) (dp : Int) (h : dp ≤ d.length) :
    (List.range ((d.length : Int) - dp).toNat).map (fun (i : Nat) =>
        if 0 ≤ dp + (i : Int) ∧ dp + (i : Int) < (d.length : Int) then
          d.getD (dp + (i : Int)).toNat '0' else '0') =
      List.replicate (-dp).toNat '0' ++ d.drop dp.toNat := by
  apply List.ext_getElem?
  intro i
  by_cases hi : i < ((d.length : Int) - dp).toNat
  · rw [List.getElem?_map, List.getElem?_range hi]
    simp only [Option.map_some']
    by_cases hz : i < (-dp).toNat
    · rw [List.getElem?_append_left (by simpa using hz)]
      rw [List.getElem?_replicate, if_pos hz, if_neg (by omega)]
    · rw [List.getElem?_append_right (by simpa using hz)]
      simp only [List.length_replicate]
      rw [List.getElem?_drop, if_pos (by omega), List.getD_eq_getElem?_getD]
      have e : (dp + (i : Int)).toNat = dp.toNat + (i - (-dp).toNat) := by omega
      rw [e]
      have hlt : dp.toNat + (i - (-dp).toNat) < d.length := by omega
      rw [List.getElem?_eq_getElem hlt]
      rfl
  · rw [List.getElem?_eq_none (by simpa using hi), List.getElem?_eq_none]
    simp only [List.length_append, List.length_replicate, List.length_drop]
    omega

/-- Format `f` when the decimal point is after all the digits: the digits,
then zeros. -/
theorem fmtF_integer (neg : Bool) (d : List Char) (dp : Int) (h0 : 0 < dp)
    (h : (d.length : Int) ≤ dp) :
    fmtF neg d dp =
      (if neg then ['-'] else []) ++ (d ++ List.replicate (dp.toNat - d.length) '0') := by
  unfold fmtF
  simp only
  have e : ((d.length : Int) - dp).toNat = 0 := by omega
  rw [if_pos h0, e, if_neg (Nat.lt_irrefl 0), List.take_of_length_le (by omega)]
  simp

/-- Format `f` when the decimal point is inside the digits. -/
theorem fmtF_point (neg : Bool) (d : List Char) (dp : Int) (h0 : 0 < dp)
    (h : dp < (d.length : Int)) :
    fmtF neg d dp =
      (if neg then ['-'] else []) ++ (d.take dp.toNat ++ '.' :: d.drop dp.toNat) := by
  unfold fmtF
  simp only
  have e : 0 < ((d.length : Int) - dp).toNat := by omega
  have e2 : dp.toNat - d.length = 0 := by omega
  have e3 : (-dp).toNat = 0 := by omega
  rw [if_pos h0, if_pos e, fracPart_eq d dp (le_of_lt h), e2, e3]
  simp

/-- Format `f` when the decimal point is before the digits: `0.`, zeros,
then the digits. -/
theorem fmtF_small (neg : Bool) (d : List Char) (dp : Int) (h0 : dp ≤ 0) (hd : d ≠ []) :
    fmtF neg d dp =
      (if neg then ['-'] else []) ++ ('0' :: '.' :: (List.replicate (-dp).toNat '0' ++ d)) := by
  unfold fmtF
  simp only
  have hl : 0 < d.length := List.length_pos.mpr hd
  have e : 0 < ((d.length : Int) - dp).toNat := by omega
  have e3 : dp.toNat = 0 := by omega
  rw [if_neg (not_lt.mpr h0), if_pos e, fracPart_eq d dp (by omega), e3]
  simp

theorem append_rbrace (a b : List Char) : (a ++ b) ++ ['\x7d'] = a ++ (b ++ ['\x7d']) :=
  List.append_assoc _ _ _

/-- What the scanner reads from format `f` of the digits of `q` with the
decimal point at `dp`: a number with the value `q * 10 ^ (dp - length)`. -/
theorem lex_fmtF (neg : Bool) (q : Nat) (hq : q ≠ 0) (dp : Int) :
    ∃ m : NumLit, lexFrom .start (fmtF neg (Nat.toDigits 10 q) dp ++ ['\x7d']) =
        some [.num m, .rbrace] ∧ m.neg = neg ∧
      (m.mant : ℚ) * 10 ^ m.exponent =
        (q : ℚ) * 10 ^ (dp - ((Nat.toDigits 10 q).length : Int)) := by
  obtain ⟨d0, tail, hd0, hd10, hd⟩ := toDigits_head q hq
  have hdig := toDigits_isDigit q
  have hval := digitsNat_toDigits q
  generalize Nat.toDigits 10 q = d at hd hdig hval ⊢
  have hne : d ≠ [] := by rw [hd]; simp
  by_cases h0 : 0 < dp
  · by_cases h1 : (d.length : Int) ≤ dp
    · -- digits then zeros
      refine ⟨⟨neg, q * 10 ^ (dp.toNat - d.length), 0, false, 0⟩, ?_, rfl, ?_⟩
      · rw [fmtF_integer neg d dp h0 h1, append_rbrace]
        subst hd
        rw [List.cons_append, List.cons_append, lex_sign_digit neg d0 hd0 hd10,
          List.append_assoc, lex_int_run neg tail _ _
            (fun c hc => hdig c (List.mem_cons_of_mem _ hc)),
          lex_int_run neg _ _ _ (replicate_zero_isDigit _), lex_end_int,
          digitsFrom_replicate_zero]
        have : digitsFrom d0 tail = q := by
          rw [← hval]
          unfold digitsNat
          rw [digitsFrom_cons, digitChar_toNat d0 hd10]
          simp
        rw [this]
      · simp only [NumLit.exponent, Bool.false_eq_true, if_false]
        push_cast
        have e : dp - (d.length : Int) = ((dp.toNat - d.length : Nat) : Int) := by omega
        rw [e, zpow_natCast]
        simp
    · -- decimal point inside the digits
      have h1' : dp < (d.length : Int) := by omega
      refine ⟨⟨neg, q, d.length - dp.toNat, false, 0⟩, ?_, rfl, ?_⟩
      · rw [fmtF_point neg d dp h0 h1', append_rbrace]
        have htake : d.take dp.toNat = Nat.digitChar d0 :: tail.take (dp.toNat - 1) := by
          subst hd
          have : dp.toNat = (dp.toNat - 1) + 1 := by omega
          conv_lhs => rw [this]
          rfl
        have hdropne : d.drop dp.toNat ≠ [] := by
          intro hh
          have := List.drop_eq_nil_iff.mp hh
          omega
        obtain ⟨c1, cs1, hc1⟩ := List.exists_cons_of_ne_nil hdropne
        have hsub1 : ∀ c ∈ tail.take (dp.toNat - 1), IsDigit c := fun c hc =>
          hdig c (by subst hd; exact List.mem_cons_of_mem _ (List.mem_of_mem_take hc))
        have hsub2 : ∀ c ∈ c1 :: cs1, IsDigit c := fun c hc =>
          hdig c (List.mem_of_mem_drop (by rw [hc1]; exact hc))
        rw [htake]
        simp only [List.cons_append, List.append_assoc]
        rw [lex_sign_digit neg d0 hd0 hd10, lex_int_run neg _ _ _ hsub1,
          lexFrom_silent _ (.dot neg (digitsFrom d0 (tail.take (dp.toNat - 1)))) _ _
            (by simp [step, digitVal]),
          hc1, lex_dot_run neg _ c1 cs1 _ hsub2, lex_end_frac]
        have hm : digitsFrom (digitsFrom d0 (tail.take (dp.toNat - 1))) (c1 :: cs1) = q := by
          rw [← hc1, ← hval]
          unfold digitsNat
          conv_rhs => rw [← List.take_append_drop dp.toNat d, digitsFrom_append, htake,
            digitsFrom_cons, digitChar_toNat d0 hd10]
          simp
        have hl : (c1 :: cs1).length = d.length - dp.toNat := by
          rw [← hc1, List.length_drop]
        rw [hm, hl]
      · simp only [NumLit.exponent, Bool.false_eq_true, if_false]
        have e : ((0 : Nat) : Int) - ((d.length - dp.toNat : Nat) : Int) =
            dp - (d.length : Int) := by omega
        rw [e]
  · -- zero, decimal point, zeros, digits
    have h0' : dp ≤ 0 := by omega
    refine ⟨⟨neg, q, (-dp).toNat + d.length, false, 0⟩, ?_, rfl, ?_⟩
    · rw [fmtF_small neg d dp h0' hne, append_rbrace, List.cons_append, lex_sign_zero,
        List.cons_append,
        lexFrom_silent _ (.dot neg 0) _ _ (by simp [step])]
      have hall : ∀ c ∈ List.replicate (-dp).toNat '0' ++ d, IsDigit c := by
        intro c hc
        rcases List.mem_append.mp hc with h | h
        · exact replicate_zero_isDigit _ c h
        · exact hdig c h
      have hne2 : List.replicate (-dp).toNat '0' ++ d ≠ [] := by simp [hne]
      obtain ⟨c1, cs1, hc1⟩ := List.exists_cons_of_ne_nil hne2
      rw [hc1] at hall ⊢
      rw [lex_dot_run neg 0 c1 cs1 _ hall, lex_end_frac, ← hc1, digitsFrom_append,
        digitsFrom_replicate_zero, List.length_append, List.length_replicate]
      have : digitsFrom (0 * 10 ^ (-dp).toNat) d = q := by
        rw [Nat.zero_mul]
        exact hval
      rw [this]
    · simp only [NumLit.exponent, Bool.false_eq_true, if_false]
      have e : ((0 : Nat) : Int) - (((-dp).toNat + d.length : Nat) : Int) =
          dp - (d.length : Int) := by omega
      rw [e]

theorem cleanExponent_one (P : List Char) (sgn x : Char) (hs : sgn = '-' ∨ sgn = '+') :
    cleanExponent (P ++ ['e', sgn, '0', x]) = P ++ ['e', sgn, x] := by
  unfold cleanExponent
  simp [List.reverse_append, hs]

theorem cleanExponent_two (P : List Char) (sgn x1 x2 : Char) (h : x1 ≠ '0') :
    cleanExponent (P ++ ['e', sgn, x1, x2]) = P ++ ['e', sgn, x1, x2] := by
  unfold cleanExponent
  split
  · next x s rest heq =>
    simp [List.reverse_append] at heq
    exact absurd heq.2.1 h
  · rfl

theorem cleanExponent_three (P : List Char) (sgn x1 x2 x3 : Char) (h : sgn ≠ 'e') :
    cleanExponent (P ++ ['e', sgn, x1, x2, x3]) = P ++ ['e', sgn, x1, x2, x3] := by
  unfold cleanExponent
  split
  · next x s rest heq =>
    simp [List.reverse_append] at heq
    exact absurd heq.2.2.2.1 h
  · rfl

theorem toDigits_two (a : Nat) (h1 : 10 ≤ a) (h2 : a < 100) :
    Nat.toDigits 10 a = [Nat.digitChar (a / 10), Nat.digitChar (a % 10)] := by
  rw [toDigits_step a h1, toDigits_lt (a / 10) (by omega)]
  rfl

theorem toDigits_three (a : Nat) (h1 : 100 ≤ a) (h2 : a < 1000) :
    Nat.toDigits 10 a =
      [Nat.digitChar (a / 100), Nat.digitChar (a / 10 % 10), Nat.digitChar (a % 10)] := by
  rw [toDigits_step a (by omega), toDigits_two (a / 10) (by omega) (by omega)]
  have : a / 10 / 10 = a / 100 := by omega
  rw [this]
  rfl

/-- Format `e` after the clean-up of the encoder: the exponent is written
without a leading zero. -/
theorem cleanExponent_fmtE (neg : Bool) (d0 : Nat) (tail : List Char) (dp : Int)
    (ha : (dp - 1).natAbs < 1000) :
    cleanExponent (fmtE neg (Nat.digitChar d0 :: tail) dp) =
      (if neg then ['-'] else []) ++ (Nat.digitChar d0 ::
        ((if tail = [] then [] else '.' :: tail) ++
          'e' :: (if dp - 1 < 0 then '-' else '+') :: Nat.toDigits 10 (dp - 1).natAbs)) := by
  have hmore : (if 0 < tail.length + 1 - 1 then
      '.' :: (Nat.digitChar d0 :: tail).drop 1 else []) =
      (if tail = [] then [] else '.' :: tail) := by
    cases tail with
    | nil => rfl
    | cons t ts => simp
  have hsgn : (if dp - 1 < 0 then '-' else '+') = '-' ∨ (if dp - 1 < 0 then '-' else '+') = '+' := by
    split
    · exact Or.inl rfl
    · exact Or.inr rfl
  have hsgn2 : (if dp - 1 < 0 then '-' else '+') ≠ 'e' := by
    split <;> decide
  unfold fmtE
  simp only [List.headD_cons, List.length_cons, Nat.add_one_ne_zero, if_false]
  rw [hmore]
  generalize (dp - 1).natAbs = a at ha
  generalize (if dp - 1 < 0 then '-' else '+') = sg at hsgn hsgn2
  generalize (if tail = [] then [] else '.' :: tail) = more
  generalize (if neg = true then ['-'] else []) = sign
  by_cases h10 : a < 10
  · rw [if_pos h10, toDigits_lt a h10]
    have e : sign ++ Nat.digitChar d0 :: (more ++ 'e' :: sg :: ['0', Nat.digitChar a]) =
        (sign ++ Nat.digitChar d0 :: more) ++ ['e', sg, '0', Nat.digitChar a] := by simp
    rw [e, cleanExponent_one _ _ _ hsgn]
    simp
  · rw [if_neg h10]
    by_cases h100 : a < 100
    · rw [if_pos h100, toDigits_two a (by omega) h100]
      have e : sign ++ Nat.digitChar d0 ::
          (more ++ 'e' :: sg :: [Nat.digitChar (a / 10), Nat.digitChar (a % 10)]) =
          (sign ++ Nat.digitChar d0 :: more) ++
            ['e', sg, Nat.digitChar (a / 10), Nat.digitChar (a % 10)] := by simp
      rw [e, cleanExponent_two _ _ _ _ (digitChar_ne_zero _ (by omega) (by omega))]
    · rw [if_neg h100, toDigits_three a (by omega) ha]
      have e : sign ++ Nat.digitChar d0 :: (more ++ 'e' :: sg ::
          [Nat.digitChar (a / 100), Nat.digitChar (a / 10 % 10), Nat.digitChar (a % 10)]) =
          (sign ++ Nat.digitChar d0 :: more) ++
            ['e', sg, Nat.digitChar (a / 100), Nat.digitChar (a / 10 % 10),
              Nat.digitChar (a % 10)] := by simp
      rw [e, cleanExponent_three _ _ _ _ _ hsgn2]

/-- What the scanner reads from format `e` of the digits of `q` with the
decimal point at `dp`: a number with the value `q * 10 ^ (dp - length)`. -/
theorem lex_fmtE (neg : Bool) (q : Nat) (hq : q ≠ 0) (dp : Int) (ha : (dp - 1).natAbs < 1000) :
    ∃ m : NumLit,
      lexFrom .start (cleanExponent (fmtE neg (Nat.toDigits 10 q) dp) ++ ['\x7d']) =
        some [.num m, .rbrace] ∧ m.neg = neg ∧
      (m.mant : ℚ) * 10 ^ m.exponent =
        (q : ℚ) * 10 ^ (dp - ((Nat.toDigits 10 q).length : Int)) := by
  obtain ⟨d0, tail, hd0, hd10, hd⟩ := toDigits_head q hq
  have hdig := toDigits_isDigit q
  have hval := digitsNat_toDigits q
  generalize Nat.toDigits 10 q = d at hd hdig hval ⊢
  subst hd
  have hq2 : digitsFrom d0 tail = q := by
    rw [← hval]
    unfold digitsNat
    rw [digitsFrom_cons, digitChar_toNat d0 hd10]
    simp
  have htail : ∀ c ∈ tail, IsDigit c := fun c hc => hdig c (List.mem_cons_of_mem _ hc)
  -- the exponent digits
  have hedig := toDigits_isDigit (dp - 1).natAbs
  have heval := digitsNat_toDigits (dp - 1).natAbs
  have hene : Nat.toDigits 10 (dp - 1).natAbs ≠ [] := by
    obtain ⟨r, hr⟩ := toDigits_last (dp - 1).natAbs
    intro h
    rw [h] at hr
    simp at hr
  obtain ⟨e0, es, hes⟩ := List.exists_cons_of_ne_nil hene
  obtain ⟨de, hde, he0⟩ := hedig e0 (by rw [hes]; exact List.mem_cons_self _ _)
  have hes2 : ∀ c ∈ es, IsDigit c := fun c hc => hedig c (by rw [hes]; exact List.mem_cons_of_mem _ hc)
  have hex : digitsFrom de es = (dp - 1).natAbs := by
    rw [← heval, hes]
    unfold digitsNat
    rw [digitsFrom_cons, he0, digitChar_toNat de hde]
    simp
  refine ⟨⟨neg, q, tail.length, decide (dp - 1 < 0), (dp - 1).natAbs⟩, ?_, rfl, ?_⟩
  · rw [cleanExponent_fmtE neg d0 tail dp ha, hes, he0]
    simp only [List.cons_append, List.append_assoc]
    rw [lex_sign_digit neg d0 hd0 hd10]
    have hexp : ∀ (m sc : Nat),
        lexFrom (.e neg m sc) ((if dp - 1 < 0 then '-' else '+') ::
          Nat.digitChar de :: (es ++ ['\x7d'])) =
        some [.num ⟨neg, m, sc, decide (dp - 1 < 0), (dp - 1).natAbs⟩, .rbrace] := by
      intro m sc
      by_cases hneg : dp - 1 < 0
      · simp only [hneg, if_true, decide_True]
        rw [lexFrom_silent _ (.eSign neg m sc true) _ _ (by simp [step]),
          lexFrom_silent _ _ _ _ (step_eSign_digit neg m sc true de hde),
          lex_exp_run neg m sc true es de _ hes2, lex_end_exp, hex]
      · simp only [hneg, if_false, decide_False]
        rw [lexFrom_silent _ (.eSign neg m sc false) _ _ (by simp [step]),
          lexFrom_silent _ _ _ _ (step_eSign_digit neg m sc false de hde),
          lex_exp_run neg m sc false es de _ hes2, lex_end_exp, hex]
    cases tail with
    | nil =>
      simp only [if_true, List.nil_append, List.length_nil]
      rw [lexFrom_silent _ (.e neg d0 0) _ _ (by simp [step, digitVal]), hexp]
      simp only [digitsFrom, List.foldl_nil] at hq2
      rw [hq2]
    | cons t ts =>
      simp only [reduceCtorEq, if_false, List.cons_append, List.append_assoc]
      rw [lexFrom_silent _ (.dot neg d0) _ _ (by simp [step, digitVal])]
      have := lex_dot_run neg d0 t ts
        ('e' :: (if dp - 1 < 0 then '-' else '+') :: Nat.digitChar de :: (es ++ ['\x7d'])) htail
      simp only [List.cons_append] at this
      rw [this, lexFrom_silent _ (.e neg (digitsFrom d0 (t :: ts)) (t :: ts).length) _ _
        (by simp [step, digitVal]), hexp, hq2]
  · simp only [NumLit.exponent, decide_eq_true_eq, List.length_cons]
    have e : (if dp - 1 < 0 then -((dp - 1).natAbs : Int) else ((dp - 1).natAbs : Int)) -
        (tail.length : Int) = dp - ((tail.length + 1 : Nat) : Int) := by
      split <;> omega
    rw [e]

/-! ## The value of a number literal -/

theorem fraction_pos (n : NumLit) : 0 < n.fraction.2 := by
  unfold NumLit.fraction
  split_ifs <;> simp

/-- The fraction of a literal has the value `mant * 10 ^ exponent`. -/
theorem fraction_val (n : NumLit) :
    (n.fraction.1 : ℚ) / n.fraction.2 = (n.mant : ℚ) * 10 ^ n.exponent := by
  unfold NumLit.fraction NumLit.exponent
  split_ifs with h1 h2
  · simp only [Nat.cast_pow, Nat.cast_ofNat]
    have e : -(n.ex : Int) - (n.scale : Int) = -((n.scale + n.ex : Nat) : Int) := by
      push_cast; ring
    rw [e, zpow_neg, zpow_natCast]
    rfl
  · simp only [Nat.cast_mul, Nat.cast_pow, Nat.cast_ofNat, Nat.cast_one, div_one]
    have e : (n.ex : Int) - (n.scale : Int) = ((n.ex - n.scale : Nat) : Int) := by omega
    rw [e, zpow_natCast]
  · simp only [Nat.cast_pow, Nat.cast_ofNat]
    have e : (n.ex : Int) - (n.scale : Int) = -((n.scale - n.ex : Nat) : Int) := by omega
    rw [e, zpow_neg, zpow_natCast]
    rfl

theorem fraction_fst_eq_zero (n : NumLit) : n.fraction.1 = 0 ↔ n.mant = 0 := by
  unfold NumLit.fraction
  split_ifs <;> simp

/-- Two literals denote the same number when their values are equal and
their signs agree (the sign of a zero does not count). -/
theorem sameNumber_iff (a b : NumLit) :
    a.sameNumber b = true ↔
      ((a.mant : ℚ) * 10 ^ a.exponent = (b.mant : ℚ) * 10 ^ b.exponent ∧
        (a.neg = b.neg ∨ a.mant = 0)) := by
  have ha := fraction_pos a
  have hb := fraction_pos b
  have ha' : (a.fraction.2 : ℚ) ≠ 0 := by exact_mod_cast ha.ne'
  have hb' : (b.fraction.2 : ℚ) ≠ 0 := by exact_mod_cast hb.ne'
  unfold NumLit.sameNumber
  rw [Bool.and_eq_true, Bool.or_eq_true, beq_iff_eq, beq_iff_eq, beq_iff_eq,
    fraction_fst_eq_zero, ← fraction_val a, ← fraction_val b, div_eq_div_iff ha' hb']
  constructor
  · rintro ⟨h1, h2⟩
    exact ⟨by exact_mod_cast h1, h2⟩
  · rintro ⟨h1, h2⟩
    exact ⟨by exact_mod_cast h1, h2⟩

theorem toDigits_length_between (c n : Nat) (hn : 1 ≤ n) (h1 : 10 ^ (n - 1) ≤ c)
    (h2 : c ≤ 10 ^ n) : n ≤ (Nat.toDigits 10 c).length ∧ (Nat.toDigits 10 c).length ≤ n + 1 := by
  have hc0 : c ≠ 0 := by
    have : 0 < 10 ^ (n - 1) := Nat.pow_pos (by decide)
    omega
  obtain ⟨a, b, _⟩ := toDigits_length_spec c hc0
  generalize (Nat.toDigits 10 c).length = L at a b ⊢
  constructor
  · have : 10 ^ (n - 1) < 10 ^ L := lt_of_le_of_lt h1 b
    have := (Nat.pow_lt_pow_iff_right (show 1 < 10 by decide)).mp this
    omega
  · have : 10 ^ (L - 1) ≤ 10 ^ n := le_trans a h2
    have := (Nat.pow_le_pow_iff_right (show 1 < 10 by decide)).mp this
    omega

/-- What the scanner reads from the encoding of a `float64`: one number,
which denotes the shortest decimal of the `float64`. -/
theorem lex_encodeFloat (f : Float64) (h53 : f.mant < 2 ^ 53) (he : f.exp ≤ 2045) :
    ∃ m : NumLit, lexFrom .start (encodeFloat f ++ ['\x7d']) = some [.num m, .rbrace] ∧
      m.sameNumber f.shortest = true := by
  by_cases hm : f.mant = 0
  · have hsd : shortestDecimal f.mant f.exp = ([], 0) := by
      unfold shortestDecimal
      rw [if_pos hm]
    refine ⟨f.shortest, ?_, sameNumber_refl _⟩
    have hs : f.shortest = ⟨f.neg, 0, 0, false, 0⟩ := by
      unfold Float64.shortest
      rw [hsd]
      rfl
    unfold encodeFloat
    rw [if_neg (fun h => h.1 hm)]
    unfold FormatFloat
    simp only
    rw [if_neg (by decide), hsd, hs]
    have : fmtF f.neg [] 0 = (if f.neg then ['-'] else []) ++ ['0'] := by
      cases f.neg <;> rfl
    rw [this, List.append_assoc, List.cons_append, lex_sign_zero]
    rfl
  · obtain ⟨c, n, q, z, h1, h2, _, h4, h5, hq, _, hsd, hlen⟩ :=
      shortestDecimal_form f.mant f.exp hm
    obtain ⟨b1, b2⟩ := decimalPoint_bounds f.mant f.exp hm h53 he
    obtain ⟨l1, l2⟩ := toDigits_length_between c n h1 h4 h5
    have hval : ∀ m : NumLit, m.neg = f.neg →
        (m.mant : ℚ) * 10 ^ m.exponent = (q : ℚ) * 10 ^
          ((shortestDecimal f.mant f.exp).2 - ((Nat.toDigits 10 q).length : Int)) →
        m.sameNumber f.shortest = true := by
      intro m hneg hv
      rw [sameNumber_iff]
      refine ⟨?_, Or.inl hneg⟩
      rw [hv, exponent_shortest]
      have : f.shortest.mant = q := by
        unfold Float64.shortest
        simp only
        rw [hsd]
        exact digitsNat_toDigits q
      rw [this, hsd]
    unfold encodeFloat
    split
    · unfold FormatFloat
      simp only [if_true]
      have ha : ((shortestDecimal f.mant f.exp).2 - 1).natAbs < 1000 := by
        rw [hsd]
        simp only
        omega
      rw [hsd] at ha ⊢
      simp only at ha ⊢
      obtain ⟨m, hl, hneg, hv⟩ := lex_fmtE f.neg q hq _ ha
      refine ⟨m, hl, hval m hneg ?_⟩
      rw [hv, hsd]
    · unfold FormatFloat
      simp only
      rw [if_neg (by decide), hsd]
      simp only
      obtain ⟨m, hl, hneg, hv⟩ := lex_fmtF f.neg q hq
        (decimalPoint (f.mant * 2 ^ f.exp) (2 ^ expBias) + (z : Int) +
          ((Nat.toDigits 10 q).length : Int) - (n : Int))
      refine ⟨m, hl, hval m hneg ?_⟩
      rw [hv, hsd]

/-! ## Numbers of at most 15 significant digits -/

theorem readExponent_small (ex : Nat) (h : ex < 100000) : readExponent ex = ex := by
  unfold readExponent
  induction ex using Nat.strong_induction_on with
  | _ n ih =>
    by_cases h10 : n < 10
    · rw [toDigits_lt n h10]
      simp [digitChar_toNat n h10]
    · rw [toDigits_step n (by omega), List.foldl_append, ih (n / 10) (by omega) (by omega)]
      simp only [List.foldl_cons, List.foldl_nil]
      rw [if_pos (by omega), digitChar_toNat _ (Nat.mod_lt _ (by decide))]
      omega

theorem readFraction_eq (n : NumLit) (h : n.ex < 100000) : n.readFraction = n.fraction := by
  unfold NumLit.readFraction NumLit.fraction
  simp only [readExponent_small n.ex h]

/-- The loop of `readFloat` run on the exponent digits as they are written,
leading zeros included, gives what `readExponent` gives for their value. -/
theorem readExponent_of_digits (ds : List Char) (h : ∀ c ∈ ds, IsDigit c) :
    ds.foldl (fun e c => if e < 10000 then e * 10 + (c.toNat - 48) else e) 0 =
      readExponent (digitsNat ds) := by
  induction ds using List.reverseRecOn with
  | nil => rfl
  | append_singleton init c ih =>
    obtain ⟨d, hd, hc⟩ := h c (by simp)
    subst hc
    have hinit : ∀ x ∈ init, IsDigit x := fun x hx => h x (by simp [hx])
    unfold digitsNat at ih ⊢
    rw [List.foldl_append, ih hinit, digitsFrom_append]
    simp only [List.foldl_cons, List.foldl_nil, digitsFrom]
    rw [digitChar_toNat d hd]
    generalize List.foldl (fun a c => a * 10 + (c.toNat - 48)) 0 init = v
    by_cases hv : v = 0
    · subst hv
      have e0 : readExponent 0 = 0 := readExponent_zero
      rw [e0]
      simp only [Nat.zero_mul, Nat.zero_add]
      unfold readExponent
      rw [toDigits_lt d hd]
      simp [digitChar_toNat d hd]
    · conv_rhs => rw [readExponent, toDigits_step (v * 10 + d) (by omega), List.foldl_append]
      have e1 : (v * 10 + d) / 10 = v := by omega
      have e2 : (v * 10 + d) % 10 = d := by omega
      rw [e1, e2]
      simp only [List.foldl_cons, List.foldl_nil]
      rw [digitChar_toNat d hd]
      rfl

theorem spacing_const : (10 : ℚ) ^ 15 < 2 ^ 52 - 1 / 2 := by norm_num

/-- Two different decimals of at most 15 significant digits, both in the
range where a unit in the last place of the `float64` format is `u`, are
more than `u` apart. -/
theorem decimal_spacing_aux (a1 a2 : Nat) (k1 k2 : Int) (u : ℚ) (hu : 0 < u) (hk : k1 ≤ k2)
    (ha1 : a1 ≤ 10 ^ 15) (hb1 : (2 ^ 52 - 1 / 2) * u ≤ (a1 : ℚ) * 10 ^ k1)
    (hne : (a1 : ℚ) * 10 ^ k1 ≠ (a2 : ℚ) * 10 ^ k2) :
    u < |(a1 : ℚ) * 10 ^ k1 - (a2 : ℚ) * 10 ^ k2| := by
  have hP : (0 : ℚ) < 10 ^ k1 := by positivity
  obtain ⟨t, ht⟩ := Int.eq_ofNat_of_zero_le (show 0 ≤ k2 - k1 by omega)
  have hk2 : k2 = (t : Int) + k1 := by omega
  have e2 : (10 : ℚ) ^ k2 = 10 ^ t * 10 ^ k1 := by
    rw [hk2, zpow_add₀ (by norm_num), zpow_natCast]
  have hD : (a1 : ℚ) * 10 ^ k1 - (a2 : ℚ) * 10 ^ k2 =
      (((a1 : Int) - (a2 : Int) * 10 ^ t : Int) : ℚ) * 10 ^ k1 := by
    rw [e2]
    push_cast
    ring
  have hz : ((a1 : Int) - (a2 : Int) * 10 ^ t) ≠ 0 := by
    intro h0
    apply hne
    have : (a1 : ℚ) * 10 ^ k1 - (a2 : ℚ) * 10 ^ k2 = 0 := by
      rw [hD, h0]
      simp
    linarith
  have habs : (1 : ℚ) ≤ |(((a1 : Int) - (a2 : Int) * 10 ^ t : Int) : ℚ)| := by
    have := Int.one_le_abs hz
    rw [← Int.cast_abs]
    exact_mod_cast this
  rw [hD, abs_mul, abs_of_pos hP]
  have hPu : u < 10 ^ k1 := by
    have h1 : (a1 : ℚ) * 10 ^ k1 ≤ 10 ^ 15 * 10 ^ k1 := by
      apply mul_le_mul_of_nonneg_right _ (le_of_lt hP)
      exact_mod_cast ha1
    have h2 : (2 ^ 52 - 1 / 2) * u ≤ 10 ^ 15 * 10 ^ k1 := le_trans hb1 h1
    have h3 := spacing_const
    by_contra hc
    have hc' : (10 : ℚ) ^ k1 ≤ u := not_lt.mp hc
    have h4 : (10 : ℚ) ^ 15 * 10 ^ k1 ≤ 10 ^ 15 * u :=
      mul_le_mul_of_nonneg_left hc' (by positivity)
    have h5 : (10 : ℚ) ^ 15 * u < (2 ^ 52 - 1 / 2) * u := mul_lt_mul_of_pos_right h3 hu
    linarith
  calc u < 10 ^ k1 := hPu
    _ = 1 * 10 ^ k1 := by ring
    _ ≤ |(((a1 : Int) - (a2 : Int) * 10 ^ t : Int) : ℚ)| * 10 ^ k1 :=
      mul_le_mul_of_nonneg_right habs (le_of_lt hP)

theorem decimal_spacing (a1 a2 : Nat) (k1 k2 : Int) (u : ℚ) (hu : 0 < u)
    (ha1 : a1 ≤ 10 ^ 15) (ha2 : a2 ≤ 10 ^ 15)
    (hb1 : (2 ^ 52 - 1 / 2) * u ≤ (a1 : ℚ) * 10 ^ k1)
    (hb2 : (2 ^ 52 - 1 / 2) * u ≤ (a2 : ℚ) * 10 ^ k2)
    (hne : (a1 : ℚ) * 10 ^ k1 ≠ (a2 : ℚ) * 10 ^ k2) :
    u < |(a1 : ℚ) * 10 ^ k1 - (a2 : ℚ) * 10 ^ k2| := by
  by_cases hk : k1 ≤ k2
  · exact decimal_spacing_aux a1 a2 k1 k2 u hu hk ha1 hb1 hne
  · rw [abs_sub_comm]
    exact decimal_spacing_aux a2 a1 k2 k1 u hu (by omega) ha2 hb2 (Ne.symm hne)

theorem roundBinary_of_val (num1 den1 num2 den2 : Nat) (h1 : 0 < den1) (h2 : 0 < den2)
    (h : (num1 : ℚ) / den1 = (num2 : ℚ) / den2) : roundBinary num1 den1 = roundBinary num2 den2 := by
  apply roundBinary_congr _ _ _ _ h1 h2
  have h1' : (den1 : ℚ) ≠ 0 := by exact_mod_cast h1.ne'
  have h2' : (den2 : ℚ) ≠ 0 := by exact_mod_cast h2.ne'
  rw [div_eq_div_iff h1' h2'] at h
  exact_mod_cast h

/-- A decimal that rounds to the `float64` `(m, s)` is within half a unit in
the last place of its value. -/
theorem near_of_roundBinary (num den m s : Nat) (hden : 0 < den)
    (h : roundBinary num den = (m, s)) :
    |(num : ℚ) / den - (m : ℚ) * 2 ^ s / 2 ^ expBias| ≤ 2 ^ s / 2 ^ expBias / 2 := by
  have hn := roundBinary_near num den hden
  rw [h] at hn
  simp only at hn
  have hp : (0 : ℚ) < 2 ^ expBias := by positivity
  have e : (num : ℚ) / den - (m : ℚ) * 2 ^ s / 2 ^ expBias =
      ((num : ℚ) / den * 2 ^ expBias - m * 2 ^ s) / 2 ^ expBias := by
    field_simp
  rw [e, abs_div, abs_of_pos hp, div_le_iff₀ hp]
  have e2 : (2 : ℚ) ^ s / 2 ^ expBias / 2 * 2 ^ expBias = 2 ^ s / 2 := by
    field_simp
    ring
  rw [e2]
  exact hn

theorem readsBack_val (m s c : Nat) (k : Int) (h : readsBack m s c k = true) :
    |(c : ℚ) * 10 ^ k - (m : ℚ) * 2 ^ s / 2 ^ expBias| ≤ 2 ^ s / 2 ^ expBias / 2 := by
  unfold readsBack at h
  simp only [beq_iff_eq] at h
  have hp := scaleDec_pos c 1 k (by decide)
  have hv := scaleDec_val c 1 k (by decide)
  have := near_of_roundBinary _ _ m s hp h
  rw [hv] at this
  simpa using this

theorem ten15_lt : (10 : ℚ) ^ 15 / 2 ^ 53 < 1 := by norm_num

/-- The shortest decimal of the `float64` nearest to a decimal of at most 15
significant digits, in the range of the normal numbers, is that decimal. -/
theorem shortest_of_decimal (neg : Bool) (m s a : Nat) (k : Int) (num den : Nat)
    (hden : 0 < den) (hm : 2 ^ 52 ≤ m) (ha : a < 10 ^ 15)
    (hval : (num : ℚ) / den = (a : ℚ) * 10 ^ k) (hrb : roundBinary num den = (m, s)) :
    ((⟨neg, m, s⟩ : Float64).shortest.mant : ℚ) * 10 ^ (⟨neg, m, s⟩ : Float64).shortest.exponent =
      (a : ℚ) * 10 ^ k := by
  have hm0 : m ≠ 0 := by
    have : 0 < 2 ^ 52 := Nat.pow_pos (by decide)
    omega
  have hpB : (0 : ℚ) < 2 ^ expBias := by positivity
  -- the unit in the last place and the value of the float64
  have hu : (0 : ℚ) < 2 ^ s / 2 ^ expBias := by positivity
  have hnear := near_of_roundBinary num den m s hden hrb
  rw [hval] at hnear
  have hvu : (m : ℚ) * 2 ^ s / 2 ^ expBias = m * (2 ^ s / 2 ^ expBias) := by ring
  have hm52 : (2 : ℚ) ^ 52 ≤ m := by exact_mod_cast hm
  generalize hU : (2 : ℚ) ^ s / 2 ^ expBias = u at hu hnear hvu
  have hvge : (2 : ℚ) ^ 52 * u ≤ (m : ℚ) * 2 ^ s / 2 ^ expBias := by
    rw [hvu]
    exact mul_le_mul_of_nonneg_right hm52 (le_of_lt hu)
  obtain ⟨hn1, hn2⟩ := abs_le.mp hnear
  have hdge : (2 ^ 52 - 1 / 2) * u ≤ (a : ℚ) * 10 ^ k := by linarith
  -- the decimal point
  have hN : 0 < m * 2 ^ s := Nat.mul_pos (Nat.pos_of_ne_zero hm0) (Nat.pow_pos (by decide))
  have hD : 0 < 2 ^ expBias := Nat.pow_pos (by decide)
  obtain ⟨d1, d2⟩ := decimalPoint_spec _ _ hN hD
  have hcast : ((m * 2 ^ s : Nat) : ℚ) / ((2 ^ expBias : Nat) : ℚ) =
      (m : ℚ) * 2 ^ s / 2 ^ expBias := by push_cast; rfl
  rw [hcast] at d1 d2
  obtain ⟨c, n, hn1', hn17, hsf, hc1, hc2, hsv⟩ := shortest_value ⟨neg, m, s⟩ hm0
  simp only at hsf hsv
  rw [hsv]
  have hspec := shortestFrom_spec m s (decimalPoint (m * 2 ^ s) (2 ^ expBias)) 16 1
  rw [hsf] at hspec
  simp only at hspec
  obtain ⟨_, _, _, hfound⟩ := hspec
  generalize hdp : decimalPoint (m * 2 ^ s) (2 ^ expBias) = dp at d1 d2 hsf hsv hfound ⊢
  generalize hV : (m : ℚ) * 2 ^ s / 2 ^ expBias = v at d1 d2 hnear hvge hn1 hn2 hcast hvu
  have h10k : (0 : ℚ) < 10 ^ k := by positivity
  -- the decimal point is at most 15 places after the last digit
  have hdpk : dp ≤ 15 + k := by
    by_contra hc
    have hle : 15 + k ≤ dp - 1 := by omega
    have hP : (10 : ℚ) ^ (15 + k) ≤ v :=
      le_trans (zpow_le_zpow_right₀ (by norm_num) hle) d1
    have hlt : (a : ℚ) * 10 ^ k < 10 ^ (15 + k) := by
      rw [zpow_add₀ (by norm_num)]
      apply mul_lt_mul_of_pos_right _ h10k
      have : ((15 : Nat) : Int) = 15 := rfl
      rw [← this, zpow_natCast]
      exact_mod_cast ha
    have hsp := decimal_spacing a 1 k (15 + k) u hu (le_of_lt ha)
      (Nat.one_le_pow _ _ (by decide)) hdge (by
        rw [Nat.cast_one, one_mul]
        linarith) (by
        rw [Nat.cast_one, one_mul]
        exact ne_of_lt hlt)
    rw [Nat.cast_one, one_mul, abs_sub_comm, abs_of_pos (by linarith)] at hsp
    linarith
  -- the decimal written with 15 digits
  obtain ⟨e, he⟩ := Int.eq_ofNat_of_zero_le (show 0 ≤ 15 + k - dp by omega)
  have hcstar : ((a * 10 ^ e : Nat) : ℚ) * 10 ^ (dp - ((15 : Nat) : Int)) = (a : ℚ) * 10 ^ k := by
    push_cast
    rw [mul_assoc, ← zpow_natCast, ← zpow_add₀ (by norm_num)]
    congr 2
    omega
  have hrb15 : readsBack m s (a * 10 ^ e) (dp - ((15 : Nat) : Int)) = true := by
    unfold readsBack
    simp only [beq_iff_eq]
    rw [← hrb]
    apply roundBinary_of_val _ _ _ _ (scaleDec_pos _ _ _ (by decide)) hden
    rw [scaleDec_val _ _ _ (by decide), hval, ← hcstar]
    simp
  have hlo15 : a * 10 ^ e = lowerDecimal m s dp 15 ∨ a * 10 ^ e = lowerDecimal m s dp 15 + 1 := by
    unfold lowerDecimal
    have hp := scaleDec_pos (m * 2 ^ s) (2 ^ expBias) (((15 : Nat) : Int) - dp) hD
    have hv := scaleDec_val (m * 2 ^ s) (2 ^ expBias) (((15 : Nat) : Int) - dp) hD
    rw [hcast] at hv
    have f1 := floor_le_rat (scaleDec (m * 2 ^ s) (2 ^ expBias) (((15 : Nat) : Int) - dp)).1
      (scaleDec (m * 2 ^ s) (2 ^ expBias) (((15 : Nat) : Int) - dp)).2
    have f2 := lt_floor_add_one (scaleDec (m * 2 ^ s) (2 ^ expBias) (((15 : Nat) : Int) - dp)).1
      (scaleDec (m * 2 ^ s) (2 ^ expBias) (((15 : Nat) : Int) - dp)).2 hp
    rw [hv] at f1 f2
    generalize (scaleDec (m * 2 ^ s) (2 ^ expBias) (((15 : Nat) : Int) - dp)).1 /
      (scaleDec (m * 2 ^ s) (2 ^ expBias) (((15 : Nat) : Int) - dp)).2 = lo at f1 f2 ⊢
    -- the scaled difference is below 1
    have hsc : (0 : ℚ) < 10 ^ (((15 : Nat) : Int) - dp) := by positivity
    have hprod : (10 : ℚ) ^ dp * 10 ^ (((15 : Nat) : Int) - dp) = 10 ^ 15 := by
      rw [← zpow_add₀ (by norm_num)]
      have : dp + (((15 : Nat) : Int) - dp) = ((15 : Nat) : Int) := by omega
      rw [this, zpow_natCast]
    have hcs : ((a * 10 ^ e : Nat) : ℚ) = (a : ℚ) * 10 ^ k * 10 ^ (((15 : Nat) : Int) - dp) := by
      rw [← hcstar, mul_assoc, ← zpow_add₀ (by norm_num)]
      have : dp - ((15 : Nat) : Int) + (((15 : Nat) : Int) - dp) = 0 := by omega
      rw [this, zpow_zero, mul_one]
    have hub : u * 10 ^ (((15 : Nat) : Int) - dp) < 2 := by
      have h1 : (2 : ℚ) ^ 52 * u < 10 ^ dp := lt_of_le_of_lt hvge d2
      have h2 : (2 : ℚ) ^ 52 * u * 10 ^ (((15 : Nat) : Int) - dp) < 10 ^ 15 := by
        rw [← hprod]
        exact mul_lt_mul_of_pos_right h1 hsc
      have h3 : (10 : ℚ) ^ 15 < 2 * 2 ^ 52 := by norm_num
      have h4 : u * 10 ^ (((15 : Nat) : Int) - dp) * 2 ^ 52 < 2 * 2 ^ 52 := by
        have e4 : u * 10 ^ (((15 : Nat) : Int) - dp) * 2 ^ 52 =
            2 ^ 52 * u * 10 ^ (((15 : Nat) : Int) - dp) := by ring
        rw [e4]
        exact lt_trans h2 h3
      exact lt_of_mul_lt_mul_right h4 (by positivity)
    generalize (10 : ℚ) ^ (((15 : Nat) : Int) - dp) = X at hsc hcs hub f1 f2
    have hd1 : v * X - ((a * 10 ^ e : Nat) : ℚ) < 1 := by
      rw [hcs, ← sub_mul]
      have h5 : (v - (a : ℚ) * 10 ^ k) * X ≤ u / 2 * X :=
        mul_le_mul_of_nonneg_right (by linarith) (le_of_lt hsc)
      have h6 : u / 2 * X = u * X / 2 := by ring
      rw [h6] at h5
      linarith
    have hd2 : ((a * 10 ^ e : Nat) : ℚ) - v * X < 1 := by
      rw [hcs, ← sub_mul]
      have h5 : ((a : ℚ) * 10 ^ k - v) * X ≤ u / 2 * X :=
        mul_le_mul_of_nonneg_right (by linarith) (le_of_lt hsc)
      have h6 : u / 2 * X = u * X / 2 := by ring
      rw [h6] at h5
      linarith
    have g1 : (lo : ℚ) < ((a * 10 ^ e : Nat) : ℚ) + 1 := by linarith
    have g2 : ((a * 10 ^ e : Nat) : ℚ) < (lo : ℚ) + 1 + 1 := by linarith
    have g1' : lo < a * 10 ^ e + 1 := by exact_mod_cast g1
    have g2' : a * 10 ^ e < lo + 1 + 1 := by exact_mod_cast g2
    omega
  have hsome := shortestAt_isSome m s dp 15 (a * 10 ^ e) hlo15 hrb15
  obtain ⟨hn15, hreads⟩ := hfound 15 (by decide) (by decide) hsome
  -- the decimal found reads back, so it is the decimal we started from
  have hw := readsBack_val m s c (dp - (n : Int)) hreads
  rw [hV, hU] at hw
  obtain ⟨hw1, hw2⟩ := abs_le.mp hw
  by_contra hne
  have hc15 : c ≤ 10 ^ 15 := le_trans hc2 (Nat.pow_le_pow_right (by decide) hn15)
  have hsp := decimal_spacing c a (dp - (n : Int)) k u hu hc15 (le_of_lt ha) (by linarith) hdge hne
  have : |(c : ℚ) * 10 ^ (dp - (n : Int)) - (a : ℚ) * 10 ^ k| ≤ u := by
    rw [abs_le]
    constructor <;> linarith
  linarith

theorem ParseFloat_some (n : NumLit) (f : Float64) (h : ParseFloat n = some f) :
    f = ⟨n.neg, (roundBinary n.readFraction.1 n.readFraction.2).1,
      (roundBinary n.readFraction.1 n.readFraction.2).2⟩ ∧
      (roundBinary n.readFraction.1 n.readFraction.2).2 ≤ 2045 := by
  unfold ParseFloat at h
  simp only at h
  split at h
  · exact Option.noConfusion h
  · next hle =>
    simp only [Option.some.injEq] at h
    exact ⟨h.symm, by omega⟩

theorem readFraction_pos (n : NumLit) : 0 < n.readFraction.2 := by
  unfold NumLit.readFraction
  simp only
  split_ifs <;> simp

/-- A `float64` that `ParseFloat` returns has a mantissa below `2 ^ 53` and
an exponent of at most 2045. -/
theorem ParseFloat_bounds (n : NumLit) (f : Float64) (h : ParseFloat n = some f) :
    f.mant < 2 ^ 53 ∧ f.exp ≤ 2045 ∧ f.neg = n.neg := by
  obtain ⟨hf, hle⟩ := ParseFloat_some n f h
  obtain ⟨h1, _⟩ := roundBinary_spec n.readFraction.1 n.readFraction.2 (readFraction_pos n)
  subst hf
  exact ⟨h1, hle, rfl⟩

theorem roundBinary_zero_num (den : Nat) (hden : 0 < den) : roundBinary 0 den = (0, 0) := by
  rw [roundBinary_congr 0 den 0 1 hden (by decide) (by simp), roundBinary_zero]

theorem range_const : (10 : ℚ) ^ 307 * (2 ^ 53 + 1 / 2) < 2 ^ 1074 := by norm_num

theorem mant_split (mant : Nat) (h0 : mant ≠ 0) (h : mant % 10 ^ (decLen mant - 15) = 0) :
    mant = mant / 10 ^ (decLen mant - 15) * 10 ^ (decLen mant - 15) ∧
      mant / 10 ^ (decLen mant - 15) < 10 ^ 15 := by
  obtain ⟨_, b, _⟩ := decLen_spec mant h0
  have hp : 0 < 10 ^ (decLen mant - 15) := Nat.pow_pos (by decide)
  constructor
  · have := Nat.div_add_mod mant (10 ^ (decLen mant - 15))
    rw [h] at this
    rw [Nat.mul_comm]
    omega
  · rw [Nat.div_lt_iff_lt_mul hp, ← pow_add]
    exact lt_of_lt_of_le b (Nat.pow_le_pow_right (by decide) (by omega))

set_option exponentiation.threshold 3000 in
/-- A number of at most 15 significant digits that is zero or at least
`1e-307` comes back from `float64` as the same number. -/
theorem fewDigits_roundTrips (n : NumLit) (f : Float64) (hf : ParseFloat n = some f)
    (h : n.fewDigits) : n.sameNumber f.shortest = true := by
  obtain ⟨hex, hcase⟩ := h
  obtain ⟨hfe, _⟩ := ParseFloat_some n f hf
  rw [readFraction_eq n hex] at hfe
  have hden := fraction_pos n
  have hval := fraction_val n
  rw [sameNumber_iff]
  by_cases hm0 : n.mant = 0
  · have h1 : n.fraction.1 = 0 := (fraction_fst_eq_zero n).mpr hm0
    rw [h1, roundBinary_zero_num _ hden] at hfe
    subst hfe
    refine ⟨?_, Or.inr hm0⟩
    rw [hm0]
    have : (⟨n.neg, 0, 0⟩ : Float64).shortest.mant = 0 := by
      unfold Float64.shortest shortestDecimal
      rfl
    rw [this]
    simp
  · rcases hcase with hc | ⟨hdig, hrange⟩
    · exact absurd hc hm0
    · obtain ⟨hsplit, ha⟩ := mant_split n.mant hm0 hdig
      generalize n.mant / 10 ^ (decLen n.mant - 15) = a at hsplit ha
      generalize decLen n.mant - 15 = t at hsplit
      have hval2 : (n.fraction.1 : ℚ) / n.fraction.2 = (a : ℚ) * 10 ^ ((t : Int) + n.exponent) := by
        rw [hval, hsplit, zpow_add₀ (by norm_num), zpow_natCast]
        push_cast
        ring
      obtain ⟨r1, r2, _, _⟩ := roundBinary_spec n.fraction.1 n.fraction.2 hden
      have hnear := roundBinary_near n.fraction.1 n.fraction.2 hden
      generalize hrb : roundBinary n.fraction.1 n.fraction.2 = r at hfe r1 r2 hnear
      obtain ⟨m, s⟩ := r
      simp only at hfe r1 r2 hnear
      -- the float64 is a normal number
      have hs : 0 < s := by
        by_contra hc
        have hs0 : s = 0 := by omega
        subst hs0
        simp only [pow_zero, mul_one] at hnear
        have hd' : (0 : ℚ) < n.fraction.2 := by exact_mod_cast hden
        have hr : (1 : ℚ) ≤ (n.fraction.1 : ℚ) / n.fraction.2 * 10 ^ 307 := by
          rw [div_mul_eq_mul_div, le_div_iff₀ hd', one_mul]
          have hq : ((n.fraction.2 : Nat) : ℚ) ≤ ((n.fraction.1 * 10 ^ 307 : Nat) : ℚ) :=
            Nat.cast_le.mpr hrange
          rw [Nat.cast_mul, Nat.cast_pow, Nat.cast_ofNat] at hq
          exact hq
        have hm53 : (m : ℚ) < 2 ^ 53 := by exact_mod_cast r1
        have hx := (abs_le.mp hnear).2
        have hB : ((2 : ℚ) ^ expBias) = 2 ^ 1074 := by rw [expBias_eq]
        rw [hB] at hx
        have hc1 := range_const
        have h10 : (0 : ℚ) < 10 ^ 307 := by positivity
        have h2 : (n.fraction.1 : ℚ) / n.fraction.2 * 2 ^ 1074 < 2 ^ 53 + 1 / 2 := by linarith
        have h3 : (n.fraction.1 : ℚ) / n.fraction.2 * 10 ^ 307 * 2 ^ 1074 <
            10 ^ 307 * (2 ^ 53 + 1 / 2) := by
          have := mul_lt_mul_of_pos_left h2 h10
          linarith
        have h4 : (2 : ℚ) ^ 1074 ≤ (n.fraction.1 : ℚ) / n.fraction.2 * 10 ^ 307 * 2 ^ 1074 := by
          have := mul_le_mul_of_nonneg_right hr (show (0 : ℚ) ≤ 2 ^ 1074 by positivity)
          linarith
        linarith
      have hm52 := r2 hs
      have hsv := shortest_of_decimal n.neg m s a ((t : Int) + n.exponent) n.fraction.1
        n.fraction.2 hden hm52 ha hval2 hrb
      subst hfe
      refine ⟨?_, Or.inl rfl⟩
      rw [hsv, ← hval2, hval]

/-- An integer below `2 ^ 53` written with digits only comes back from
`float64` as the same number. -/
theorem safeInteger_roundTrips (n : NumLit) (f : Float64) (hf : ParseFloat n = some f)
    (h : n.isSafeInteger) : n.sameNumber f.shortest = true := by
  obtain ⟨neg, mant, scale, eneg, ex⟩ := n
  obtain ⟨hs1, hs2, hs3, hs4⟩ := h
  simp only at hs1 hs2 hs3 hs4
  subst hs1 hs2 hs3
  obtain ⟨f2, hf2, henc⟩ := ParseFloat_int neg mant hs4
  rw [hf] at hf2
  simp only [Option.some.injEq] at hf2
  subst hf2
  obtain ⟨b1, b2, _⟩ := ParseFloat_bounds _ _ hf
  obtain ⟨m, hlex, hsame⟩ := lex_encodeFloat f b1 b2
  rw [henc, lex_int neg mant] at hlex
  simp only [Option.some.injEq, List.cons.injEq, Token.num.injEq, and_true] at hlex
  rw [hlex]
  exact hsame

theorem mant_zero_of_val (a : NumLit) (h : (a.mant : ℚ) * 10 ^ a.exponent = 0) : a.mant = 0 := by
  have hp : (10 : ℚ) ^ a.exponent ≠ 0 := by positivity
  rcases mul_eq_zero.mp h with h1 | h1
  · exact_mod_cast h1
  · exact absurd h1 hp

/-- Literals that denote the same number may replace one another in a
comparison. -/
theorem sameNumber_congr (n m s : NumLit) (h : m.sameNumber s = true) :
    n.sameNumber m = n.sameNumber s := by
  rw [sameNumber_iff] at h
  obtain ⟨hv, hsg⟩ := h
  rw [Bool.eq_iff_iff, sameNumber_iff, sameNumber_iff, hv]
  constructor
  · rintro ⟨h1, h2⟩
    refine ⟨h1, ?_⟩
    rcases h2 with h2 | h2
    · rcases hsg with h3 | h3
      · exact Or.inl (h2.trans h3)
      · right
        apply mant_zero_of_val
        rw [h1, ← hv, h3]
        simp
    · exact Or.inr h2
  · rintro ⟨h1, h2⟩
    refine ⟨h1, ?_⟩
    rcases h2 with h2 | h2
    · rcases hsg with h3 | h3
      · exact Or.inl (h2.trans h3.symm)
      · right
        apply mant_zero_of_val
        rw [h1, ← hv, h3]
        simp
    · exact Or.inr h2

/-! ## The id of the response -/

/-- What the encoder writes for the decoded id, followed by the closing
brace, is scanned as one token: `null` for `null`, the same string for a
string, and for a number a number that denotes the shortest decimal of its
`float64`. -/
theorem id_echo (J : Json) (ID : GoVal) (hv : valueInterface J = some ID) :
    (J = .null → lexFrom .start (encodeValue ID ++ ['\x7d']) = some [.nul, .rbrace]) ∧
      (∀ s, J = .str s → lexFrom .start (encodeValue ID ++ ['\x7d']) = some [.str s, .rbrace]) ∧
      ∀ n, J = .num n → ∃ f m, ParseFloat n = some f ∧
        lexFrom .start (encodeValue ID ++ ['\x7d']) = some [.num m, .rbrace] ∧
        m.sameNumber f.shortest = true := by
  refine ⟨?_, ?_, ?_⟩
  · intro h
    subst h
    simp only [valueInterface, Option.some.injEq] at hv
    subst hv
    rfl
  · intro s h
    subst h
    simp only [valueInterface, Option.some.injEq] at hv
    subst hv
    simp only [encodeValue]
    rw [lex_quote_map]
    rfl
  · intro n h
    subst h
    simp only [valueInterface, convertNumber] at hv
    cases hf : ParseFloat n with
    | none => simp [hf] at hv
    | some f =>
      simp only [hf, Option.some.injEq] at hv
      subst hv
      obtain ⟨b1, b2, _⟩ := ParseFloat_bounds n f hf
      obtain ⟨m, hlex, hsame⟩ := lex_encodeFloat f b1 b2
      exact ⟨f, m, rfl, by simpa only [encodeValue] using hlex, hsame⟩

/-- The id of the response to the request `j`, read back. -/
theorem responseId_of_request (now : Clock) (text out : String) (j : Json)
    (hout : handleLine now text = some out)
    (hj : parseJson (TrimSpace text).data = some j) :
    (storedIdJson j = .null → responseIdJson out = some .null) ∧
      (∀ s, storedIdJson j = .str s → responseIdJson out = some (.str s)) ∧
      ∀ n, storedIdJson j = .num n → ∃ f m, ParseFloat n = some f ∧
        responseIdJson out = some (.num m) ∧ m.sameNumber f.shortest = true := by
  rw [handleLine_eq] at hout
  unfold Unmarshal at hout
  rw [hj] at hout
  simp only at hout
  cases hdec : decodeRequest j with
  | none => simp [hdec] at hout
  | some req =>
    rw [hdec] at hout
    simp only [Option.map_some', Option.some.injEq] at hout
    obtain ⟨e1, e2, e3⟩ := id_echo _ _ (decodeRequest_ID j req hdec)
    obtain ⟨k, r, hk, hfields⟩ := respond_fields now req
    have hresp : ∀ (T : Token) (J : Json),
        lexFrom .start (encodeValue req.ID ++ ['\x7d']) = some [T, .rbrace] →
        ((T = .nul ∧ J = .null) ∨ (∃ s, T = .str s ∧ J = .str s) ∨
          (∃ n, T = .num n ∧ J = .num n)) → responseIdJson out = some J := by
      intro T J hlex hT
      rw [← hout]
      unfold Marshal
      rw [hfields]
      exact responseIdJson_Marshal k r hk req.ID T J hlex hT
    refine ⟨?_, ?_, ?_⟩
    · intro h
      exact hresp .nul .null (e1 h) (Or.inl ⟨rfl, rfl⟩)
    · intro s h
      exact hresp (.str s) (.str s) (e2 s h) (Or.inr (Or.inl ⟨s, rfl, rfl⟩))
    · intro n h
      obtain ⟨f, m, hf, hlex, hsame⟩ := e3 n h
      exact ⟨f, m, hf, hresp (.num m) (.num m) hlex (Or.inr (Or.inr ⟨m, rfl, rfl⟩)), hsame⟩

/-! ## The claims -/

/-- C1. For every input line that decodes to a request whose method is none
of `InsertDateTime`, `InsertDate`, `GetCurrentTime` (the empty method
included), the loop body prints exactly one line, the encoding of a
response that has no result (the field is nil and is not written), whose
error is the text `Unknown method: ` followed by the method as it was
decoded, and whose id is the id of the request. -/
theorem unknown_method_error_response (now : Clock) (text : String) (req : Request)
    (hreq : Unmarshal (TrimSpace text) = some req) (hm : ¬ knownMethod req.Method) :
    handleLine now text = some (Marshal (respond now req)) ∧
      (respond now req).Result = .nil ∧
      (respond now req).Error = .string ("Unknown method: " ++ req.Method) ∧
      (respond now req).ID = req.ID ∧
      (respond now req).fields =
        [("error", quote ("Unknown method: " ++ req.Method)), ("id", encodeValue req.ID)] := by
  refine ⟨by simp [handleLine_eq, hreq], ?_⟩
  rw [respond_unknown now req hm]
  simp [Response.fields, omitEmpty, encodeValue]

unseal expBias roundBinary in
set_option maxRecDepth 100000 in
set_option exponentiation.threshold 3000 in
/-- The second example scenario of the specification: the unknown method
`Bogus` with id 5. -/
theorem unknown_method_error_response_witness :
    handleLine sampleClock "\x7b\"method\":\"Bogus\",\"id\":5\x7d" =
      some "\x7b\"error\":\"Unknown method: Bogus\",\"id\":5\x7d" := by
  have h := unknown_method_error_response sampleClock "\x7b\"method\":\"Bogus\",\"id\":5\x7d"
    ⟨"Bogus", none, .float64 ⟨false, 5629499534213120, 1024⟩⟩ rfl (by decide)
  rw [h.1]
  rfl

/-- C4. Every line the loop body prints (so every line `main` emits) is the
encoding of the response to the decoded request, an object with exactly
two members: `result` and `id` when the method is one of the three known
ones, `error` and `id` otherwise. The member that is present holds a string
literal, the other one is not written at all, and `id` is always
written. -/
theorem response_keys (now : Clock) (text out : String) (h : handleLine now text = some out) :
    ∃ req : Request, Unmarshal (TrimSpace text) = some req ∧
      out = Marshal (respond now req) ∧
      ((knownMethod req.Method ∧ ∃ r : String,
          (respond now req).fields = [("result", quote r), ("id", encodeValue req.ID)] ∧
          out.data = "\x7b\"result\":".data ++ quote r ++ ",\"id\":".data ++
            encodeValue req.ID ++ "\x7d".data) ∨
        (¬ knownMethod req.Method ∧ ∃ r : String,
          (respond now req).fields = [("error", quote r), ("id", encodeValue req.ID)] ∧
          out.data = "\x7b\"error\":".data ++ quote r ++ ",\"id\":".data ++
            encodeValue req.ID ++ "\x7d".data)) := by
  rw [handleLine_eq] at h
  cases hu : Unmarshal (TrimSpace text) with
  | none => simp [hu] at h
  | some req =>
    rw [hu] at h
    simp only [Option.map_some', Option.some.injEq] at h
    refine ⟨req, rfl, h.symm, ?_⟩
    by_cases hk : knownMethod req.Method
    · left
      obtain ⟨r, hr⟩ := respond_known now req hk
      refine ⟨hk, r, ?_, ?_⟩
      · simp [hr, Response.fields, omitEmpty, encodeValue]
      · rw [← h, hr]
        simp [Marshal, Response.fields, omitEmpty, encodeValue, renderFields, quote, escapeChars,
          quoteChar]
    · right
      refine ⟨hk, "Unknown method: " ++ req.Method, ?_, ?_⟩
      · simp [respond_unknown now req hk, Response.fields, omitEmpty, encodeValue]
      · rw [← h, respond_unknown now req hk]
        simp [Marshal, Response.fields, omitEmpty, encodeValue, renderFields, quote, escapeChars,
          quoteChar]

set_option maxRecDepth 100000 in
/-- The first example scenario of the specification: `InsertDate` with id
"a" is answered with the members `result` and `id`, and a request without
id with the members `result` and `id`, the id being `null`. -/
theorem response_keys_witness :
    handleLine sampleClock "\x7b\"method\":\"InsertDate\",\"id\":\"a\"\x7d" =
        some "\x7b\"result\":\"2024-01-15\",\"id\":\"a\"\x7d" ∧
      handleLine sampleClock "\x7b\"method\":\"InsertDateTime\"\x7d" =
        some "\x7b\"result\":\"2024-01-15 14:30:00\",\"id\":null\x7d" ∧
      ∃ req : Request,
        Unmarshal (TrimSpace "\x7b\"method\":\"InsertDate\",\"id\":\"a\"\x7d") = some req ∧
        "\x7b\"result\":\"2024-01-15\",\"id\":\"a\"\x7d" = Marshal (respond sampleClock req) :=
  ⟨by decide, by decide,
    (response_keys sampleClock "\x7b\"method\":\"InsertDate\",\"id\":\"a\"\x7d"
      "\x7b\"result\":\"2024-01-15\",\"id\":\"a\"\x7d" (by decide)).imp fun _ h => ⟨h.1, h.2.1⟩⟩

unseal expBias roundBinary in
set_option maxRecDepth 100000 in
set_option exponentiation.threshold 3000 in
/-- C5, as stated, fails. The scanner of `main` keeps its default buffer of
65536 bytes: at a line of 65536 letters `scanner.Scan()` returns false and
the loop ends, so the request on the next line, which decodes and would be
answered on its own, gets no response. -/
theorem too_long_line_drops_later_requests :
    (Unmarshal (TrimSpace "\x7b\"method\":\"InsertDate\",\"id\":1\x7d")).isSome = true ∧
      main [(sampleClock, "\x7b\"method\":\"InsertDate\",\"id\":1\x7d")] =
        ["\x7b\"result\":\"2024-01-15\",\"id\":1\x7d"] ∧
      main [(sampleClock, String.mk (List.replicate 65536 'a')),
        (sampleClock, "\x7b\"method\":\"InsertDate\",\"id\":1\x7d")] = [] :=
  ⟨by rfl, by decide, main_cons_too_long _ _ (fitsBuffer_replicate 'a' (by decide))⟩

/-- C5, amended. For every finite sequence of input lines that are each
shorter than 65536 bytes, `main` emits exactly as many response lines as
there are lines that decode to a request, and they are, in the order of the
input, the responses to these requests, each built at the clock reading of
its line and carrying the id of its request. -/
theorem responses_in_request_order (input : List (Clock × String))
    (hfit : ∀ p ∈ input, fitsBuffer p.2 = true) :
    main input =
        (input.filterMap fun p => (Unmarshal (TrimSpace p.2)).map fun req => (p.1, req)).map
          (fun q => Marshal (respond q.1 q.2)) ∧
      (main input).length =
        (input.filter fun p => (Unmarshal (TrimSpace p.2)).isSome).length ∧
      ∀ (now : Clock) (req : Request), (respond now req).ID = req.ID := by
  have hmain : main input =
      (input.filterMap fun p => (Unmarshal (TrimSpace p.2)).map fun req => (p.1, req)).map
        (fun q => Marshal (respond q.1 q.2)) := by
    rw [main_of_fits input hfit, List.map_filterMap]
    congr 1
    funext p
    rw [handleLine_eq]
    cases Unmarshal (TrimSpace p.2) <;> rfl
  refine ⟨hmain, ?_, respond_ID⟩
  rw [hmain, List.length_map]
  clear hmain hfit
  induction input with
  | nil => rfl
  | cons p rest ih =>
    rw [List.filterMap_cons, List.filter_cons]
    cases h : Unmarshal (TrimSpace p.2) with
    | none => simpa using ih
    | some req => simpa using ih

unseal expBias roundBinary in
set_option maxRecDepth 100000 in
set_option exponentiation.threshold 3000 in
/-- The fifth example scenario of the specification, with a malformed line
between the two requests: two responses, with id 1 and id 2, in that
order. -/
theorem responses_in_request_order_witness :
    main [(sampleClock, "\x7b\"method\":\"GetCurrentTime\",\"id\":1\x7d"),
        (sampleClock, "not json at all"),
        (sampleClock, "\x7b\"method\":\"InsertDate\",\"id\":2\x7d")] =
      ["\x7b\"result\":\"2024-01-15 14:30:00\",\"id\":1\x7d",
        "\x7b\"result\":\"2024-01-15\",\"id\":2\x7d"] := by
  rw [(responses_in_request_order _ (by decide)).1]
  rfl

unseal expBias roundBinary in
set_option maxRecDepth 100000 in
set_option exponentiation.threshold 3000 in
/-- C6, as stated, fails. A line of 65536 spaces is blank after trimming, but
it does not fit the buffer of the scanner: inserted before a request it
ends the loop, and the response to that request is lost. -/
theorem too_long_blank_line_ends_loop :
    TrimSpace (String.mk (List.replicate 65536 ' ')) = "" ∧
      main [(sampleClock, "\x7b\"method\":\"InsertDate\",\"id\":1\x7d")] =
        ["\x7b\"result\":\"2024-01-15\",\"id\":1\x7d"] ∧
      main [(sampleClock, String.mk (List.replicate 65536 ' ')),
        (sampleClock, "\x7b\"method\":\"InsertDate\",\"id\":1\x7d")] = [] := by
  refine ⟨?_, by decide, main_cons_too_long _ _ (fitsBuffer_replicate ' ' (by decide))⟩
  unfold TrimSpace
  rw [trimSpaceChars_replicate_space]

/-- C6, amended. Per-request errors are not fatal. Inserting at any position
a line shorter than 65536 bytes that is blank after trimming or that does
not decode to a request leaves the emitted response lines unchanged.
Inserting, after lines that all fit the buffer, a line shorter than 65536
bytes that decodes to a request with an unknown method adds the error
response of that request at its place and changes no other response. -/
theorem skipped_lines_change_nothing (xs ys : List (Clock × String)) (now : Clock) (raw : String)
    (hfit : fitsBuffer raw = true) :
    ((TrimSpace raw = "" ∨ Unmarshal (TrimSpace raw) = none) →
        main (xs ++ (now, raw) :: ys) = main (xs ++ ys)) ∧
      ∀ req : Request, Unmarshal (TrimSpace raw) = some req → ¬ knownMethod req.Method →
        (∀ p ∈ xs, fitsBuffer p.2 = true) →
        main (xs ++ (now, raw) :: ys) =
            main xs ++ Marshal ⟨.nil, .string ("Unknown method: " ++ req.Method), req.ID⟩ ::
              main ys ∧
          main (xs ++ ys) = main xs ++ main ys := by
  constructor
  · intro h
    apply main_insert_silent xs ys (now, raw) hfit
    show handleLine now raw = none
    rw [handleLine_eq]
    rcases h with h | h
    · simp [h, Unmarshal_empty]
    · simp [h]
  · intro req hreq hm hxs
    refine ⟨?_, main_append_fits xs ys hxs⟩
    rw [main_append_fits xs _ hxs, main_cons_fits _ _ hfit]
    show main xs ++ ((handleLine now raw).toList ++ main ys) = _
    rw [handleLine_eq, hreq, ← respond_unknown now req hm]
    rfl

unseal expBias roundBinary in
set_option maxRecDepth 100000 in
set_option exponentiation.threshold 3000 in
/-- A malformed line between two requests changes nothing, and a request
with an unknown method between them adds its own error response. -/
theorem skipped_lines_change_nothing_witness :
    main ([(sampleClock, "\x7b\"method\":\"GetCurrentTime\",\"id\":1\x7d")] ++
        (sampleClock, "not json at all") ::
          [(sampleClock, "\x7b\"method\":\"InsertDate\",\"id\":2\x7d")]) =
      main ([(sampleClock, "\x7b\"method\":\"GetCurrentTime\",\"id\":1\x7d")] ++
        [(sampleClock, "\x7b\"method\":\"InsertDate\",\"id\":2\x7d")]) ∧
    main ([(sampleClock, "\x7b\"method\":\"GetCurrentTime\",\"id\":1\x7d")] ++
        (sampleClock, "\x7b\"method\":\"Bogus\",\"id\":\"x\"\x7d") ::
          [(sampleClock, "\x7b\"method\":\"InsertDate\",\"id\":2\x7d")]) =
      main [(sampleClock, "\x7b\"method\":\"GetCurrentTime\",\"id\":1\x7d")] ++
        Marshal ⟨.nil, .string ("Unknown method: " ++ "Bogus"), .string "x"⟩ ::
          main [(sampleClock, "\x7b\"method\":\"InsertDate\",\"id\":2\x7d")] :=
  ⟨(skipped_lines_change_nothing _ _ sampleClock "not json at all" (by decide)).1
      (Or.inr (by rfl)),
    ((skipped_lines_change_nothing _ _ sampleClock "\x7b\"method\":\"Bogus\",\"id\":\"x\"\x7d"
      (by decide)).2 ⟨"Bogus", none, .string "x"⟩ (by rfl) (by decide) (by decide)).1⟩

/-- C7. For every line that decodes to a request with method
`InsertDateTime` or `GetCurrentTime`, and every clock reading whose
calendar and time components are in range (a year of four digits, month 1
to 12, day 1 to 31, hour 0 to 23, minute and second 0 to 59), the printed
response has no error, its id is the id of the request, and its result is
a string of 19 characters of the form `YYYY-MM-DD HH:MM:SS` that reads back
as exactly that clock reading. -/
theorem datetime_methods_response (now : Clock) (text : String) (req : Request)
    (hreq : Unmarshal (TrimSpace text) = some req)
    (hm : req.Method = "InsertDateTime" ∨ req.Method = "GetCurrentTime")
    (hd : now.ValidDate) (ht : now.ValidTime) :
    ∃ r : String, handleLine now text = some (Marshal ⟨.string r, .nil, req.ID⟩) ∧
      r.length = 19 ∧ readDateTime r = some now := by
  refine ⟨String.mk (formatDateTime now), ?_, ?_⟩
  · rw [handleLine_eq, hreq]
    simp only [Option.map_some', Option.some.injEq]
    congr 1
    unfold respond
    rcases hm with h | h <;> simp [h, Plugin.InsertDateTime, Plugin.GetCurrentTime]
  · exact readDateTime_formatDateTime now hd ht

unseal expBias roundBinary in
set_option maxRecDepth 100000 in
set_option exponentiation.threshold 3000 in
/-- The request of section 6 of the specification at the sample clock
reading. -/
theorem datetime_methods_response_witness :
    handleLine sampleClock
        "\x7b\"method\": \"InsertDateTime\", \"params\": [], \"id\": 1\x7d" =
      some "\x7b\"result\":\"2024-01-15 14:30:00\",\"id\":1\x7d" ∧
    ∃ r : String,
      handleLine sampleClock
          "\x7b\"method\": \"InsertDateTime\", \"params\": [], \"id\": 1\x7d" =
        some (Marshal ⟨.string r, .nil, .float64 ⟨false, 4503599627370496, 1022⟩⟩) ∧
      r.length = 19 ∧ readDateTime r = some sampleClock :=
  ⟨by decide,
    datetime_methods_response sampleClock
      "\x7b\"method\": \"InsertDateTime\", \"params\": [], \"id\": 1\x7d"
      ⟨"InsertDateTime", some [], .float64 ⟨false, 4503599627370496, 1022⟩⟩ rfl (Or.inl rfl)
      (by decide) (by decide)⟩

/-- C8. For every line that decodes to a request with method `InsertDate`
and every clock reading whose calendar components are in range (a year of
four digits, month 1 to 12, day 1 to 31), the printed response has no
error, and its result is a string of 10 characters of the form
`YYYY-MM-DD` that reads back as the date of that clock reading and is the
first 10 characters of what `InsertDateTime` returns at the same clock
reading. -/
theorem date_method_response (now : Clock) (text : String) (req : Request)
    (hreq : Unmarshal (TrimSpace text) = some req) (hm : req.Method = "InsertDate")
    (hd : now.ValidDate) :
    ∃ r : String, handleLine now text = some (Marshal ⟨.string r, .nil, req.ID⟩) ∧
      r.length = 10 ∧ readDate r = some (now.year, now.month, now.day) ∧
      r.data = (Plugin.InsertDateTime now).data.take 10 := by
  obtain ⟨hlen, hread⟩ := readDate_formatDate now hd
  refine ⟨String.mk (formatDate now), ?_, hlen, hread, ?_⟩
  · rw [handleLine_eq, hreq]
    simp only [Option.map_some', Option.some.injEq]
    congr 1
    unfold respond
    simp [hm, Plugin.InsertDate]
  · show formatDate now = (formatDateTime now).take 10
    unfold formatDateTime
    rw [List.take_append_of_le_length (by omega), List.take_of_length_le (by omega)]

set_option maxRecDepth 100000 in
/-- The first example scenario of the specification at the sample clock
reading. -/
theorem date_method_response_witness :
    handleLine sampleClock "\x7b\"method\":\"InsertDate\",\"id\":\"a\"\x7d" =
      some "\x7b\"result\":\"2024-01-15\",\"id\":\"a\"\x7d" ∧
    ∃ r : String, handleLine sampleClock "\x7b\"method\":\"InsertDate\",\"id\":\"a\"\x7d" =
        some (Marshal ⟨.string r, .nil, .string "a"⟩) ∧
      r.length = 10 ∧ readDate r = some (2024, 1, 15) ∧
      r.data = (Plugin.InsertDateTime sampleClock).data.take 10 :=
  ⟨by decide,
    date_method_response sampleClock "\x7b\"method\":\"InsertDate\",\"id\":\"a\"\x7d"
      ⟨"InsertDate", none, .string "a"⟩ rfl rfl (by decide)⟩

/-- C9. Every line the loop body prints is a single line: whatever the
method and the id of the decoded request contain, the encoded response has
no line feed (and no carriage return) in it, so with the line feed that
`fmt.Println` adds, one request yields exactly one line of output. -/
theorem response_is_one_line (now : Clock) (text out : String)
    (h : handleLine now text = some out) :
    '\n' ∉ out.data ∧ '\r' ∉ out.data ∧ (out.data ++ ['\n']).count '\n' = 1 := by
  rw [handleLine_eq] at h
  cases hu : Unmarshal (TrimSpace text) with
  | none => simp [hu] at h
  | some req =>
    rw [hu] at h
    simp only [Option.map_some', Option.some.injEq] at h
    have hs := oneLine_Marshal (respond now req)
    rw [h] at hs
    have h1 : '\n' ∉ out.data := fun hc => (hs _ hc).1 rfl
    have h2 : '\r' ∉ out.data := fun hc => (hs _ hc).2 rfl
    refine ⟨h1, h2, ?_⟩
    rw [List.count_append, List.count_eq_zero_of_not_mem h1]
    rfl

set_option maxRecDepth 100000 in
/-- A method and an id with line feeds and a carriage return, written as
JSON escapes, come back escaped. -/
theorem response_is_one_line_witness :
    handleLine sampleClock "\x7b\"method\":\"a\\nb\",\"id\":\"c\\rd\\u000a\"\x7d" =
        some "\x7b\"error\":\"Unknown method: a\\nb\",\"id\":\"c\\rd\\n\"\x7d" ∧
      '\n' ∉ "\x7b\"error\":\"Unknown method: a\\nb\",\"id\":\"c\\rd\\n\"\x7d".data :=
  ⟨by decide, (response_is_one_line sampleClock
    "\x7b\"method\":\"a\\nb\",\"id\":\"c\\rd\\u000a\"\x7d"
    "\x7b\"error\":\"Unknown method: a\\nb\",\"id\":\"c\\rd\\n\"\x7d" (by decide)).1⟩

/-- C10, as stated, fails. Two requests with the same method and the same
id, one without params and one whose params hold a string of 65536 letters,
both decode; `main` answers the first and prints nothing for the second,
which does not fit the buffer of the scanner and ends the loop. -/
theorem long_params_line_gets_no_response :
    Unmarshal (TrimSpace "\x7b\"method\":\"InsertDate\",\"id\":\"a\"\x7d") =
        some ⟨"InsertDate", none, .string "a"⟩ ∧
      Unmarshal (TrimSpace longParamsLine) =
        some ⟨"InsertDate", some [.string (String.mk (List.replicate 65536 'x'))],
          .string "a"⟩ ∧
      main [(sampleClock, "\x7b\"method\":\"InsertDate\",\"id\":\"a\"\x7d")] =
        ["\x7b\"result\":\"2024-01-15\",\"id\":\"a\"\x7d"] ∧
      main [(sampleClock, longParamsLine)] = [] :=
  ⟨by rfl, Unmarshal_paramsLine _ (escapeChars_replicate _), by decide,
    main_cons_too_long _ _ (fitsBuffer_paramsLine _ (le_refl _))⟩

/-- C10, amended. The params of a request do not influence the response as
long as the line fits the buffer of the scanner. For two lines that decode
to requests with the same method and the same id, `main` emits the same
response lines at the same clock reading, alone or at the same place in
any sequence of lines, exactly when both lines are shorter than 65536
bytes or neither is; a line that fits is answered with the response to the
request without its params. -/
theorem params_do_not_matter (now : Clock) (raw1 raw2 : String) (req1 req2 : Request)
    (h1 : Unmarshal (TrimSpace raw1) = some req1) (h2 : Unmarshal (TrimSpace raw2) = some req2)
    (hm : req1.Method = req2.Method) (hid : req1.ID = req2.ID) :
    (main [(now, raw1)] = main [(now, raw2)] ↔ fitsBuffer raw1 = fitsBuffer raw2) ∧
      (fitsBuffer raw1 = fitsBuffer raw2 → ∀ xs ys : List (Clock × String),
        main (xs ++ (now, raw1) :: ys) = main (xs ++ (now, raw2) :: ys)) ∧
      (fitsBuffer raw1 = true →
        main [(now, raw1)] = [Marshal (respond now ⟨req1.Method, none, req1.ID⟩)]) := by
  have hr : ∀ r : Request, respond now r = respond now ⟨r.Method, none, r.ID⟩ := by
    intro r; rfl
  have hl1 : handleLine now raw1 = some (Marshal (respond now ⟨req1.Method, none, req1.ID⟩)) := by
    rw [handleLine_eq, h1, Option.map_some', hr req1]
  have hl2 : handleLine now raw2 = some (Marshal (respond now ⟨req1.Method, none, req1.ID⟩)) := by
    rw [handleLine_eq, h2, Option.map_some', hr req2, hm, hid]
  have hcons : fitsBuffer raw1 = fitsBuffer raw2 → ∀ ys : List (Clock × String),
      main ((now, raw1) :: ys) = main ((now, raw2) :: ys) := by
    intro hf ys
    cases hf1 : fitsBuffer raw1 with
    | true =>
      rw [main_cons_fits _ _ hf1, main_cons_fits _ _ (show fitsBuffer raw2 = true by rw [← hf, hf1])]
      show (handleLine now raw1).toList ++ _ = (handleLine now raw2).toList ++ _
      rw [hl1, hl2]
    | false =>
      rw [main_cons_too_long _ _ hf1,
        main_cons_too_long _ _ (show fitsBuffer raw2 = false by rw [← hf, hf1])]
  refine ⟨⟨?_, fun hf => hcons hf []⟩, ?_, ?_⟩
  · intro heq
    cases hf1 : fitsBuffer raw1 with
    | true =>
      cases hf2 : fitsBuffer raw2 with
      | true => rfl
      | false =>
        rw [main_cons_fits _ _ hf1, main_cons_too_long _ _ hf2] at heq
        simp only at heq
        rw [hl1] at heq
        simp at heq
    | false =>
      cases hf2 : fitsBuffer raw2 with
      | false => rfl
      | true =>
        rw [main_cons_too_long _ _ hf1, main_cons_fits _ _ hf2] at heq
        simp only at heq
        rw [hl2] at heq
        simp at heq
  · intro hf xs ys
    induction xs with
    | nil => exact hcons hf ys
    | cons q xs ih =>
      rw [List.cons_append, List.cons_append]
      cases hq : fitsBuffer q.2 with
      | true => rw [main_cons_fits _ _ hq, main_cons_fits _ _ hq, ih]
      | false => rw [main_cons_too_long _ _ hq, main_cons_too_long _ _ hq]
  · intro hf1
    rw [main_cons_fits _ _ hf1]
    show (handleLine now raw1).toList ++ main [] = _
    rw [hl1]
    rfl

unseal expBias roundBinary in
set_option maxRecDepth 100000 in
set_option exponentiation.threshold 3000 in
/-- A request without params and a request with four params of different
kinds get the same response, alone and between two other requests. -/
theorem params_do_not_matter_witness :
    main [(sampleClock, "\x7b\"method\":\"InsertDate\",\"id\":\"a\"\x7d")] =
        main [(sampleClock,
          "\x7b\"method\":\"InsertDate\",\"params\":[1,\"x\",[null],\x7b\"k\":true\x7d],\"id\":\"a\"\x7d")] ∧
      main [(sampleClock, "\x7b\"method\":\"InsertDate\",\"id\":\"a\"\x7d")] =
        ["\x7b\"result\":\"2024-01-15\",\"id\":\"a\"\x7d"] :=
  have h := params_do_not_matter sampleClock "\x7b\"method\":\"InsertDate\",\"id\":\"a\"\x7d"
    "\x7b\"method\":\"InsertDate\",\"params\":[1,\"x\",[null],\x7b\"k\":true\x7d],\"id\":\"a\"\x7d"
    ⟨"InsertDate", none, .string "a"⟩
    ⟨"InsertDate", some [.float64 ⟨false, 4503599627370496, 1022⟩, .string "x", .slice [.nil],
      .map [("k", .bool true)]], .string "a"⟩ rfl rfl rfl rfl
  ⟨h.1.mpr (by decide), (h.2.2 (by decide)).trans (by decide)⟩

end Dtp
